import Mathlib

/-!
The presence service of `lib/services/presence.go`

A shallow embedding of the presence registry (`PresenceService`), of the `Server` and
`CommandLabel` records and of their JSON form, together with the parts of the Go standard
library that `presence.go` calls and on which the behaviour described by the specification
depends: `time.Duration.String`, `time.ParseDuration`, `json.Marshal` and `json.Unmarshal`.

Conventions.

* A Go `string` or `[]byte` is a list of bytes; a byte is a natural number below 256.
* Unsigned 64-bit arithmetic is arithmetic on `Nat` with an explicit `% 2^64` where the
  Go code can wrap; `int64` values are integers in `[-2^63, 2^63)`.
* A loop whose bound is not structural carries a fuel argument; the entry point passes a
  fuel that the loop cannot exhaust.
* `JsonImpl` names the implementation of `encoding/json` that the program is linked with.
  Every function that decodes takes it as its first argument, and a statement about an
  arbitrary `impl` holds with either implementation.
-/

namespace Presence

deriving instance DecidableEq for Except

/-- Go `string` and `[]byte`: a list of bytes (natural numbers below 256). -/
abbrev Bytes := List Nat

/-! ## `time.Duration` -/

/-- Go `time.Microsecond`, in nanoseconds. -/
def Microsecond : Nat := 1000
/-- Go `time.Millisecond`, in nanoseconds. -/
def Millisecond : Nat := 1000000
/-- Go `time.Second`, in nanoseconds. -/
def Second : Nat := 1000000000
/-- Go `time.Minute`, in nanoseconds. -/
def Minute : Nat := 60000000000
/-- Go `time.Hour`, in nanoseconds. -/
def Hour : Nat := 3600000000000

/-- The conversion `uint64(d)` of an `int64`. -/
def toUint64 (d : Int) : Nat := (d % 2 ^ 64).toNat

/-- The conversion `int64(u)` (Go `Duration(u)`) of a `uint64`, and more generally the
wrap-around of an integer into the `int64` range. -/
def toInt64 (x : Int) : Int := (x + 2 ^ 63) % 2 ^ 64 - 2 ^ 63

/-- The loop of `time.fmtFrac`: `n` more digits of `v` are peeled off, least significant
first, and written in front of `buf` once a non-zero digit has been seen. -/
def fmtFracLoop : Nat → Bytes → Nat → Bool → Bytes × Nat × Bool
  | 0, buf, v, print => (buf, v, print)
  | n + 1, buf, v, print =>
    let digit := v % 10
    let print := print || digit != 0
    fmtFracLoop n (if print then (digit + 48) :: buf else buf) (v / 10) print

/-- Go `time.fmtFrac`: formats the fraction of `v / 10^prec` in front of `buf`, omitting
trailing zeros and the decimal point when the fraction is 0; returns also `v / 10^prec`. -/
def fmtFrac (buf : Bytes) (v prec : Nat) : Bytes × Nat :=
  match fmtFracLoop prec buf v false with
  | (buf, v, print) => (if print then 46 :: buf else buf, v)

/-- The loop `for v > 0` of `time.fmtInt`; a `uint64` has at most 20 decimal digits. -/
def fmtIntLoop : Nat → Nat → Bytes → Bytes
  | 0, _, buf => buf
  | fuel + 1, v, buf =>
    if v > 0 then fmtIntLoop fuel (v / 10) ((v % 10 + 48) :: buf) else buf

/-- Go `time.fmtInt`: formats `v` in decimal in front of `buf`. -/
def fmtInt (buf : Bytes) (v : Nat) : Bytes :=
  if v = 0 then 48 :: buf else fmtIntLoop 20 v buf

/-- The part of `Duration.format` for a magnitude `u` of at least one second:
`[<h>h][<m>m]<s>[.<frac>]s`. -/
def formatSeconds (u : Nat) : Bytes :=
  match fmtFrac [115] u 9 with
  | (buf, u) =>
    -- u is now integer seconds
    let buf := fmtInt buf (u % 60)
    let u := u / 60
    -- u is now integer minutes
    if u > 0 then
      let buf := fmtInt (109 :: buf) (u % 60)
      let u := u / 60
      -- u is now integer hours
      if u > 0 then fmtInt (104 :: buf) u else buf
    else buf

/-- The part of `Duration.format` for a non-zero magnitude `u` below one second: the
value in `ns`, `µs` or `ms`. -/
def formatSubSecond (u : Nat) : Bytes :=
  if u < Microsecond then
    -- print nanoseconds
    match fmtFrac [110, 115] u 0 with
    | (buf, u) => fmtInt buf u
  else if u < Millisecond then
    -- print microseconds, U+00B5 'µ' micro sign == 0xC2 0xB5
    match fmtFrac [194, 181, 115] u 3 with
    | (buf, u) => fmtInt buf u
  else
    -- print milliseconds
    match fmtFrac [109, 115] u 6 with
    | (buf, u) => fmtInt buf u

/-- Go `time.Duration.String` (`Duration.format`) on the `int64` nanosecond count `d`. -/
def Duration.String (d : Int) : Bytes :=
  let u := toUint64 d
  let neg := d < 0
  let u := if neg then (2 ^ 64 - u) % 2 ^ 64 else u
  if u < Second then
    if u = 0 then [48, 115]
    else
      let buf := formatSubSecond u
      if neg then 45 :: buf else buf
  else
    let buf := formatSeconds u
    if neg then 45 :: buf else buf

/-- Errors of `time.ParseDuration`. -/
inductive DurationError where
  | invalidDuration
  | missingUnit
  | unknownUnit
  deriving DecidableEq, Repr

/-- The loop of `time.leadingInt` with accumulator `x`; `none` is `errLeadingInt`. -/
def leadingIntLoop : Bytes → Nat → Option (Nat × Bytes)
  | [], x => some (x, [])
  | c :: s, x =>
    if c < 48 ∨ c > 57 then some (x, c :: s)
    else if x > 2 ^ 63 / 10 then none
    else
      let x := x * 10 + c - 48
      if x > 2 ^ 63 then none else leadingIntLoop s x

/-- Go `time.leadingInt`: consumes the leading `[0-9]*` of `s`. -/
def leadingInt (s : Bytes) : Option (Nat × Bytes) := leadingIntLoop s 0

/-- The loop of `time.leadingFraction`: value `x` of the digits kept so far, the power of
ten `scale` (a `float64` in Go; every power of ten up to `10^19` that can arise is exact),
and the overflow flag after which digits are skipped. -/
def leadingFractionLoop : Bytes → Nat → Nat → Bool → Nat × Nat × Bytes
  | [], x, scale, _ => (x, scale, [])
  | c :: s, x, scale, overflow =>
    if c < 48 ∨ c > 57 then (x, scale, c :: s)
    else if overflow then leadingFractionLoop s x scale overflow
    else if x > (2 ^ 63 - 1) / 10 then leadingFractionLoop s x scale true
    else
      let y := x * 10 + c - 48
      if y > 2 ^ 63 then leadingFractionLoop s x scale true
      else leadingFractionLoop s y (scale * 10) overflow

/-- Go `time.leadingFraction`: consumes the leading `[0-9]*` of `s` as a fraction
`x / scale`. -/
def leadingFraction (s : Bytes) : Nat × Nat × Bytes := leadingFractionLoop s 0 1 false

/-- Go `time.unitMap`. -/
def unitMap (u : Bytes) : Option Nat :=
  if u = [110, 115] then some 1                      -- "ns"
  else if u = [117, 115] then some Microsecond       -- "us"
  else if u = [194, 181, 115] then some Microsecond  -- "µs", U+00B5 micro symbol
  else if u = [206, 188, 115] then some Microsecond  -- "μs", U+03BC Greek letter mu
  else if u = [109, 115] then some Millisecond       -- "ms"
  else if u = [115] then some Second                 -- "s"
  else if u = [109] then some Minute                 -- "m"
  else if u = [104] then some Hour                   -- "h"
  else none

/-- A positive binary floating-point value `m * 2^e`. -/
structure F64 where
  m : Nat
  e : Int
  deriving DecidableEq, Repr

/-- IEEE-754 binary64 rounding (to nearest, ties to even) of `n * 2^e`, for values in the
normal range: the result has a significand of at most 53 bits. -/
def F64.round (n : Nat) (e : Int) : F64 :=
  if n < 2 ^ 53 then ⟨n, e⟩
  else
    let s := Nat.log2 n - 52
    let q := n / 2 ^ s
    let r := n % 2 ^ s
    let half := 2 ^ (s - 1)
    ⟨if r > half ∨ (r = half ∧ q % 2 = 1) then q + 1 else q, e + s⟩

/-- The conversion `float64(u)` of a `uint64`. -/
def F64.ofNat (u : Nat) : F64 := F64.round u 0

/-- The binary64 quotient `float64(a) / float64(b)` of two positive integers that are
exact as `float64`. The quotient is computed to more than 55 bits with a sticky last bit
and rounded once. -/
def F64.div (a b : Nat) : F64 :=
  let p := Nat.log2 b + 65
  let q := a * 2 ^ p / b
  let sticky := if a * 2 ^ p % b = 0 then 0 else 1
  F64.round (2 * q + sticky) (-(p : Int) - 1)

/-- The binary64 product. -/
def F64.mul (x y : F64) : F64 := F64.round (x.m * y.m) (x.e + y.e)

/-- The conversion `uint64(x)`: truncation toward zero. -/
def F64.toUint64 (x : F64) : Nat :=
  if 0 ≤ x.e then x.m * 2 ^ x.e.toNat else x.m / 2 ^ (-x.e).toNat

/-- The expression `uint64(float64(f) * (float64(unit) / scale))` of `time.ParseDuration`. -/
def fracNanos (f unit scale : Nat) : Nat :=
  F64.toUint64 (F64.mul (F64.ofNat f) (F64.div unit scale))

/-- The test `c == '.' || '0' <= c && c <= '9'` of `time.ParseDuration`. -/
def isDigitOrDot (c : Nat) : Bool := c == 46 || (48 ≤ c && c ≤ 57)

/-- The step `Consume (\.[0-9]*)?` of `time.ParseDuration`: the fraction `f / scale`, the
rest, and `post`, whether a digit was consumed after the period. -/
def consumeFraction (s : Bytes) : Nat × Nat × Bytes × Bool :=
  match s with
  | 46 :: t =>
    match leadingFraction t with
    | (f, scale, r) => (f, scale, r, t.length != r.length)
  | _ => (0, 1, s, false)

/-- The step `Consume unit.` of `time.ParseDuration` and the scaling that follows it: from
the integer part `v` and the fraction `f / scale` to the value of the term in nanoseconds. -/
def consumeUnit (v f scale : Nat) (s : Bytes) : Except DurationError (Nat × Bytes) :=
  match s.span (fun c => !isDigitOrDot c) with
  | (u, s3) =>
    if u = [] then .error .missingUnit
    else
      match unitMap u with
      | none => .error .unknownUnit
      | some unit =>
        if v > 2 ^ 63 / unit then .error .invalidDuration
        else
          let v := v * unit
          let v := if f > 0 then v + fracNanos f unit scale else v
          if f > 0 ∧ v > 2 ^ 63 then .error .invalidDuration
          else .ok (v, s3)

/-- One round of the loop `for s != ""` of `time.ParseDuration` on the non-empty rest
`s`: the value in nanoseconds of the leading term `[0-9]*(\.[0-9]*)?[a-z]+`, and what
follows it. -/
def parseDurationTerm : Bytes → Except DurationError (Nat × Bytes)
  | [] => .error .invalidDuration
  | c :: s' =>
    -- The next character must be [0-9.]
    if !isDigitOrDot c then .error .invalidDuration
    else
      -- Consume [0-9]*
      match leadingInt (c :: s') with
      | none => .error .invalidDuration
      | some (v, s1) =>
        let pre := (c :: s').length != s1.length
        match consumeFraction s1 with
        | (f, scale, s2, post) =>
          if !pre && !post then .error .invalidDuration
          else consumeUnit v f scale s2

/-- The loop `for s != ""` of `time.ParseDuration`, with the `uint64` accumulator `d`.
Every round consumes at least one byte, so a fuel of `s.length` is never exhausted. -/
def parseDurationLoop : Nat → Bytes → Nat → Except DurationError Nat
  | _, [], d => .ok d
  | 0, _ :: _, _ => .error .invalidDuration
  | fuel + 1, c :: s, d =>
    match parseDurationTerm (c :: s) with
    | .error e => .error e
    | .ok (v, rest) =>
      let d := (d + v) % 2 ^ 64
      if d > 2 ^ 63 then .error .invalidDuration else parseDurationLoop fuel rest d

/-- The step `Consume [-+]?` of `time.ParseDuration`: whether the sign is `-`, and the
rest. -/
def consumeSign : Bytes → Bool × Bytes
  | 45 :: t => (true, t)
  | 43 :: t => (false, t)
  | s => (false, s)

/-- Go `time.ParseDuration`: `[-+]?([0-9]*(\.[0-9]*)?[a-z]+)+`, or `0`. -/
def ParseDuration (s : Bytes) : Except DurationError Int :=
  match consumeSign s with
  | (neg, s) =>
    -- Special case: if all that is left is "0", this is zero.
    if s = [48] then .ok 0
    else if s = [] then .error .invalidDuration
    else
      match parseDurationLoop s.length s 0 with
      | .error e => .error e
      | .ok d =>
        if neg then .ok (toInt64 (-(toInt64 d)))
        else if d > 2 ^ 63 - 1 then .error .invalidDuration
        else .ok (toInt64 d)

/-- The bytes of an ASCII text. -/
def ascii (s : String) : Bytes := s.toList.map Char.toNat


/-! ## `unicode/utf8` -/

/-- Go `utf8.RuneError`, U+FFFD. -/
def RuneError : Nat := 0xFFFD

/-- The test `locb <= b && b <= hicb` of `unicode/utf8`: a continuation byte. -/
def isCont (b : Nat) : Bool := 0x80 ≤ b && b ≤ 0xBF

/-- The part of `utf8.DecodeRune` for a leading byte `p0` of a two-byte encoding. -/
def decodeRune2 (p0 : Nat) : Bytes → Nat × Nat
  | b1 :: _ => if isCont b1 then (p0 % 32 * 64 + b1 % 64, 2) else (RuneError, 1)
  | [] => (RuneError, 1)

/-- The part of `utf8.DecodeRune` for a leading byte `p0` of a three-byte encoding; the
range accepted for the second byte excludes the overlong encodings and the surrogates. -/
def decodeRune3 (p0 : Nat) : Bytes → Nat × Nat
  | b1 :: b2 :: _ =>
    let lo := if p0 = 0xE0 then 0xA0 else 0x80
    let hi := if p0 = 0xED then 0x9F else 0xBF
    if b1 < lo ∨ hi < b1 then (RuneError, 1)
    else if !isCont b2 then (RuneError, 1)
    else (p0 % 16 * 4096 + b1 % 64 * 64 + b2 % 64, 3)
  | _ => (RuneError, 1)

/-- The part of `utf8.DecodeRune` for a leading byte `p0` of a four-byte encoding; the
range accepted for the second byte excludes the overlong encodings and the values above
U+10FFFF. -/
def decodeRune4 (p0 : Nat) : Bytes → Nat × Nat
  | b1 :: b2 :: b3 :: _ =>
    let lo := if p0 = 0xF0 then 0x90 else 0x80
    let hi := if p0 = 0xF4 then 0x8F else 0xBF
    if b1 < lo ∨ hi < b1 then (RuneError, 1)
    else if !isCont b2 then (RuneError, 1)
    else if !isCont b3 then (RuneError, 1)
    else (p0 % 8 * 262144 + b1 % 64 * 4096 + b2 % 64 * 64 + b3 % 64, 4)
  | _ => (RuneError, 1)

/-- Go `utf8.DecodeRune`: the first rune of `p` and its width in bytes; `(RuneError, 1)`
for an invalid or incomplete encoding, `(RuneError, 0)` for the empty input. The table
`first` and the `acceptRanges` of the source are written out as byte ranges. -/
def decodeRune : Bytes → Nat × Nat
  | [] => (RuneError, 0)
  | p0 :: r =>
    if p0 < 0x80 then (p0, 1)
    else if p0 < 0xC2 ∨ 0xF4 < p0 then (RuneError, 1)
    else if p0 < 0xE0 then decodeRune2 p0 r
    else if p0 < 0xF0 then decodeRune3 p0 r
    else decodeRune4 p0 r

/-- Go `utf8.EncodeRune` (`utf8.AppendRune`) on a non-negative rune: the UTF-8 encoding
of `r`, that of U+FFFD for a surrogate or a value above U+10FFFF. -/
def encodeRune (r : Nat) : Bytes :=
  if r ≤ 0x7F then [r]
  else if r ≤ 0x7FF then [0xC0 + r / 64, 0x80 + r % 64]
  else if r > 0x10FFFF ∨ (0xD800 ≤ r ∧ r ≤ 0xDFFF) then [0xEF, 0xBF, 0xBD]
  else if r ≤ 0xFFFF then [0xE0 + r / 4096, 0x80 + r / 64 % 64, 0x80 + r % 64]
  else [0xF0 + r / 262144, 0x80 + r / 4096 % 64, 0x80 + r / 64 % 64, 0x80 + r % 64]

/-- Go `utf8.Valid`: the bytes are a sequence of well-formed UTF-8 encodings. The fuel
bounds the number of runes. -/
def validUTF8Loop : Nat → Bytes → Bool
  | _, [] => true
  | 0, _ :: _ => false
  | fuel + 1, b :: r =>
    match decodeRune (b :: r) with
    | (c, size) =>
      if c = RuneError ∧ size = 1 then false
      else validUTF8Loop fuel (r.drop (size - 1))

/-- Go `utf8.Valid`. -/
def validUTF8 (s : Bytes) : Bool := validUTF8Loop s.length s

/-! ## `encoding/json`: string literals -/

/-- The digit `hex[n]` of `encoding/json`, `"0123456789abcdef"`. -/
def hexDigit (n : Nat) : Nat := if n < 10 then 48 + n else 87 + n

/-- The table `htmlSafeSet` of `encoding/json`: the ASCII bytes that a JSON string holds
unescaped when HTML escaping is on. -/
def htmlSafeSet (b : Nat) : Bool :=
  0x20 ≤ b && b < 0x80 && b != 34 && b != 38 && b != 60 && b != 62 && b != 92

/-- The escape that `appendString` writes for an ASCII byte outside `htmlSafeSet`. -/
def escapeByte (b : Nat) : Bytes :=
  if b = 92 ∨ b = 34 then [92, b]
  else if b = 8 then [92, 98]
  else if b = 12 then [92, 102]
  else if b = 10 then [92, 110]
  else if b = 13 then [92, 114]
  else if b = 9 then [92, 116]
  else [92, 117, 48, 48, hexDigit (b / 16), hexDigit (b % 16)]

/-- The loop of `encoding/json.appendString` with `escapeHTML` on: the body of the JSON
string literal for `src`. Every round consumes at least one byte. -/
def appendStringLoop : Nat → Bytes → Bytes
  | _, [] => []
  | 0, _ :: _ => []
  | fuel + 1, b :: r =>
    if b < 0x80 then
      (if htmlSafeSet b then [b] else escapeByte b) ++ appendStringLoop fuel r
    else
      match decodeRune (b :: r) with
      | (c, size) =>
        if c = RuneError ∧ size = 1 then
          [92, 117, 102, 102, 102, 100] ++ appendStringLoop fuel r
        else if c = 0x2028 ∨ c = 0x2029 then
          [92, 117, 50, 48, 50, hexDigit (c % 16)] ++ appendStringLoop fuel (r.drop (size - 1))
        else (b :: r).take size ++ appendStringLoop fuel (r.drop (size - 1))

/-- Go `encoding/json.appendString` with `escapeHTML` on: the JSON string literal for the
Go string `src`, coerced to valid UTF-8. -/
def appendString (src : Bytes) : Bytes :=
  34 :: (appendStringLoop src.length src ++ [34])

/-- The value of a hexadecimal digit, `none` for another byte. -/
def hexVal (c : Nat) : Option Nat :=
  if 48 ≤ c ∧ c ≤ 57 then some (c - 48)
  else if 97 ≤ c ∧ c ≤ 102 then some (c - 97 + 10)
  else if 65 ≤ c ∧ c ≤ 70 then some (c - 65 + 10)
  else none

/-- Go `encoding/json.getu4`: the rune of a leading `\uXXXX`, `none` (`-1` in Go) if
there is none. -/
def getu4 : Bytes → Option Nat
  | 92 :: 117 :: h1 :: h2 :: h3 :: h4 :: _ =>
    match hexVal h1, hexVal h2, hexVal h3, hexVal h4 with
    | some a, some b, some c, some d => some (a * 4096 + b * 256 + c * 16 + d)
    | _, _, _, _ => none
  | _ => none

/-- Go `utf16.DecodeRune`: the code point of a surrogate pair, U+FFFD if the pair is not
valid. -/
def utf16DecodeRune (r1 r2 : Nat) : Nat :=
  if 0xD800 ≤ r1 ∧ r1 < 0xDC00 ∧ 0xDC00 ≤ r2 ∧ r2 < 0xE000 then
    (r1 - 0xD800) * 1024 + (r2 - 0xDC00) + 0x10000
  else 0xFFFD

/-- One round of the second loop of `encoding/json.unquoteBytes`, at the byte `c` followed
by `r`: the bytes written, and how many bytes of `r` are read with `c`; `none` is
`ok == false`. -/
def unquoteStep (c : Nat) (r : Bytes) : Option (Bytes × Nat) :=
  if c = 92 then
    match r with
    | [] => none
    | e :: _ =>
      if e = 34 ∨ e = 92 ∨ e = 47 ∨ e = 39 then some ([e], 1)
      else if e = 98 then some ([8], 1)
      else if e = 102 then some ([12], 1)
      else if e = 110 then some ([10], 1)
      else if e = 114 then some ([13], 1)
      else if e = 116 then some ([9], 1)
      else if e = 117 then
        match getu4 (c :: r) with
        | none => none
        | some rr =>
          if 0xD800 ≤ rr ∧ rr < 0xE000 then
            -- utf16.IsSurrogate(rr)
            let dec := match getu4 (r.drop 5) with
              | some rr1 => utf16DecodeRune rr rr1
              | none => 0xFFFD
            if dec ≠ 0xFFFD then
              -- A valid pair; consume.
              some (encodeRune dec, 11)
            else
              -- Invalid surrogate; fall back to replacement rune.
              some (encodeRune 0xFFFD, 5)
          else some (encodeRune rr, 5)
      else none
  else if c = 34 ∨ c < 32 then none
  else if c < 0x80 then some ([c], 0)
  else
    -- Coerce to well-formed UTF-8.
    match decodeRune (c :: r) with
    | (rr, size) => some (encodeRune rr, size - 1)

/-- The second loop of `encoding/json.unquoteBytes` on the body `s` of a string literal
(the first loop only finds the longest prefix that needs no change): `none` is
`ok == false`. Every round consumes at least one byte. -/
def unquoteLoop : Nat → Bytes → Option Bytes
  | _, [] => some []
  | 0, _ :: _ => none
  | fuel + 1, c :: r =>
    match unquoteStep c r with
    | none => none
    | some (out, k) => (unquoteLoop fuel (r.drop k)).map (out ++ ·)

/-- Go `encoding/json.unquoteBytes`: the Go string that the JSON string literal `s`
(quotes included) denotes. -/
def unquoteBytes (s : Bytes) : Option Bytes :=
  match s with
  | 34 :: t =>
    if t.getLast? = some 34 then unquoteLoop t.length t.dropLast else none
  | _ => none

/-! ## `encoding/json`: the scanner

`json.Unmarshal` first runs the scanner of `scanner.go` over the whole input
(`checkValid`) and then decodes, using the same scanner to find where each value ends.
The embedding reads the input once, by recursive descent over the grammar that the
scanner accepts, into a tree that keeps the source text of every value; the decoders work
on that tree. -/

/-- A JSON value as the decoder sees it, with its source text `raw`. A literal is a
string, a number, `true`, `false` or `null`; the key of a member is the source text of a
string literal. -/
inductive JValue where
  | literal (raw : Bytes)
  | array (raw : Bytes) (elems : List JValue)
  | object (raw : Bytes) (members : List (Bytes × JValue))
  deriving Repr

/-- The source text of a value, as `d.data[start:d.off]` in `decode.go`. -/
def JValue.raw : JValue → Bytes
  | .literal raw => raw
  | .array raw _ => raw
  | .object raw _ => raw

/-- Go `encoding/json.isSpace`. -/
def isSpace (c : Nat) : Bool := c == 32 || c == 9 || c == 13 || c == 10

/-- The scanner skips the white space in front of a token. -/
def skipSpace (s : Bytes) : Bytes := s.dropWhile isSpace

/-- The limit `maxNestingDepth` of `scanner.go`. -/
def maxNestingDepth : Nat := 10000

/-- A decimal digit. -/
def isDigit (c : Nat) : Bool := 48 ≤ c && c ≤ 57

/-- A hexadecimal digit, as tested by `stateInStringEscU`. -/
def isHex (c : Nat) : Bool :=
  (48 ≤ c && c ≤ 57) || (97 ≤ c && c ≤ 102) || (65 ≤ c && c ≤ 70)

/-- The scanner states `stateInString`, `stateInStringEsc` and `stateInStringEscU*`: from
behind the opening quote of a string literal to behind its closing quote. -/
def scanString : Bytes → Option Bytes
  | [] => none
  | c :: r =>
    if c = 34 then some r
    else if c = 92 then
      match r with
      | [] => none
      | e :: r1 =>
        if e = 98 ∨ e = 102 ∨ e = 110 ∨ e = 114 ∨ e = 116 ∨ e = 92 ∨ e = 47 ∨ e = 34 then
          scanString r1
        else if e = 117 then
          match r1 with
          | h1 :: h2 :: h3 :: h4 :: r2 =>
            if isHex h1 && isHex h2 && isHex h3 && isHex h4 then scanString r2 else none
          | _ => none
        else none
    else if c < 32 then none
    else scanString r

/-- The scanner states `stateE`, `stateESign` and `stateE0`: an optional exponent. -/
def scanExp (s : Bytes) : Option Bytes :=
  match s with
  | c :: r =>
    if c = 101 ∨ c = 69 then
      let r := match r with
        | d :: r' => if d = 43 ∨ d = 45 then r' else r
        | [] => r
      match r with
      | d :: r' => if isDigit d then some (r'.dropWhile isDigit) else none
      | [] => none
    else some s
  | [] => some s

/-- The scanner states `state0`, `stateDot` and `stateDot0`: an optional fraction, then
an optional exponent. -/
def scanFrac (s : Bytes) : Option Bytes :=
  match s with
  | c :: r =>
    if c = 46 then
      match r with
      | d :: r' => if isDigit d then scanExp (r'.dropWhile isDigit) else none
      | [] => none
    else scanExp s
  | [] => scanExp s

/-- The scanner states `stateNeg`, `state0` and `state1`: a number, from its first byte
to behind its last. -/
def scanNumber (s : Bytes) : Option Bytes :=
  let s := match s with
    | c :: r => if c = 45 then r else s
    | [] => s
  match s with
  | c :: r =>
    if c = 48 then scanFrac r
    else if 49 ≤ c ∧ c ≤ 57 then scanFrac (r.dropWhile isDigit)
    else none
  | [] => none

/-- The scanner states of `true`, `false` and `null`: the text `lit` in front of `s`. -/
def scanKeyword (lit s : Bytes) : Option Bytes :=
  if s.take lit.length = lit then some (s.drop lit.length) else none

/-- What is read of `s` when `rest` is left. -/
def consumed (s rest : Bytes) : Bytes := s.take (s.length - rest.length)

mutual

/-- The scanner from `stateBeginValue`: a value in front of `s`, below `depth` open
arrays and objects, and what follows it. -/
def parseValue : Nat → Nat → Bytes → Option (JValue × Bytes)
  | 0, _, _ => none
  | fuel + 1, depth, s =>
    match skipSpace s with
    | [] => none
    | c :: r =>
      if c = 123 then
        if depth + 1 > maxNestingDepth then none
        else
          match skipSpace r with
          | [] => none
          | c' :: r' =>
            if c' = 125 then some (.object (consumed (c :: r) r') [], r')
            else
              match parseMembers fuel (depth + 1) r with
              | none => none
              | some (ms, rest) => some (.object (consumed (c :: r) rest) ms, rest)
      else if c = 91 then
        if depth + 1 > maxNestingDepth then none
        else
          match skipSpace r with
          | [] => none
          | c' :: r' =>
            if c' = 93 then some (.array (consumed (c :: r) r') [], r')
            else
              match parseElements fuel (depth + 1) r with
              | none => none
              | some (es, rest) => some (.array (consumed (c :: r) rest) es, rest)
      else if c = 34 then
        match scanString r with
        | none => none
        | some rest => some (.literal (consumed (c :: r) rest), rest)
      else if c = 45 ∨ isDigit c then
        match scanNumber (c :: r) with
        | none => none
        | some rest => some (.literal (consumed (c :: r) rest), rest)
      else if c = 116 then
        match scanKeyword [116, 114, 117, 101] (c :: r) with
        | none => none
        | some rest => some (.literal [116, 114, 117, 101], rest)
      else if c = 102 then
        match scanKeyword [102, 97, 108, 115, 101] (c :: r) with
        | none => none
        | some rest => some (.literal [102, 97, 108, 115, 101], rest)
      else if c = 110 then
        match scanKeyword [110, 117, 108, 108] (c :: r) with
        | none => none
        | some rest => some (.literal [110, 117, 108, 108], rest)
      else none

/-- The scanner from `stateBeginString` inside an object: the members up to the closing
brace, and what follows it. -/
def parseMembers : Nat → Nat → Bytes → Option (List (Bytes × JValue) × Bytes)
  | 0, _, _ => none
  | fuel + 1, depth, s =>
    match skipSpace s with
    | [] => none
    | q :: r =>
      if q ≠ 34 then none
      else
        match scanString r with
        | none => none
        | some r1 =>
          let key := consumed (q :: r) r1
          match skipSpace r1 with
          | [] => none
          | c :: r2 =>
            if c ≠ 58 then none
            else
              match parseValue fuel depth r2 with
              | none => none
              | some (v, r3) =>
                match skipSpace r3 with
                | [] => none
                | c' :: r4 =>
                  if c' = 125 then some ([(key, v)], r4)
                  else if c' = 44 then
                    match parseMembers fuel depth r4 with
                    | none => none
                    | some (ms, rest) => some ((key, v) :: ms, rest)
                  else none

/-- The scanner from `stateBeginValue` inside an array: the elements up to the closing
bracket, and what follows it. -/
def parseElements : Nat → Nat → Bytes → Option (List JValue × Bytes)
  | 0, _, _ => none
  | fuel + 1, depth, s =>
    match parseValue fuel depth s with
    | none => none
    | some (v, r1) =>
      match skipSpace r1 with
      | [] => none
      | c :: r2 =>
        if c = 93 then some ([v], r2)
        else if c = 44 then
          match parseElements fuel depth r2 with
          | none => none
          | some (es, rest) => some (v :: es, rest)
        else none

end

/-- Go `encoding/json.checkValid` together with the boundaries of the values: the tree of
the JSON text `data`, `none` if `data` is not one well-formed JSON value (a
`*json.SyntaxError`). No round of the descent leaves its input longer, and at most one
round in a row leaves it as long, so the fuel is never exhausted. -/
def parseJSON (data : Bytes) : Option JValue :=
  match parseValue (2 * data.length + 2) 0 data with
  | none => none
  | some (v, rest) => if skipSpace rest = [] then some v else none

/-! ## Go maps and slices, and the records of `presence.go` -/

/-- The order `<` of Go strings: bytewise lexicographic. -/
def bytesLt : Bytes → Bytes → Bool
  | [], [] => false
  | [], _ :: _ => true
  | _ :: _, [] => false
  | a :: s, b :: t => a < b || (a == b && bytesLt s t)

/-- A Go `map[string]V` that is not nil: its entries, in increasing order of the keys.
A list stands for a Go map when `GoMap.sorted` holds of it. -/
abbrev GoMap (α : Type) := List (Bytes × α)

/-- The keys of the entries increase strictly: the list stands for a Go map. -/
def GoMap.sorted {α : Type} : GoMap α → Bool
  | [] => true
  | a :: m => m.all (fun b => bytesLt a.1 b.1) && GoMap.sorted m

/-- The assignment `m[k] = v` (`reflect.Value.SetMapIndex`). -/
def GoMap.insert {α : Type} (k : Bytes) (v : α) : GoMap α → GoMap α
  | [] => [(k, v)]
  | (k', v') :: m =>
    if k = k' then (k, v) :: m
    else if bytesLt k k' then (k, v) :: (k', v') :: m
    else (k', v') :: GoMap.insert k v m

/-- The record `CommandLabel` of `presence.go`. `Command` is a `[]string`; `none` is the
nil slice. -/
structure CommandLabel where
  Period : Int
  Command : Option (List Bytes)
  Result : Bytes
  deriving DecidableEq, Repr

/-- The record `Server` of `presence.go`. `none` is the nil map. -/
structure Server where
  ID : Bytes
  Addr : Bytes
  Hostname : Bytes
  Labels : Option (GoMap Bytes)
  CmdLabels : Option (GoMap CommandLabel)
  deriving DecidableEq, Repr

/-- A `[]string` while it is decoded into: its elements (`none` is the nil slice) and the
elements of its backing array behind its length, which `SetLen` uncovers again. -/
structure StringSlice where
  elems : Option (List Bytes)
  spare : List Bytes
  deriving DecidableEq, Repr

/-- The local record `commandLabel` of `MarshalJSON` and `UnmarshalJSON`, whose `Period`
is a string. -/
structure commandLabel where
  Period : Bytes
  Command : StringSlice
  Result : Bytes
  deriving DecidableEq, Repr

/-- The zero value of `Server`. -/
def Server.zero : Server := ⟨[], [], [], none, none⟩

/-- The zero value of `CommandLabel`. -/
def CommandLabel.zero : CommandLabel := ⟨0, none, []⟩

/-- The zero value of `commandLabel`. -/
def commandLabel.zero : commandLabel := ⟨[], ⟨none, []⟩, []⟩

/-- Errors of `encoding/json` and of the methods it calls. -/
inductive JsonError where
  /-- A `*json.SyntaxError`: the input is not a JSON text. -/
  | syntaxError
  /-- A `*json.UnmarshalTypeError`: a JSON value does not fit its Go target. -/
  | unmarshalType
  /-- The error of `time.ParseDuration`, returned by `CommandLabel.UnmarshalJSON`. -/
  | duration (e : DurationError)
  /-- The decoder met what the scanner cannot have accepted (`phasePanicMsg`). -/
  | phase
  /-- A `*json.MarshalerError`: `MarshalJSON` did not return a JSON text. -/
  | marshaler
  deriving DecidableEq, Repr

/-! ## `encoding/json`: `Marshal` -/

/-- The elements of an array of strings, separated by commas (`arrayEncoder`). -/
def encodeElems : List Bytes → Bytes
  | [] => []
  | [x] => appendString x
  | x :: xs => appendString x ++ 44 :: encodeElems xs

/-- The encoder of `[]string` (`sliceEncoder`): `null` for the nil slice. -/
def encodeStringSlice : Option (List Bytes) → Bytes
  | none => [110, 117, 108, 108]
  | some xs => 91 :: (encodeElems xs ++ [93])

/-- Go `json.Marshal` on the local record `commandLabel`:
`{"period":…,"command":…,"result":…}`. -/
def Marshal_commandLabel (label : commandLabel) : Bytes :=
  ascii "\x7b\"period\":" ++ appendString label.Period
    ++ ascii ",\"command\":" ++ encodeStringSlice label.Command.elems
    ++ ascii ",\"result\":" ++ appendString label.Result ++ [125]

/-- `CommandLabel.MarshalJSON` of `presence.go`. -/
def CommandLabel.MarshalJSON (l : CommandLabel) : Bytes :=
  Marshal_commandLabel
    { Period := Duration.String l.Period
      Command := ⟨l.Command, []⟩
      Result := l.Result }

/-- The escapes of `encoding/json.appendCompact` with `escape` on, byte by byte: `<`, `>`
and `&` become `\u00XX`, and the encodings `E2 80 A8` and `E2 80 A9` of U+2028 and U+2029
become ` ` and ` `; `skip` counts the bytes still to pass over after such an
encoding (`start = i + 3` in the source). -/
def escapeHTMLLoop : Nat → Bytes → Bytes
  | _, [] => []
  | skip + 1, _ :: r => escapeHTMLLoop skip r
  | 0, c :: r =>
    if c = 60 ∨ c = 62 ∨ c = 38 then
      [92, 117, 48, 48, hexDigit (c / 16), hexDigit (c % 16)] ++ escapeHTMLLoop 0 r
    else
      match r with
      | b1 :: b2 :: _ =>
        if c = 0xE2 ∧ b1 = 0x80 ∧ (b2 = 0xA8 ∨ b2 = 0xA9) then
          [92, 117, 50, 48, 50, hexDigit (b2 % 16)] ++ escapeHTMLLoop 2 r
        else c :: escapeHTMLLoop 0 r
      | _ => c :: escapeHTMLLoop 0 r

/-- The escapes of `encoding/json.appendCompact` on the text of a token. -/
def escapeHTML (s : Bytes) : Bytes := escapeHTMLLoop 0 s

mutual

/-- What `appendCompact` keeps of a value: its tokens, escaped, without the white space
between them. -/
def compactValue : JValue → Bytes
  | .literal raw => escapeHTML raw
  | .array _ es => 91 :: (compactElems es ++ [93])
  | .object _ ms => 123 :: (compactMembers ms ++ [125])

/-- The elements of an array for `compactValue`. -/
def compactElems : List JValue → Bytes
  | [] => []
  | [v] => compactValue v
  | v :: vs => compactValue v ++ 44 :: compactElems vs

/-- The members of an object for `compactValue`. -/
def compactMembers : List (Bytes × JValue) → Bytes
  | [] => []
  | [(k, v)] => escapeHTML k ++ 58 :: compactValue v
  | (k, v) :: ms => escapeHTML k ++ 58 :: compactValue v ++ 44 :: compactMembers ms

end

/-- Go `encoding/json.appendCompact` with `escape` on, as `marshalerEncoder` applies it to
the result of `MarshalJSON`: `none` if `src` is not a JSON text. -/
def compact (src : Bytes) : Option Bytes := (parseJSON src).map compactValue

/-- The entries of a `map[string]string` for `mapEncoder`, in the order given. -/
def encodeStringEntries : List (Bytes × Bytes) → Bytes
  | [] => []
  | [(k, v)] => appendString k ++ 58 :: appendString v
  | (k, v) :: m => appendString k ++ 58 :: appendString v ++ 44 :: encodeStringEntries m

/-- The sort of the entries by key that `mapEncoder` performs before it writes them. -/
def sortEntries {α : Type} (m : List (Bytes × α)) : List (Bytes × α) :=
  m.insertionSort (fun a b => !bytesLt b.1 a.1)

/-- The encoder of `map[string]string` (`mapEncoder`): `null` for the nil map, else the
entries sorted by key. -/
def encodeStringMap : Option (GoMap Bytes) → Bytes
  | none => [110, 117, 108, 108]
  | some m => 123 :: (encodeStringEntries (sortEntries m) ++ [125])

/-- The entries of a `map[string]CommandLabel`: every value goes through
`marshalerEncoder`, that is `MarshalJSON` and `appendCompact`; `none` is a
`*json.MarshalerError`. -/
def encodeCmdEntries : List (Bytes × CommandLabel) → Option Bytes
  | [] => some []
  | [(k, v)] => (compact v.MarshalJSON).map (fun b => appendString k ++ 58 :: b)
  | (k, v) :: m =>
    match compact v.MarshalJSON, encodeCmdEntries m with
    | some b, some rest => some (appendString k ++ 58 :: b ++ 44 :: rest)
    | _, _ => none

/-- The encoder of `map[string]CommandLabel`. -/
def encodeCmdMap : Option (GoMap CommandLabel) → Option Bytes
  | none => some [110, 117, 108, 108]
  | some m => (encodeCmdEntries (sortEntries m)).map (fun b => 123 :: (b ++ [125]))

/-- Go `json.Marshal` on a `Server`:
`{"id":…,"addr":…,"hostname":…,"labels":…,"cmd_labels":…}`; `none` is an error. -/
def Marshal_Server (s : Server) : Option Bytes :=
  (encodeCmdMap s.CmdLabels).map fun cmd =>
    ascii "\x7b\"id\":" ++ appendString s.ID
      ++ ascii ",\"addr\":" ++ appendString s.Addr
      ++ ascii ",\"hostname\":" ++ appendString s.Hostname
      ++ ascii ",\"labels\":" ++ encodeStringMap s.Labels
      ++ ascii ",\"cmd_labels\":" ++ cmd ++ [125]

/-! ## `encoding/json`: `Unmarshal`

A decoder takes the JSON value and the current Go value of its target and returns the
new Go value. A `*json.UnmarshalTypeError` does not stop the decoding: the first one is
saved (`d.saveError`) and returned at the end. What follows the error of an `Unmarshaler`
depends on the implementation, `JsonImpl`: the original decoder stops (`d.value` returns
the error) and what was stored before stays stored; the decoder built on
`encoding/json/v2` stores the element, goes on, and returns the first error at the end. -/

/-- The implementation of `encoding/json` that the toolchain links. In the decoders
embedded here the two part at the error of an `UnmarshalJSON` method. -/
inductive JsonImpl where
  /-- The original decoder (`decode.go`): `d.object` returns the error of `d.value` at
  once, before the element is stored in the map. -/
  | legacy
  /-- The decoder built on `encoding/json/v2`, with the options of the first version: an
  error that is not a syntax error does not end the decoding; the element is stored, the
  decoding goes on, and the first such error is returned at the end. -/
  | v2
  deriving DecidableEq, Repr

/-- The first saved error is kept (`d.saveError`). -/
def saveError (saved new : Option JsonError) : Option JsonError :=
  match saved with
  | some e => some e
  | none => new

/-- `d.value` into a Go `string`: a string literal is stored unquoted, `null` leaves the
target as it is, every other value is a type error (`literalStore`, and `d.array` and
`d.object` for a target that is neither). -/
def decodeString (j : JValue) (old : Bytes) : Bytes × Option JsonError :=
  match j with
  | .literal raw =>
    match raw with
    | c :: _ =>
      if c = 110 then (old, none)
      else if c = 34 then
        match unquoteBytes raw with
        | some s => (s, none)
        | none => (old, some .phase)
      else (old, some .unmarshalType)
    | [] => (old, some .phase)
  | _ => (old, some .unmarshalType)

/-- The loop of `d.array` into a `[]string`: element `i` is decoded into `v.Index(i)`,
which holds the old element while `i < v.Len()`, else what `SetLen(i + 1)` uncovers: the
next spare element of the backing array, or the zero value once the slice has grown.
Returns the elements, the spare elements left behind them, and the saved error. -/
def decodeElems : List JValue → List Bytes → List Bytes → List Bytes × List Bytes × Option JsonError
  | [], vis, spare => ([], vis ++ spare, none)
  | j :: js, vis, spare =>
    let cur : Bytes × List Bytes × List Bytes :=
      match vis with
      | x :: vis' => (x, vis', spare)
      | [] =>
        match spare with
        | x :: sp => (x, [], sp)
        | [] => ([], [], [])
    match cur with
    | (old, vis', spare') =>
      match decodeString j old, decodeElems js vis' spare' with
      | (x, e), (xs, sp, e') => (x :: xs, sp, saveError e e')

/-- `d.value` into a `[]string`: `null` stores the nil slice, `[]` a new empty slice, an
array its elements; every other value is a type error. -/
def decodeStringSlice (j : JValue) (old : StringSlice) : StringSlice × Option JsonError :=
  match j with
  | .literal raw =>
    match raw with
    | c :: _ => if c = 110 then (⟨none, []⟩, none) else (old, some .unmarshalType)
    | [] => (old, some .phase)
  | .object _ _ => (old, some .unmarshalType)
  | .array _ [] => (⟨some [], []⟩, none)
  | .array _ es =>
    match decodeElems es (old.elems.getD []) old.spare with
    | (xs, sp, e) => (⟨some xs, sp⟩, e)

/-- The loop of `d.object` into a `map[string]string`: every value is decoded into a
zero element, which is then stored under the unquoted key. -/
def decodeStringMembers : List (Bytes × JValue) → GoMap Bytes → GoMap Bytes × Option JsonError
  | [], m => (m, none)
  | (k, j) :: ms, m =>
    match unquoteBytes k with
    | none => (m, some .phase)
    | some key =>
      match decodeString j [] with
      | (x, e) =>
        match decodeStringMembers ms (GoMap.insert key x m) with
        | (m', e') => (m', saveError e e')

/-- `d.value` into a `map[string]string`: `null` stores the nil map, an object adds its
members to the map (made first if it is nil); every other value is a type error. -/
def decodeStringMap (j : JValue) (old : Option (GoMap Bytes)) :
    Option (GoMap Bytes) × Option JsonError :=
  match j with
  | .literal raw =>
    match raw with
    | c :: _ => if c = 110 then (none, none) else (old, some .unmarshalType)
    | [] => (old, some .phase)
  | .array _ _ => (old, some .unmarshalType)
  | .object _ ms =>
    match decodeStringMembers ms (old.getD []) with
    | (m, e) => (some m, e)

/-- ASCII upper case of a byte. -/
def upperByte (c : Nat) : Nat := if 97 ≤ c ∧ c ≤ 122 then c - 32 else c

/-- The loop of `encoding/json.foldName`: ASCII letters in upper case, every other rune
replaced by the smallest rune of its case-folding orbit. Only U+017F (long s) and U+212A
(Kelvin sign) have an orbit that holds an ASCII letter, `S` and `K`; every other
non-ASCII rune is left as it is here, which does not change whether the result equals the
folded name of a field, since these names are ASCII. -/
def foldNameLoop : Nat → Bytes → Bytes
  | _, [] => []
  | 0, _ :: _ => []
  | fuel + 1, c :: r =>
    if c < 0x80 then upperByte c :: foldNameLoop fuel r
    else
      match decodeRune (c :: r) with
      | (rr, size) =>
        let folded := if rr = 0x17F then 83 else if rr = 0x212A then 75 else rr
        encodeRune folded ++ foldNameLoop fuel (r.drop (size - 1))

/-- Go `encoding/json.foldName`. -/
def foldName (s : Bytes) : Bytes := foldNameLoop s.length s

/-- The position among the JSON names `names` of the field that the key `key` of an
object selects: the field of that exact name, else the first one whose folded name is
that of the key (`byExactName`, `byFoldedName`). -/
def findField (names : List Bytes) (key : Bytes) : Option Nat :=
  match names.indexOf? key with
  | some i => some i
  | none => (names.map foldName).indexOf? (foldName key)

/-- The JSON names of the fields of the local record `commandLabel`. -/
def commandLabelFields : List Bytes := [ascii "period", ascii "command", ascii "result"]

/-- The loop of `d.object` into a `commandLabel`. -/
def decodeLabelMembers : List (Bytes × JValue) → commandLabel → commandLabel × Option JsonError
  | [], l => (l, none)
  | (k, j) :: ms, l =>
    match unquoteBytes k with
    | none => (l, some .phase)
    | some key =>
      let step : commandLabel × Option JsonError :=
        match findField commandLabelFields key with
        | some 0 => match decodeString j l.Period with
          | (x, e) => ({ l with Period := x }, e)
        | some 1 => match decodeStringSlice j l.Command with
          | (x, e) => ({ l with Command := x }, e)
        | some 2 => match decodeString j l.Result with
          | (x, e) => ({ l with Result := x }, e)
        | _ => (l, none)
      match step with
      | (l', e) =>
        match decodeLabelMembers ms l' with
        | (l'', e') => (l'', saveError e e')

/-- `d.value` into a `commandLabel`: `null` leaves it as it is, an object sets the fields
that its members name; every other value is a type error. -/
def decodeLabel (j : JValue) (old : commandLabel) : commandLabel × Option JsonError :=
  match j with
  | .literal raw =>
    match raw with
    | c :: _ => if c = 110 then (old, none) else (old, some .unmarshalType)
    | [] => (old, some .phase)
  | .array _ _ => (old, some .unmarshalType)
  | .object _ ms => decodeLabelMembers ms old

/-- Go `json.Unmarshal(data, &label)` for a `commandLabel`: the new value of `label` and
the error. A syntax error is found before anything is stored. -/
def Unmarshal_commandLabel (data : Bytes) (label : commandLabel) :
    commandLabel × Option JsonError :=
  match parseJSON data with
  | none => (label, some .syntaxError)
  | some j => decodeLabel j label

/-- `CommandLabel.UnmarshalJSON` of `presence.go`: the new value of the receiver `*l` and
the error. -/
def CommandLabel.UnmarshalJSON (l : CommandLabel) (value : Bytes) :
    CommandLabel × Option JsonError :=
  match Unmarshal_commandLabel value commandLabel.zero with
  | (_, some err) => (l, some err)
  | (label, none) =>
    match ParseDuration label.Period with
    | .error err => (l, some (.duration err))
    | .ok period =>
      ({ Period := period, Command := label.Command.elems, Result := label.Result }, none)

/-- The loop over the members of an object decoded into a `map[string]CommandLabel`: the
source text of every value is handed to `UnmarshalJSON` on a zero element (`CommandLabel`
is an `Unmarshaler`), which is then stored under the unquoted key. When `UnmarshalJSON`
returns an error, the original decoder ends the loop there, with the element not stored;
the decoder built on `encoding/json/v2` stores the element as `UnmarshalJSON` left it,
decodes the members behind it, and returns the first error. -/
def decodeCmdMembers (impl : JsonImpl) : List (Bytes × JValue) → GoMap CommandLabel →
    GoMap CommandLabel × Option JsonError
  | [], m => (m, none)
  | (k, j) :: ms, m =>
    match unquoteBytes k with
    | none => (m, some .phase)
    | some key =>
      match CommandLabel.UnmarshalJSON CommandLabel.zero j.raw with
      | (l, some err) =>
        match impl with
        | .legacy => (m, some err)
        | .v2 => ((decodeCmdMembers impl ms (GoMap.insert key l m)).1, some err)
      | (l, none) => decodeCmdMembers impl ms (GoMap.insert key l m)

/-- `d.value` into a `map[string]CommandLabel`: the new map, the error to save and the
error that ends the decoding. The error of the members ends the decoding in the original
decoder, and is saved in the other. -/
def decodeCmdMap (impl : JsonImpl) (j : JValue) (old : Option (GoMap CommandLabel)) :
    Option (GoMap CommandLabel) × Option JsonError × Option JsonError :=
  match j with
  | .literal raw =>
    match raw with
    | c :: _ => if c = 110 then (none, none, none) else (old, some .unmarshalType, none)
    | [] => (old, none, some .phase)
  | .array _ _ => (old, some .unmarshalType, none)
  | .object _ ms =>
    match decodeCmdMembers impl ms (old.getD []) with
    | (m, err) =>
      match impl with
      | .legacy => (some m, none, err)
      | .v2 => (some m, err, none)

/-- The JSON names of the fields of `Server`. -/
def serverFields : List Bytes :=
  [ascii "id", ascii "addr", ascii "hostname", ascii "labels", ascii "cmd_labels"]

/-- The loop of `d.object` into a `Server`: the new value, the saved type error and the
error that ends the decoding. -/
def decodeServerMembers (impl : JsonImpl) : List (Bytes × JValue) → Server →
    Server × Option JsonError × Option JsonError
  | [], s => (s, none, none)
  | (k, j) :: ms, s =>
    match unquoteBytes k with
    | none => (s, none, some .phase)
    | some key =>
      let step : Server × Option JsonError × Option JsonError :=
        match findField serverFields key with
        | some 0 => match decodeString j s.ID with
          | (x, e) => ({ s with ID := x }, e, none)
        | some 1 => match decodeString j s.Addr with
          | (x, e) => ({ s with Addr := x }, e, none)
        | some 2 => match decodeString j s.Hostname with
          | (x, e) => ({ s with Hostname := x }, e, none)
        | some 3 => match decodeStringMap j s.Labels with
          | (x, e) => ({ s with Labels := x }, e, none)
        | some 4 => match decodeCmdMap impl j s.CmdLabels with
          | (x, e, abort) => ({ s with CmdLabels := x }, e, abort)
        | _ => (s, none, none)
      match step with
      | (s', e, some abort) => (s', e, some abort)
      | (s', e, none) =>
        match decodeServerMembers impl ms s' with
        | (s'', e', abort) => (s'', saveError e e', abort)

/-- `d.value` into a `Server`. -/
def decodeServer (impl : JsonImpl) (j : JValue) (old : Server) :
    Server × Option JsonError × Option JsonError :=
  match j with
  | .literal raw =>
    match raw with
    | c :: _ => if c = 110 then (old, none, none) else (old, some .unmarshalType, none)
    | [] => (old, none, some .phase)
  | .array _ _ => (old, some .unmarshalType, none)
  | .object _ ms => decodeServerMembers impl ms old

/-- Go `json.Unmarshal(data, &server)` for a `Server`: the new value of `server` and the
error. -/
def Unmarshal_Server (impl : JsonImpl) (data : Bytes) (server : Server) :
    Server × Option JsonError :=
  match parseJSON data with
  | none => (server, some .syntaxError)
  | some j =>
    match decodeServer impl j server with
    | (s, saved, abort) => (s, saveError abort saved)

/-- Errors that the presence service returns (`trace.Wrap` keeps the error it wraps). -/
inductive Error where
  /-- The backend has no value under the key: absent or expired. -/
  | notFound
  /-- Another failure of the backend. -/
  | backend (code : Nat)
  /-- An error of `encoding/json`. -/
  | json (e : JsonError)
  deriving DecidableEq, Repr

/-- Modelled from the spec: the interface `backend.Backend`, which is declared in
`lib/backend` and not part of the sources at hand. Section 6 of the specification gives
the three operations that `presence.go` calls: `GetKeys` (`ListKeys`) returns the keys
under a path, `GetVal` (`GetValue`) the value under a key, failing with `NotFound` if the
key is absent or expired, and `UpsertVal` (`PutValue`) writes a value with a time to
live. A backend is any record of three such functions over a type of states, so a
backend that fails, or that no longer has a key it has just listed, is one. -/
structure Backend (σ : Type) where
  GetKeys : σ → List Bytes → Except Error (List Bytes)
  GetVal : σ → List Bytes → Bytes → Except Error Bytes
  UpsertVal : σ → List Bytes → Bytes → Bytes → Int → σ × Option Error

/-- The struct `PresenceService` of `presence.go`. -/
structure PresenceService (σ : Type) where
  backend : Backend σ

/-- The path `[]string{"servers"}`. -/
def serversPath : List Bytes := [ascii "servers"]

/-- The path `[]string{"authservers"}`. -/
def authServersPath : List Bytes := [ascii "authservers"]

/-- The loop `for i, id := range IDs` of `GetServers` and of `GetAuthServers`: every
value is fetched and decoded into a zero `Server`; the first error ends the loop. -/
def fetchServers {σ : Type} (impl : JsonImpl) (bk : Backend σ) (st : σ) (path : List Bytes) :
    List Bytes → Except Error (List Server)
  | [] => .ok []
  | id :: ids =>
    match bk.GetVal st path id with
    | .error err => .error err
    | .ok data =>
      match Unmarshal_Server impl data Server.zero with
      | (_, some err) => .error (.json err)
      | (server, none) =>
        match fetchServers impl bk st path ids with
        | .error err => .error err
        | .ok servers => .ok (server :: servers)

/-- The body shared by `GetServers` and `GetAuthServers`: the two results, a slice of
servers (`none` is nil) and an error (`none` is nil). -/
def listServers {σ : Type} (impl : JsonImpl) (bk : Backend σ) (st : σ) (path : List Bytes) :
    Option (List Server) × Option Error :=
  match bk.GetKeys st path with
  | .error err => (none, some err)
  | .ok IDs =>
    match fetchServers impl bk st path IDs with
    | .error err => (none, some err)
    | .ok servers => (some servers, none)

/-- `PresenceService.GetServers` of `presence.go`, with the `encoding/json` that it is
linked with. -/
def PresenceService.GetServers {σ : Type} (impl : JsonImpl) (s : PresenceService σ) (st : σ) :
    Option (List Server) × Option Error :=
  listServers impl s.backend st serversPath

/-- `PresenceService.GetAuthServers` of `presence.go`, with the `encoding/json` that it
is linked with. -/
def PresenceService.GetAuthServers {σ : Type} (impl : JsonImpl) (s : PresenceService σ)
    (st : σ) : Option (List Server) × Option Error :=
  listServers impl s.backend st authServersPath

/-- The body shared by `UpsertServer` and `UpsertAuthServer`: the new state of the
backend and the error. -/
def upsertServer {σ : Type} (bk : Backend σ) (st : σ) (path : List Bytes) (server : Server)
    (ttl : Int) : σ × Option Error :=
  match Marshal_Server server with
  | none => (st, some (.json .marshaler))
  | some data => bk.UpsertVal st path server.ID data ttl

/-- `PresenceService.UpsertServer` of `presence.go`. -/
def PresenceService.UpsertServer {σ : Type} (s : PresenceService σ) (st : σ) (server : Server)
    (ttl : Int) : σ × Option Error :=
  upsertServer s.backend st serversPath server ttl

/-- `PresenceService.UpsertAuthServer` of `presence.go`. -/
def PresenceService.UpsertAuthServer {σ : Type} (s : PresenceService σ) (st : σ)
    (server : Server) (ttl : Int) : σ × Option Error :=
  upsertServer s.backend st authServersPath server ttl

/-- One record of the in-memory backend: path, key, value and time to live. -/
structure MemEntry where
  path : List Bytes
  key : Bytes
  val : Bytes
  ttl : Int
  deriving DecidableEq, Repr

/-- The write of the in-memory backend: the record under the path and key is replaced,
value and time to live, or added. -/
def memUpsert (path : List Bytes) (key val : Bytes) (ttl : Int) : List MemEntry → List MemEntry
  | [] => [⟨path, key, val, ttl⟩]
  | e :: st =>
    if e.path = path ∧ e.key = key then ⟨path, key, val, ttl⟩ :: st
    else e :: memUpsert path key val ttl st

/-- Modelled from the spec: an in-memory backend as section 9 of the specification asks
for ("a substitutable in-memory implementation for testing"), with the operations of
section 6. Its state is the list of its records, at most one for a path and key; a time
to live is stored with the value and time does not pass. -/
def memBackend : Backend (List MemEntry) where
  GetKeys := fun st path => .ok ((st.filter (fun e => e.path = path)).map (·.key))
  GetVal := fun st path key =>
    match st.find? (fun e => e.path = path ∧ e.key = key) with
    | some e => .ok e.val
    | none => .error .notFound
  UpsertVal := fun st path key val ttl => (memUpsert path key val ttl st, none)

/-- The presence service over the in-memory backend. -/
def memService : PresenceService (List MemEntry) := ⟨memBackend⟩

/-! ## Definitions for the statements and the proofs -/

/-- The float `x` holds the integer `A` exactly. -/
def F64.Holds (x : F64) (A : Nat) : Prop := ∃ t : Nat, x.m = A * 2 ^ t ∧ x.e = -(t : Int)

/-- The text of `Duration.String` for a non-zero magnitude `u`. -/
def formatMagnitude (u : Nat) : Bytes :=
  if u < Second then formatSubSecond u else formatSeconds u

/-- A backend that lists the keys `a` and `b` under every path, no longer has a value
under `a` and has the record of an empty server under `b`. -/
def vanishedBackend : Backend Unit where
  GetKeys := fun _ _ => .ok [[97], [98]]
  GetVal := fun _ _ key => if key = [97] then .error .notFound else .ok [123, 125]
  UpsertVal := fun st _ _ _ _ => (st, none)

/-- Bytes that `escapeHTML` copies wherever they stand. -/
def plainByte (c : Nat) : Bool := c != 60 && c != 62 && c != 38 && c != 0xE2

/-- The text `text`, whatever follows it, is read as the value `v` below `d` open arrays
and objects, with any fuel above its length. -/
def ParsesTo (d : Nat) (text : Bytes) (v : JValue) : Prop :=
  ∀ f rest, text.length < f → parseValue f d (text ++ rest) = some (v, rest)

/-- The text `text`, followed by a closing brace, is read as the members `ms`. -/
def MembersParse (d : Nat) (text : Bytes) (ms : List (Bytes × JValue)) : Prop :=
  ∀ f rest, text.length < f → parseMembers f d (text ++ 125 :: rest) = some (ms, rest)

/-- The text `text`, followed by a closing bracket, is read as the elements `es`. -/
def ElementsParse (d : Nat) (text : Bytes) (es : List JValue) : Prop :=
  ∀ f rest, text.length + 1 < f → parseElements f d (text ++ 93 :: rest) = some (es, rest)

/-- The tree of the string literal for `s`. -/
def strTree (s : Bytes) : JValue := .literal (appendString s)

/-- The tree of what `encodeStringSlice` writes. -/
def sliceTree : Option (List Bytes) → JValue
  | none => .literal [110, 117, 108, 108]
  | some [] => .array [91, 93] []
  | some xs => .array (encodeStringSlice (some xs)) (xs.map strTree)

/-- The members that the scanner reads from the entries of a `map[string]string`. -/
def stringMembers (m : List (Bytes × Bytes)) : List (Bytes × JValue) :=
  m.map (fun kv => (appendString kv.1, strTree kv.2))

/-- The tree of what `encodeStringMap` writes for a map in key order. -/
def stringMapTree : Option (GoMap Bytes) → JValue
  | none => .literal [110, 117, 108, 108]
  | some [] => .object [123, 125] []
  | some m => .object (123 :: (encodeStringEntries m ++ [125])) (stringMembers m)

/-- The entries of the map are well-formed UTF-8. -/
def validEntries (m : List (Bytes × Bytes)) : Bool :=
  m.all (fun kv => validUTF8 kv.1 && validUTF8 kv.2)

/-- The text `s` is `t` behind ASCII bytes. -/
def AsciiPre (s t : Bytes) : Prop := ∃ pre : Bytes, (∀ x ∈ pre, x < 0x80) ∧ s = pre ++ t

/-- The period of the label is an `int64` and its strings are well-formed UTF-8. -/
def CommandLabel.valid (l : CommandLabel) : Bool :=
  decide (-2 ^ 63 ≤ l.Period) && decide (l.Period < 2 ^ 63) && validUTF8 l.Result &&
    (match l.Command with
     | none => true
     | some xs => xs.all validUTF8)

/-- The members that the scanner reads from what `MarshalJSON` writes. -/
def labelMembers (l : CommandLabel) : List (Bytes × JValue) :=
  [(appendString (ascii "period"), strTree (Duration.String l.Period)),
   (appendString (ascii "command"), sliceTree l.Command),
   (appendString (ascii "result"), strTree l.Result)]

/-- The tree of what `MarshalJSON` writes. -/
def labelTree (l : CommandLabel) : JValue := .object l.MarshalJSON (labelMembers l)

/-- The text between the braces of what `MarshalJSON` writes. -/
def labelText (l : CommandLabel) : Bytes :=
  appendString (ascii "period") ++ 58 :: appendString (Duration.String l.Period) ++ 44 ::
    (appendString (ascii "command") ++ 58 :: encodeStringSlice l.Command ++ 44 ::
      (appendString (ascii "result") ++ 58 :: appendString l.Result))

/-- The entries of the map are well-formed: keys in UTF-8, labels valid. -/
def validCmdEntries (m : List (Bytes × CommandLabel)) : Bool :=
  m.all (fun kl => validUTF8 kl.1 && kl.2.valid)

/-- A valid `Server`: its strings are well-formed UTF-8, the periods of its command labels
are `int64` values, and its maps are lists in key order. -/
def Server.valid (s : Server) : Bool :=
  validUTF8 s.ID && validUTF8 s.Addr && validUTF8 s.Hostname &&
    (match s.Labels with
     | none => true
     | some m => GoMap.sorted m && validEntries m) &&
    (match s.CmdLabels with
     | none => true
     | some m => GoMap.sorted m && validCmdEntries m)

/-- What `encodeCmdEntries` writes when `appendCompact` changes nothing. -/
def cmdEntriesText : List (Bytes × CommandLabel) → Bytes
  | [] => []
  | [(k, v)] => appendString k ++ 58 :: v.MarshalJSON
  | (k, v) :: m => appendString k ++ 58 :: v.MarshalJSON ++ 44 :: cmdEntriesText m

/-- The members that the scanner reads from the entries of a `map[string]CommandLabel`. -/
def cmdMembers (m : List (Bytes × CommandLabel)) : List (Bytes × JValue) :=
  m.map (fun kl => (appendString kl.1, labelTree kl.2))

/-- What `encodeCmdMap` writes for a map in key order. -/
def cmdMapText : Option (GoMap CommandLabel) → Bytes
  | none => [110, 117, 108, 108]
  | some m => 123 :: (cmdEntriesText m ++ [125])

/-- The tree of what `encodeCmdMap` writes for a map in key order. -/
def cmdMapTree : Option (GoMap CommandLabel) → JValue
  | none => .literal [110, 117, 108, 108]
  | some [] => .object [123, 125] []
  | some m => .object (123 :: (cmdEntriesText m ++ [125])) (cmdMembers m)

/-- The text between the braces of what `Marshal_Server` writes. -/
def serverText (s : Server) : Bytes :=
  appendString (ascii "id") ++ 58 :: appendString s.ID ++ 44 ::
    (appendString (ascii "addr") ++ 58 :: appendString s.Addr ++ 44 ::
      (appendString (ascii "hostname") ++ 58 :: appendString s.Hostname ++ 44 ::
        (appendString (ascii "labels") ++ 58 :: encodeStringMap s.Labels ++ 44 ::
          (appendString (ascii "cmd_labels") ++ 58 :: cmdMapText s.CmdLabels))))

/-- The members that the scanner reads from what `Marshal_Server` writes. -/
def serverMembers (s : Server) : List (Bytes × JValue) :=
  [(appendString (ascii "id"), strTree s.ID),
   (appendString (ascii "addr"), strTree s.Addr),
   (appendString (ascii "hostname"), strTree s.Hostname),
   (appendString (ascii "labels"), stringMapTree s.Labels),
   (appendString (ascii "cmd_labels"), cmdMapTree s.CmdLabels)]

/-- A server with a static label and a command label. -/
def sampleServer : Server :=
  { ID := ascii "node1"
    Addr := ascii "10.0.0.1:3022"
    Hostname := ascii "node1"
    Labels := some [(ascii "env", ascii "prod")]
    CmdLabels := some [(ascii "up", ⟨3903000000000, some [ascii "uptime", ascii "-p"],
      ascii "<1h>"⟩)] }

/-- The server of the example scenario of section 8 of the specification. -/
def node1 : Server :=
  { ID := ascii "node1"
    Addr := ascii "10.0.0.1:3022"
    Hostname := ascii "node1"
    Labels := some [(ascii "env", ascii "prod")]
    CmdLabels := none }

/-- The server `node1` at another address. -/
def node1Moved : Server := { node1 with Addr := ascii "10.0.0.2:3022", Labels := none }

/-! ## Round trip of `Duration.String` through `ParseDuration` -/

theorem fmtIntLoop_length (fuel v : Nat) (buf : Bytes) :
    buf.length ≤ (fmtIntLoop fuel v buf).length := by
  induction fuel generalizing v buf with
  | zero => simp [fmtIntLoop]
  | succ n ih =>
    simp only [fmtIntLoop]
    split
    · exact le_trans (by simp) (ih _ _)
    · exact le_refl _

theorem fmtIntLoop_length_pos (fuel v : Nat) (buf : Bytes) (hv : 0 < v) :
    buf.length < (fmtIntLoop (fuel + 1) v buf).length := by
  rw [fmtIntLoop, if_pos hv]
  exact lt_of_lt_of_le (by simp) (fmtIntLoop_length _ _ _)

theorem fmtInt_length (buf : Bytes) (v : Nat) : buf.length < (fmtInt buf v).length := by
  unfold fmtInt
  split
  · simp
  · rename_i h
    exact fmtIntLoop_length_pos 19 v buf (Nat.pos_of_ne_zero h)

theorem leadingIntLoop_fmtIntLoop (fuel : Nat) : ∀ (v : Nat) (buf : Bytes), 0 < v → v < 10 ^ fuel →
    v ≤ 2 ^ 63 → leadingIntLoop (fmtIntLoop fuel v buf) 0 = leadingIntLoop buf v := by
  induction fuel with
  | zero => intro v buf h0 h1 _; simp at h1; omega
  | succ n ih =>
    intro v buf h0 h1 h2
    have hstep : leadingIntLoop ((v % 10 + 48) :: buf) (v / 10) = leadingIntLoop buf v := by
      have e : v / 10 * 10 + (v % 10 + 48) - 48 = v := by omega
      simp only [leadingIntLoop, e]
      rw [if_neg (by omega), if_neg (by omega), if_neg (by omega)]
    simp only [fmtIntLoop, h0, if_true]
    by_cases hz : v / 10 = 0
    · have : fmtIntLoop n (v / 10) ((v % 10 + 48) :: buf) = (v % 10 + 48) :: buf := by
        rw [hz]; cases n <;> simp [fmtIntLoop]
      rw [this]
      have e : 0 * 10 + (v % 10 + 48) - 48 = v := by omega
      simp only [leadingIntLoop, e]
      rw [if_neg (by omega), if_neg (by omega), if_neg (by omega)]
    · rw [ih (v / 10) _ (Nat.pos_of_ne_zero hz) (by rw [pow_succ] at h1; omega) (by omega)]
      exact hstep

theorem leadingInt_fmtInt (buf : Bytes) (v : Nat) (hv : v ≤ 2 ^ 63) :
    leadingInt (fmtInt buf v) = leadingIntLoop buf v := by
  unfold leadingInt fmtInt
  split
  · rename_i h
    subst h
    simp [leadingIntLoop]
  · rename_i h
    exact leadingIntLoop_fmtIntLoop 20 v buf (Nat.pos_of_ne_zero h)
      (lt_of_le_of_lt hv (by norm_num)) hv

theorem fmtIntLoop_head (fuel v : Nat) (buf : Bytes) (c : Nat) (s : Bytes)
    (hb : buf = c :: s) (hc : isDigitOrDot c = true) :
    ∃ c' s', fmtIntLoop fuel v buf = c' :: s' ∧ isDigitOrDot c' = true := by
  induction fuel generalizing v buf c s with
  | zero => exact ⟨c, s, by simp [fmtIntLoop, hb], hc⟩
  | succ n ih =>
    simp only [fmtIntLoop]
    split
    · exact ih (v / 10) _ (v % 10 + 48) buf rfl (by
        simp only [isDigitOrDot, Bool.or_eq_true, beq_iff_eq, Bool.and_eq_true, decide_eq_true_eq]
        omega)
    · exact ⟨c, s, hb, hc⟩

theorem fmtIntLoop_head_pos (fuel v : Nat) (buf : Bytes) (hv : 0 < v) :
    ∃ c s, fmtIntLoop (fuel + 1) v buf = c :: s ∧ isDigitOrDot c = true := by
  rw [fmtIntLoop, if_pos hv]
  exact fmtIntLoop_head _ _ _ (v % 10 + 48) buf rfl (by
    simp only [isDigitOrDot, Bool.or_eq_true, beq_iff_eq, Bool.and_eq_true, decide_eq_true_eq]
    omega)

theorem fmtInt_head (buf : Bytes) (v : Nat) :
    ∃ c s, fmtInt buf v = c :: s ∧ isDigitOrDot c = true := by
  unfold fmtInt
  split
  · exact ⟨48, buf, rfl, by decide⟩
  · rename_i h
    exact fmtIntLoop_head_pos 19 v buf (Nat.pos_of_ne_zero h)

theorem F64.round_holds (A t : Nat) (hA : A < 2 ^ 53) :
    F64.Holds (F64.round (A * 2 ^ t) (-(t : Int))) A := by
  unfold F64.round
  split
  · exact ⟨t, rfl, rfl⟩
  · rename_i hn
    have hn0 : A * 2 ^ t ≠ 0 := by
      intro h; rw [h] at hn; exact hn (by norm_num)
    have hlt : A * 2 ^ t < 2 ^ (t + 53) := by
      rw [pow_add, mul_comm (2 ^ t)]
      exact Nat.mul_lt_mul_of_pos_right hA (by positivity)
    have hlog : Nat.log2 (A * 2 ^ t) < t + 53 := (Nat.log2_lt hn0).2 hlt
    have hst : Nat.log2 (A * 2 ^ t) - 52 ≤ t := by omega
    have hs1 : 1 ≤ Nat.log2 (A * 2 ^ t) - 52 := by
      have : ¬ Nat.log2 (A * 2 ^ t) < 53 := fun h => hn ((Nat.log2_lt hn0).1 h)
      omega
    generalize Nat.log2 (A * 2 ^ t) - 52 = s at hst hs1
    obtain ⟨r, rfl⟩ : ∃ r, t = r + s := ⟨t - s, by omega⟩
    have e1 : A * 2 ^ (r + s) = A * 2 ^ r * 2 ^ s := by rw [pow_add, mul_assoc]
    have hpos : 0 < 2 ^ s := by positivity
    have hhalf : 0 < 2 ^ (s - 1) := by positivity
    simp only [e1, Nat.mul_mod_left, Nat.mul_div_cancel _ hpos]
    rw [if_neg (by omega)]
    exact ⟨r, rfl, by push_cast; ring⟩

theorem F64.ofNat_holds (f : Nat) (hf : f < 2 ^ 53) : F64.Holds (F64.ofNat f) f := by
  have := F64.round_holds f 0 hf
  simpa [F64.ofNat] using this

theorem F64.div_holds (a b : Nat) (hb : 0 < b) (hd : b ∣ a) (hq : a / b < 2 ^ 53) :
    F64.Holds (F64.div a b) (a / b) := by
  obtain ⟨c, rfl⟩ := hd
  rw [Nat.mul_div_cancel_left _ hb] at hq ⊢
  unfold F64.div
  generalize Nat.log2 b + 65 = p
  have e1 : b * c * 2 ^ p = b * (c * 2 ^ p) := by ring
  simp only [e1, Nat.mul_mod_right, Nat.mul_div_cancel_left _ hb, if_true, add_zero]
  have e2 : 2 * (c * 2 ^ p) = c * 2 ^ (p + 1) := by ring
  have e3 : (-(p : Int) - 1) = -((p + 1 : Nat) : Int) := by push_cast; ring
  rw [e2, e3]
  exact F64.round_holds c (p + 1) hq

theorem F64.mul_holds (x y : F64) (A B : Nat) (hx : x.Holds A) (hy : y.Holds B)
    (h : A * B < 2 ^ 53) : (F64.mul x y).Holds (A * B) := by
  obtain ⟨t1, hm1, he1⟩ := hx
  obtain ⟨t2, hm2, he2⟩ := hy
  unfold F64.mul
  have e1 : x.m * y.m = A * B * 2 ^ (t1 + t2) := by rw [hm1, hm2, pow_add]; ring
  have e2 : x.e + y.e = -((t1 + t2 : Nat) : Int) := by rw [he1, he2]; push_cast; ring
  rw [e1, e2]
  exact F64.round_holds _ _ h

theorem F64.toUint64_holds (x : F64) (A : Nat) (hx : x.Holds A) : F64.toUint64 x = A := by
  obtain ⟨t, hm, he⟩ := hx
  unfold F64.toUint64
  rw [hm, he]
  split
  · rename_i h0
    have : t = 0 := by omega
    subst this
    simp
  · have : (-(-(t : Int))).toNat = t := by simp
    rw [this]
    exact Nat.mul_div_cancel _ (by positivity)

/-- The floating-point term of `ParseDuration` is exact when `scale` divides `unit` and
the product is below `2^53`. -/
theorem fracNanos_exact (f unit scale : Nat) (hs : 0 < scale) (hd : scale ∣ unit)
    (hf : f < 2 ^ 53) (hq : unit / scale < 2 ^ 53) (hp : f * (unit / scale) < 2 ^ 53) :
    fracNanos f unit scale = f * (unit / scale) :=
  F64.toUint64_holds _ _
    (F64.mul_holds _ _ _ _ (F64.ofNat_holds f hf) (F64.div_holds unit scale hs hd hq) hp)

theorem fmtFracLoop_true (n : Nat) : ∀ (buf : Bytes) (v : Nat),
    (fmtFracLoop n buf v true).2 = (v / 10 ^ n, true) ∧
    (fmtFracLoop n buf v true).1.length = buf.length + n ∧
    ∀ x scale, (x + 1) * 10 ^ n ≤ 10 ^ 17 →
      leadingFractionLoop (fmtFracLoop n buf v true).1 x scale false
        = leadingFractionLoop buf (x * 10 ^ n + v % 10 ^ n) (scale * 10 ^ n) false := by
  induction n with
  | zero => intro buf v; simp [fmtFracLoop, Nat.mod_one]
  | succ n ih =>
    intro buf v
    have hstep : fmtFracLoop (n + 1) buf v true
        = fmtFracLoop n ((v % 10 + 48) :: buf) (v / 10) true := by
      simp [fmtFracLoop]
    obtain ⟨h1, h2, h3⟩ := ih ((v % 10 + 48) :: buf) (v / 10)
    rw [hstep]
    refine ⟨?_, ?_, ?_⟩
    · rw [h1, Nat.div_div_eq_div_mul, pow_succ']
    · rw [h2]; simp; omega
    · intro x scale hx
      have hP : 0 < 10 ^ n := by positivity
      have e0 : (x + 1) * 10 ^ (n + 1) = 10 * (x * 10 ^ n) + 10 * 10 ^ n := by ring
      have e1 : (x + 1) * 10 ^ n = x * 10 ^ n + 10 ^ n := by ring
      have hr : v / 10 % 10 ^ n < 10 ^ n := Nat.mod_lt _ hP
      have hx' : (x + 1) * 10 ^ n ≤ 10 ^ 17 := by rw [e1]; rw [e0] at hx; omega
      rw [h3 x scale hx']
      have e2 : v % 10 ^ (n + 1) = v % 10 + 10 * (v / 10 % 10 ^ n) := by
        rw [pow_succ', Nat.mod_mul]
      have e3 : x * 10 ^ (n + 1) = 10 * (x * 10 ^ n) := by ring
      have e4 : (x * 10 ^ n + v / 10 % 10 ^ n) * 10 + (v % 10 + 48) - 48
          = x * 10 ^ (n + 1) + v % 10 ^ (n + 1) := by rw [e2, e3]; omega
      have e5 : scale * 10 ^ n * 10 = scale * 10 ^ (n + 1) := by ring
      rw [e0] at hx
      rw [leadingFractionLoop, if_neg (by omega)]
      simp only [Bool.false_eq_true, if_false]
      rw [if_neg (by omega), e4, e5, if_neg (by rw [e2, e3]; omega)]

theorem fmtFracLoop_false (n : Nat) : ∀ (buf : Bytes) (v : Nat),
    (v % 10 ^ n = 0 → fmtFracLoop n buf v false = (buf, v / 10 ^ n, false)) ∧
    (v % 10 ^ n ≠ 0 → ∃ k f, 1 ≤ k ∧ k ≤ n ∧ 0 < f ∧ f * 10 ^ (n - k) = v % 10 ^ n ∧
      (fmtFracLoop n buf v false).2 = (v / 10 ^ n, true) ∧
      (fmtFracLoop n buf v false).1.length = buf.length + k ∧
      ∀ x scale, (x + 1) * 10 ^ k ≤ 10 ^ 17 →
        leadingFractionLoop (fmtFracLoop n buf v false).1 x scale false
          = leadingFractionLoop buf (x * 10 ^ k + f) (scale * 10 ^ k) false) := by
  induction n with
  | zero => intro buf v; simp [fmtFracLoop, Nat.mod_one]
  | succ n ih =>
    intro buf v
    have e2 : v % 10 ^ (n + 1) = v % 10 + 10 * (v / 10 % 10 ^ n) := by
      rw [pow_succ', Nat.mod_mul]
    have e3 : v / 10 ^ (n + 1) = v / 10 / 10 ^ n := by
      rw [Nat.div_div_eq_div_mul, pow_succ']
    by_cases hd : v % 10 = 0
    · have hstep : fmtFracLoop (n + 1) buf v false = fmtFracLoop n buf (v / 10) false := by
        simp [fmtFracLoop, hd]
      obtain ⟨ih1, ih2⟩ := ih buf (v / 10)
      rw [hstep, e2, e3, hd]
      refine ⟨fun h => ih1 (by omega), fun h => ?_⟩
      obtain ⟨k, f, hk1, hk2, hf, hfk, r1, r2, r3⟩ := ih2 (by omega)
      refine ⟨k, f, hk1, by omega, hf, ?_, r1, r2, r3⟩
      have : n + 1 - k = (n - k) + 1 := by omega
      rw [this, pow_succ, ← mul_assoc, hfk]; omega
    · have hstep : fmtFracLoop (n + 1) buf v false = fmtFracLoop (n + 1) buf v true := by
        have hb : (v % 10 != 0) = true := by simp [hd]
        simp [fmtFracLoop, hb]
      obtain ⟨h1, h2, h3⟩ := fmtFracLoop_true (n + 1) buf v
      rw [hstep]
      refine ⟨fun h => absurd h (by rw [e2]; omega), fun _ => ?_⟩
      exact ⟨n + 1, v % 10 ^ (n + 1), by omega, le_refl _, by rw [e2]; omega, by simp,
        h1, h2, h3⟩

/-- What `fmtFrac` writes in front of a buffer that starts with a unit letter, and how
`leadingFraction` reads it back. -/
theorem fmtFrac_spec (buf : Bytes) (v prec : Nat) (c : Nat) (s : Bytes) (hb : buf = c :: s)
    (hc : c < 48 ∨ c > 57) (hp : prec ≤ 17) :
    (fmtFrac buf v prec).2 = v / 10 ^ prec ∧
    ((v % 10 ^ prec = 0 ∧ (fmtFrac buf v prec).1 = buf) ∨
     (∃ k f t, 1 ≤ k ∧ k ≤ prec ∧ 0 < f ∧ f * 10 ^ (prec - k) = v % 10 ^ prec ∧
        (fmtFrac buf v prec).1 = 46 :: t ∧ leadingFraction t = (f, 10 ^ k, buf) ∧
        t.length ≠ buf.length)) := by
  obtain ⟨h1, h2⟩ := fmtFracLoop_false prec buf v
  unfold fmtFrac
  by_cases hz : v % 10 ^ prec = 0
  · rw [h1 hz]
    exact ⟨rfl, Or.inl ⟨hz, rfl⟩⟩
  · obtain ⟨k, f, hk1, hk2, hf, hfk, r1, r2, r3⟩ := h2 hz
    generalize fmtFracLoop prec buf v false = res at r1 r2 r3
    obtain ⟨t, v', pr⟩ := res
    simp only [Prod.mk.injEq] at r1
    obtain ⟨rfl, rfl⟩ := r1
    refine ⟨rfl, Or.inr ⟨k, f, t, hk1, hk2, hf, hfk, rfl, ?_, by simp at r2; omega⟩⟩
    have hk : (0 + 1) * 10 ^ k ≤ 10 ^ 17 := by
      rw [zero_add, one_mul]; exact Nat.pow_le_pow_right (by norm_num) (by omega)
    have := r3 0 1 hk
    simp only [zero_mul, zero_add, one_mul] at this
    unfold leadingFraction
    rw [this, hb, leadingFractionLoop, if_pos hc]

/-- The unit scan: the bytes up to the next digit or dot. -/
theorem span_unit (ub rest : Bytes) (hu : ∀ c ∈ ub, isDigitOrDot c = false)
    (hr : rest = [] ∨ ∃ c s, rest = c :: s ∧ isDigitOrDot c = true) :
    (ub ++ rest).span (fun c => !isDigitOrDot c) = (ub, rest) := by
  rw [List.span_eq_take_drop]
  induction ub with
  | nil =>
    rcases hr with rfl | ⟨c, s, rfl, hc⟩
    · rfl
    · simp [List.takeWhile, List.dropWhile, hc]
  | cons a t ih =>
    have ha : isDigitOrDot a = false := hu a (by simp)
    have := ih (fun c hc => hu c (by simp [hc]))
    simp only [Prod.mk.injEq] at this
    simp [List.takeWhile, List.dropWhile, ha, this.1, this.2]

theorem consumeFraction_unit (c0 : Nat) (t : Bytes) (hc : isDigitOrDot c0 = false) :
    consumeFraction (c0 :: t) = (0, 1, c0 :: t, false) := by
  unfold consumeFraction
  split
  · rename_i h
    simp only [List.cons.injEq] at h
    rw [h.1] at hc
    simp [isDigitOrDot] at hc
  · rfl

theorem consumeFraction_dot (t r : Bytes) (f scale : Nat)
    (h : leadingFraction t = (f, scale, r)) :
    consumeFraction (46 :: t) = (f, scale, r, t.length != r.length) := by
  simp [consumeFraction, h]

theorem consumeUnit_ok (v f scale U : Nat) (ub rest : Bytes) (hne : ub ≠ [])
    (hu : ∀ c ∈ ub, isDigitOrDot c = false)
    (hr : rest = [] ∨ ∃ c s, rest = c :: s ∧ isDigitOrDot c = true)
    (hU : unitMap ub = some U) (hv : v ≤ 2 ^ 63 / U)
    (hf : ¬ (f > 0 ∧ v * U + fracNanos f U scale > 2 ^ 63)) :
    consumeUnit v f scale (ub ++ rest)
      = .ok (if f > 0 then v * U + fracNanos f U scale else v * U, rest) := by
  unfold consumeUnit
  rw [span_unit ub rest hu hr]
  simp only [hne, if_false, hU]
  rw [if_neg (by omega)]
  by_cases h0 : f > 0
  · simp only [h0, if_true, true_and]
    rw [if_neg (fun h => hf ⟨h0, h⟩)]
  · simp only [h0, if_false, false_and]

/-- A term without fraction, as `fmtInt` writes it in front of its unit, is read back by
`parseDurationTerm`. -/
theorem parseDurationTerm_fmtInt (c0 : Nat) (ut rest : Bytes) (i U : Nat)
    (hu : ∀ c ∈ c0 :: ut, isDigitOrDot c = false)
    (hr : rest = [] ∨ ∃ c s, rest = c :: s ∧ isDigitOrDot c = true)
    (hU : unitMap (c0 :: ut) = some U) (hi : i ≤ 2 ^ 63) (hiU : i ≤ 2 ^ 63 / U) :
    parseDurationTerm (fmtInt (c0 :: ut ++ rest) i) = .ok (i * U, rest) := by
  obtain ⟨c, s', hs, hc⟩ := fmtInt_head (c0 :: ut ++ rest) i
  have hlen := fmtInt_length (c0 :: ut ++ rest) i
  have hc0 : isDigitOrDot c0 = false := hu c0 (by simp)
  have hc0' : c0 < 48 ∨ c0 > 57 := by
    simp only [isDigitOrDot, Bool.or_eq_false_iff, beq_eq_false_iff_ne, Bool.and_eq_false_iff,
      decide_eq_false_iff_not] at hc0
    omega
  have hli : leadingInt (c :: s') = some (i, c0 :: (ut ++ rest)) := by
    rw [← hs, leadingInt_fmtInt _ _ hi, List.cons_append, leadingIntLoop, if_pos hc0']
  rw [hs] at hlen
  have hpre : ((c :: s').length != (c0 :: (ut ++ rest)).length) = true := by
    simp only [bne_iff_ne, ne_eq]
    simp only [List.cons_append] at hlen
    omega
  rw [hs, parseDurationTerm]
  simp only [hc, hli, Bool.not_true, Bool.false_eq_true, if_false,
    consumeFraction_unit c0 (ut ++ rest) hc0, hpre, Bool.false_and]
  have := consumeUnit_ok i 0 1 U (c0 :: ut) rest (by simp) hu hr hU hiU (by simp)
  simpa using this

/-- A term with fraction, as `fmtFrac` and `fmtInt` write it in front of its unit of
`10^prec` nanoseconds, is read back by `parseDurationTerm`. -/
theorem parseDurationTerm_fmtFrac (c0 : Nat) (ut : Bytes) (w prec i : Nat)
    (hu : ∀ c ∈ c0 :: ut, isDigitOrDot c = false)
    (hU : unitMap (c0 :: ut) = some (10 ^ prec)) (hp : prec ≤ 9)
    (hi : i ≤ 2 ^ 63) (hiU : i ≤ 2 ^ 63 / 10 ^ prec)
    (hsum : i * 10 ^ prec + w % 10 ^ prec ≤ 2 ^ 63) :
    parseDurationTerm (fmtInt (fmtFrac (c0 :: ut) w prec).1 i)
      = .ok (i * 10 ^ prec + w % 10 ^ prec, []) := by
  have hc0 : isDigitOrDot c0 = false := hu c0 (by simp)
  have hc0' : c0 < 48 ∨ c0 > 57 := by
    simp only [isDigitOrDot, Bool.or_eq_false_iff, beq_eq_false_iff_ne, Bool.and_eq_false_iff,
      decide_eq_false_iff_not] at hc0
    omega
  obtain ⟨_, h | ⟨k, f, t, hk1, hk2, hf, hfk, ht, hlf, hlen⟩⟩ :=
    fmtFrac_spec (c0 :: ut) w prec c0 ut rfl hc0' (by omega)
  · rw [h.2, h.1, add_zero]
    have := parseDurationTerm_fmtInt c0 ut [] i (10 ^ prec) hu (Or.inl rfl) hU hi hiU
    simpa using this
  · rw [ht]
    obtain ⟨c, s', hs, hc⟩ := fmtInt_head (46 :: t) i
    have hl := fmtInt_length (46 :: t) i
    have hli : leadingInt (c :: s') = some (i, 46 :: t) := by
      rw [← hs, leadingInt_fmtInt _ _ hi, leadingIntLoop, if_pos (by omega)]
    rw [hs] at hl
    have hpre : ((c :: s').length != (46 :: t).length) = true := by
      simp only [bne_iff_ne, ne_eq]; omega
    have hP : (10 : Nat) ^ prec = 10 ^ (prec - k) * 10 ^ k := by
      rw [← pow_add]; congr 1; omega
    have hk0 : 0 < 10 ^ k := by positivity
    have hdiv : 10 ^ prec / 10 ^ k = 10 ^ (prec - k) := by
      rw [hP, Nat.mul_div_cancel _ hk0]
    have hb9 : (10 : Nat) ^ prec ≤ 10 ^ 9 := Nat.pow_le_pow_right (by norm_num) hp
    have hmod : w % 10 ^ prec < 10 ^ prec := Nat.mod_lt _ (by positivity)
    have hq : 10 ^ (prec - k) ≤ 10 ^ 9 :=
      Nat.pow_le_pow_right (by norm_num) (by omega)
    have hfle : f ≤ f * 10 ^ (prec - k) := Nat.le_mul_of_pos_right _ (by positivity)
    have hfr : fracNanos f (10 ^ prec) (10 ^ k) = w % 10 ^ prec := by
      rw [fracNanos_exact f _ _ hk0 ⟨10 ^ (prec - k), by rw [hP, mul_comm]⟩
        (by norm_num at hb9 ⊢; omega) (by rw [hdiv]; norm_num at hq ⊢; omega)
        (by rw [hdiv, hfk]; norm_num at hb9 ⊢; omega), hdiv, hfk]
    rw [hs, parseDurationTerm]
    simp only [hc, hli, Bool.not_true, Bool.false_eq_true, if_false,
      consumeFraction_dot t (c0 :: ut) f (10 ^ k) hlf, hpre, Bool.false_and]
    have := consumeUnit_ok i f (10 ^ k) (10 ^ prec) (c0 :: ut) [] (by simp) hu (Or.inl rfl) hU
      hiU (by rw [hfr]; omega)
    simp only [List.append_nil, hf, if_true, hfr, gt_iff_lt] at this
    exact this

/-! ### The fuel of `parseDurationLoop` is never exhausted -/

theorem leadingIntLoop_length (s : Bytes) : ∀ (x v : Nat) (r : Bytes),
    leadingIntLoop s x = some (v, r) → r.length ≤ s.length := by
  induction s with
  | nil => intro x v r h; simp [leadingIntLoop] at h; simp [h.2]
  | cons c t ih =>
    intro x v r h
    rw [leadingIntLoop] at h
    split at h
    · simp only [Option.some.injEq, Prod.mk.injEq] at h; rw [← h.2]
    · split at h
      · exact absurd h (by simp)
      · simp only at h
        split at h
        · exact absurd h (by simp)
        · exact le_trans (ih _ _ _ h) (by simp)

theorem leadingFractionLoop_length (s : Bytes) : ∀ (x scale : Nat) (o : Bool),
    (leadingFractionLoop s x scale o).2.2.length ≤ s.length := by
  induction s with
  | nil => intro x scale o; simp [leadingFractionLoop]
  | cons c t ih =>
    intro x scale o
    rw [leadingFractionLoop]
    split
    · exact le_refl _
    · split
      · exact le_trans (ih _ _ _) (by simp)
      · split
        · exact le_trans (ih _ _ _) (by simp)
        · simp only
          split
          · exact le_trans (ih _ _ _) (by simp)
          · exact le_trans (ih _ _ _) (by simp)

theorem consumeFraction_length (s : Bytes) : (consumeFraction s).2.2.1.length ≤ s.length := by
  unfold consumeFraction
  split
  · exact le_trans (leadingFractionLoop_length _ _ _ _) (by simp)
  · exact le_refl _

theorem consumeUnit_length (v f scale : Nat) (s : Bytes) (w : Nat) (r : Bytes)
    (h : consumeUnit v f scale s = .ok (w, r)) : r.length < s.length := by
  unfold consumeUnit at h
  rw [List.span_eq_take_drop] at h
  simp only at h
  split at h
  · exact absurd h (by simp)
  · rename_i hne
    have hl : 0 < (List.takeWhile (fun c => !isDigitOrDot c) s).length :=
      List.length_pos.2 hne
    have hs := congrArg List.length (List.takeWhile_append_dropWhile (fun c => !isDigitOrDot c) s)
    rw [List.length_append] at hs
    split at h
    · exact absurd h (by simp)
    · split at h
      · exact absurd h (by simp)
      · repeat' split at h
        all_goals first
          | (simp only [Except.ok.injEq, Prod.mk.injEq] at h; rw [← h.2]; omega)
          | simp at h

theorem parseDurationTerm_length (s : Bytes) (v : Nat) (r : Bytes)
    (h : parseDurationTerm s = .ok (v, r)) : r.length < s.length := by
  cases s with
  | nil => simp [parseDurationTerm] at h
  | cons c t =>
    rw [parseDurationTerm] at h
    split at h
    · exact absurd h (by simp)
    · split at h
      · exact absurd h (by simp)
      · rename_i v1 s1 hli
        have h1 := leadingIntLoop_length _ _ _ _ hli
        have h2 := consumeFraction_length s1
        simp only at h
        split at h
        · exact absurd h (by simp)
        · exact lt_of_lt_of_le (consumeUnit_length _ _ _ _ _ _ h) (le_trans h2 h1)

/-- Any fuel of at least the length of the input gives the result of `ParseDuration`. -/
theorem parseDurationLoop_fuel (n : Nat) : ∀ (s : Bytes) (d fuel : Nat), s.length ≤ n →
    n ≤ fuel → parseDurationLoop fuel s d = parseDurationLoop n s d := by
  induction n with
  | zero =>
    intro s d fuel hs _
    have : s = [] := List.length_eq_zero.1 (by omega)
    subst this
    cases fuel <;> simp [parseDurationLoop]
  | succ n ih =>
    intro s d fuel hs hf
    obtain ⟨fuel, rfl⟩ : ∃ k, fuel = k + 1 := ⟨fuel - 1, by omega⟩
    cases s with
    | nil => simp [parseDurationLoop]
    | cons c t =>
      simp only [parseDurationLoop]
      cases hterm : parseDurationTerm (c :: t) with
      | error e => rfl
      | ok p =>
        obtain ⟨v, r⟩ := p
        have hl := parseDurationTerm_length _ _ _ hterm
        simp only
        split
        · rfl
        · exact ih r _ fuel (by simp at hs hl; omega) (by omega)

theorem parseDurationLoop_step (fuel : Nat) (s rest : Bytes) (d v : Nat)
    (h : parseDurationTerm s = .ok (v, rest)) (hd : d + v ≤ 2 ^ 63) :
    parseDurationLoop (fuel + 1) s d = parseDurationLoop fuel rest (d + v) := by
  cases s with
  | nil => simp [parseDurationTerm] at h
  | cons c t =>
    simp only [parseDurationLoop, h]
    rw [Nat.mod_eq_of_lt (by omega), if_neg (by omega)]

theorem parseDurationLoop_nil (fuel d : Nat) : parseDurationLoop fuel [] d = .ok d := by
  cases fuel <;> rfl

theorem fmtInt_shape (buf : Bytes) (v : Nat) (hb : buf ≠ []) :
    ∃ c s, fmtInt buf v = c :: s ∧ isDigitOrDot c = true ∧ s ≠ [] := by
  obtain ⟨c, s, hs, hc⟩ := fmtInt_head buf v
  refine ⟨c, s, hs, hc, ?_⟩
  have hl := fmtInt_length buf v
  have : 0 < buf.length := List.length_pos.2 hb
  rw [hs] at hl
  intro h
  subst h
  simp only [List.length_cons, List.length_nil] at hl
  omega

theorem fmtFrac_ne_nil (c0 : Nat) (ut : Bytes) (w prec : Nat) (hc : c0 < 48 ∨ c0 > 57)
    (hp : prec ≤ 17) : (fmtFrac (c0 :: ut) w prec).1 ≠ [] := by
  obtain ⟨_, h | ⟨k, f, t, _, _, _, _, ht, _, _⟩⟩ :=
    fmtFrac_spec (c0 :: ut) w prec c0 ut rfl hc hp
  · rw [h.2]; simp
  · rw [ht]; simp

/-- The text of a magnitude of at least one second is read back. -/
theorem parse_formatSeconds (u : Nat) (h63 : u ≤ 2 ^ 63) (fuel : Nat) :
    parseDurationLoop (fuel + 3) (formatSeconds u) 0 = .ok u ∧
    ∃ c s, formatSeconds u = c :: s ∧ isDigitOrDot c = true ∧ s ≠ [] := by
  have hfr := (fmtFrac_spec [115] u 9 115 [] rfl (by omega) (by omega)).1
  have hne := fmtFrac_ne_nil 115 [] u 9 (by omega) (by omega)
  have e9 : (10 : Nat) ^ 9 = 1000000000 := by norm_num
  have hu1 : ∀ c ∈ [115], isDigitOrDot c = false := by simp [isDigitOrDot]
  have hB := parseDurationTerm_fmtFrac 115 [] u 9 (u / 10 ^ 9 % 60) hu1 (by decide) (by omega)
    (by rw [e9]; omega) (by rw [e9]; omega) (by rw [e9]; omega)
  have hBs := fmtInt_shape (fmtFrac [115] u 9).1 (u / 10 ^ 9 % 60) hne
  have hform : formatSeconds u =
      if u / 10 ^ 9 / 60 > 0 then
        if u / 10 ^ 9 / 60 / 60 > 0 then
          fmtInt (104 :: fmtInt (109 :: fmtInt (fmtFrac [115] u 9).1 (u / 10 ^ 9 % 60))
            (u / 10 ^ 9 / 60 % 60)) (u / 10 ^ 9 / 60 / 60)
        else fmtInt (109 :: fmtInt (fmtFrac [115] u 9).1 (u / 10 ^ 9 % 60)) (u / 10 ^ 9 / 60 % 60)
      else fmtInt (fmtFrac [115] u 9).1 (u / 10 ^ 9 % 60) := by
    unfold formatSeconds
    rw [show fmtFrac [115] u 9 = ((fmtFrac [115] u 9).1, u / 10 ^ 9) from Prod.ext rfl hfr]
  rw [hform]
  generalize hBdef : fmtInt (fmtFrac [115] u 9).1 (u / 10 ^ 9 % 60) = B at hB hBs
  obtain ⟨cB, sB, hBcs, hBc, hBn⟩ := hBs
  have hu2 : ∀ c ∈ [109], isDigitOrDot c = false := by simp [isDigitOrDot]
  have hu3 : ∀ c ∈ [104], isDigitOrDot c = false := by simp [isDigitOrDot]
  have hM := parseDurationTerm_fmtInt 109 [] B (u / 10 ^ 9 / 60 % 60) Minute hu2
    (Or.inr ⟨cB, sB, hBcs, hBc⟩) (by decide) (by rw [e9]; omega)
    (by rw [e9]; simp only [Minute]; omega)
  simp only [List.cons_append, List.nil_append] at hM
  have hMs := fmtInt_shape (109 :: B) (u / 10 ^ 9 / 60 % 60) (by simp)
  generalize hMdef : fmtInt (109 :: B) (u / 10 ^ 9 / 60 % 60) = M at hM hMs
  obtain ⟨cM, sM, hMcs, hMc, hMn⟩ := hMs
  have hH := parseDurationTerm_fmtInt 104 [] M (u / 10 ^ 9 / 60 / 60) Hour hu3
    (Or.inr ⟨cM, sM, hMcs, hMc⟩) (by decide) (by rw [e9]; omega)
    (by rw [e9]; simp only [Hour]; omega)
  simp only [List.cons_append, List.nil_append] at hH
  have hHs := fmtInt_shape (104 :: M) (u / 10 ^ 9 / 60 / 60) (by simp)
  rw [e9] at hB hM hH ⊢
  simp only [Minute, Hour] at hM hH
  by_cases h1 : u / 1000000000 / 60 > 0
  · by_cases h2 : u / 1000000000 / 60 / 60 > 0
    · rw [if_pos h1, if_pos h2]
      refine ⟨?_, by rw [e9] at hHs; exact hHs⟩
      rw [parseDurationLoop_step _ _ _ _ _ hH (by omega),
        parseDurationLoop_step _ _ _ _ _ hM (by omega),
        parseDurationLoop_step _ _ _ _ _ hB (by omega), parseDurationLoop_nil]
      congr 1; omega
    · rw [if_pos h1, if_neg h2]
      refine ⟨?_, cM, sM, hMcs, hMc, hMn⟩
      rw [parseDurationLoop_step _ _ _ _ _ hM (by omega),
        parseDurationLoop_step _ _ _ _ _ hB (by omega), parseDurationLoop_nil]
      congr 1; omega
  · rw [if_neg h1]
    refine ⟨?_, cB, sB, hBcs, hBc, hBn⟩
    rw [parseDurationLoop_step _ _ _ _ _ hB (by omega), parseDurationLoop_nil]
    congr 1; omega

/-- The text of a non-zero magnitude below one second is read back. -/
theorem parse_formatSubSecond (u : Nat) (hlt : u < Second) (fuel : Nat) :
    parseDurationLoop (fuel + 3) (formatSubSecond u) 0 = .ok u ∧
    ∃ c s, formatSubSecond u = c :: s ∧ isDigitOrDot c = true ∧ s ≠ [] := by
  have key : ∀ (c0 : Nat) (ut : Bytes) (prec : Nat), (∀ c ∈ c0 :: ut, isDigitOrDot c = false) →
      unitMap (c0 :: ut) = some (10 ^ prec) → prec ≤ 9 →
      parseDurationLoop (fuel + 3) (fmtInt (fmtFrac (c0 :: ut) u prec).1
        (fmtFrac (c0 :: ut) u prec).2) 0 = .ok u ∧
      ∃ c s, fmtInt (fmtFrac (c0 :: ut) u prec).1 (fmtFrac (c0 :: ut) u prec).2 = c :: s ∧
        isDigitOrDot c = true ∧ s ≠ [] := by
    intro c0 ut prec hu hU hp
    have hc0 : isDigitOrDot c0 = false := hu c0 (by simp)
    have hc0' : c0 < 48 ∨ c0 > 57 := by
      simp only [isDigitOrDot, Bool.or_eq_false_iff, beq_eq_false_iff_ne, Bool.and_eq_false_iff,
        decide_eq_false_iff_not] at hc0
      omega
    have hfr := (fmtFrac_spec (c0 :: ut) u prec c0 ut rfl hc0' (by omega)).1
    have hne := fmtFrac_ne_nil c0 ut u prec hc0' (by omega)
    have hdm := Nat.div_add_mod u (10 ^ prec)
    have hle : u / 10 ^ prec ≤ u := Nat.div_le_self _ _
    have hle2 : u / 10 ^ prec * 10 ^ prec ≤ u := Nat.div_mul_le_self _ _
    have hS : u < 1000000000 := hlt
    have hT := parseDurationTerm_fmtFrac c0 ut u prec (u / 10 ^ prec) hu hU hp (by omega)
      ((Nat.le_div_iff_mul_le (by positivity)).2 (by omega)) (by rw [mul_comm] at hdm; omega)
    rw [hfr]
    refine ⟨?_, fmtInt_shape _ _ hne⟩
    rw [parseDurationLoop_step _ _ _ _ _ hT (by rw [mul_comm] at hdm; omega),
      parseDurationLoop_nil]
    congr 1; rw [mul_comm] at hdm; omega
  unfold formatSubSecond
  split
  · exact key 110 [115] 0 (by simp [isDigitOrDot]) (by decide) (by omega)
  · split
    · exact key 194 [181, 115] 3 (by simp [isDigitOrDot]) (by decide) (by omega)
    · exact key 109 [115] 6 (by simp [isDigitOrDot]) (by decide) (by omega)

theorem parse_formatMagnitude (u : Nat) (h63 : u ≤ 2 ^ 63) :
    parseDurationLoop (formatMagnitude u).length (formatMagnitude u) 0 = .ok u ∧
    ∃ c s, formatMagnitude u = c :: s ∧ isDigitOrDot c = true ∧ s ≠ [] := by
  rw [← parseDurationLoop_fuel _ _ 0 ((formatMagnitude u).length + 3) (le_refl _) (by omega)]
  unfold formatMagnitude
  split
  · rename_i h
    exact parse_formatSubSecond u h _
  · exact parse_formatSeconds u h63 _

theorem parseDuration_unsigned (c : Nat) (s : Bytes) (hc : isDigitOrDot c = true) (hs : s ≠ []) :
    ParseDuration (c :: s) =
      match parseDurationLoop (c :: s).length (c :: s) 0 with
      | .error e => .error e
      | .ok d => if d > 2 ^ 63 - 1 then .error .invalidDuration else .ok (toInt64 d) := by
  have h45 : c ≠ 45 := by intro h; subst h; simp [isDigitOrDot] at hc
  have h43 : c ≠ 43 := by intro h; subst h; simp [isDigitOrDot] at hc
  have hm : consumeSign (c :: s) = (false, c :: s) := by
    unfold consumeSign
    split
    · rename_i h; simp at h; exact absurd h.1 h45
    · rename_i h; simp at h; exact absurd h.1 h43
    · rfl
  unfold ParseDuration
  simp only [hm, Bool.false_eq_true, if_false, List.cons.injEq, hs, and_false, List.cons_ne_nil]

theorem parseDuration_negative (c : Nat) (s : Bytes) (hs : s ≠ []) :
    ParseDuration (45 :: c :: s) =
      match parseDurationLoop (c :: s).length (c :: s) 0 with
      | .error e => .error e
      | .ok d => .ok (toInt64 (-(toInt64 d))) := by
  unfold ParseDuration
  simp only [consumeSign, if_true, List.cons.injEq, hs, and_false, if_false, List.cons_ne_nil]

theorem toInt64_of_lt (u : Nat) (h : u < 9223372036854775808) : toInt64 u = u := by
  unfold toInt64; omega

theorem toInt64_neg (u : Nat) (h : u ≤ 9223372036854775808) :
    toInt64 (-(toInt64 u)) = -(u : Int) := by
  unfold toInt64; omega

/-- `ParseDuration` reads back what `Duration.String` writes, for every `int64`. -/
theorem parseDuration_string (d : Int) (h1 : -2 ^ 63 ≤ d) (h2 : d < 2 ^ 63) :
    ParseDuration (Duration.String d) = .ok d := by
  by_cases h0 : d = 0
  · subst h0; decide
  · have hform : ∃ u : Nat, 0 < u ∧ u ≤ 2 ^ 63 ∧ ((d : Int) = u ∨ d = -(u : Int)) ∧
        Duration.String d = if d < 0 then 45 :: formatMagnitude u else formatMagnitude u := by
      refine ⟨d.natAbs, by omega, by omega, by omega, ?_⟩
      unfold Duration.String toUint64 formatMagnitude
      by_cases hneg : d < 0
      · have e : (2 ^ 64 - (d % 2 ^ 64).toNat) % 2 ^ 64 = d.natAbs := by omega
        simp only [hneg, if_true, e]
        have : d.natAbs ≠ 0 := by omega
        split <;> simp [this]
      · have e : (d % 2 ^ 64).toNat = d.natAbs := by omega
        simp only [hneg, if_false, e]
        have : d.natAbs ≠ 0 := by omega
        split <;> simp [this]
    obtain ⟨u, hu0, hu63, hdu, hstr⟩ := hform
    obtain ⟨hp, c, s, hcs, hc, hs⟩ := parse_formatMagnitude u hu63
    rw [hstr]
    by_cases hneg : d < 0
    · rw [if_pos hneg, hcs, parseDuration_negative c s hs, ← hcs, hp]
      have e := toInt64_neg u (by omega)
      have e' : -(u : Int) = d := by omega
      simp only [e, e']
    · rw [if_neg hneg, hcs, parseDuration_unsigned c s hc hs, ← hcs, hp]
      have e := toInt64_of_lt u (by omega)
      have e' : (u : Int) = d := by omega
      have hle : ¬ u > 2 ^ 63 - 1 := by omega
      simp only [hle, if_false, e]
      rw [e']

/-! ## The registry -/

theorem fetchServers_error {impl : JsonImpl} {σ : Type} (bk : Backend σ) (st : σ) (path : List Bytes)
    (ids : List Bytes)
    (h : ∃ id ∈ ids, (∃ e, bk.GetVal st path id = .error e) ∨
      ∃ data e, bk.GetVal st path id = .ok data ∧ (Unmarshal_Server impl data Server.zero).2 = some e) :
    ∃ e, fetchServers impl bk st path ids = .error e := by
  induction ids with
  | nil => obtain ⟨id, hid, _⟩ := h; simp at hid
  | cons a t ih =>
    rw [fetchServers]
    cases hv : bk.GetVal st path a with
    | error e => exact ⟨e, rfl⟩
    | ok data =>
      simp only
      rcases hu : Unmarshal_Server impl data Server.zero with ⟨srv, _ | e⟩
      · simp only
        obtain ⟨id, hid, hbad⟩ := h
        have hid' : id = a ∨ id ∈ t := by simpa using hid
        rcases hid' with rfl | hin
        · rcases hbad with ⟨e, he⟩ | ⟨d, e, hd, he⟩
          · rw [hv] at he; exact absurd he (by simp)
          · rw [hv] at hd
            simp only [Except.ok.injEq] at hd
            subst hd
            rw [hu] at he
            exact absurd he (by simp)
        · obtain ⟨e, he⟩ := ih ⟨id, hin, hbad⟩
          rw [he]
          exact ⟨e, rfl⟩
      · exact ⟨.json e, rfl⟩

theorem fetchServers_ok {impl : JsonImpl} {σ : Type} (bk : Backend σ) (st : σ) (path : List Bytes)
    (ids : List Bytes)
    (h : ∀ id ∈ ids, ∃ data, bk.GetVal st path id = .ok data ∧
      (Unmarshal_Server impl data Server.zero).2 = none) :
    ∃ l, fetchServers impl bk st path ids = .ok l ∧
      List.Forall₂ (fun id srv => ∃ data, bk.GetVal st path id = .ok data ∧
        srv = (Unmarshal_Server impl data Server.zero).1) ids l := by
  induction ids with
  | nil => exact ⟨[], rfl, List.Forall₂.nil⟩
  | cons a t ih =>
    obtain ⟨data, hd, hu⟩ := h a (by simp)
    obtain ⟨l, hl, hf⟩ := ih (fun id hid => h id (by simp [hid]))
    refine ⟨(Unmarshal_Server impl data Server.zero).1 :: l, ?_, List.Forall₂.cons ⟨data, hd, rfl⟩ hf⟩
    rw [fetchServers, hd]
    simp only
    rcases hu' : Unmarshal_Server impl data Server.zero with ⟨srv, e⟩
    rw [hu'] at hu
    simp only at hu
    subst hu
    simp only [hl]

/-- The list operation on any path is all-or-nothing. -/
theorem listServers_all_or_nothing {impl : JsonImpl} {σ : Type} (bk : Backend σ) (st : σ) (path : List Bytes) :
    (∀ e, bk.GetKeys st path = .error e → listServers impl bk st path = (none, some e)) ∧
    (∀ ids, bk.GetKeys st path = .ok ids →
      ((∃ id ∈ ids, (∃ e, bk.GetVal st path id = .error e) ∨
          ∃ data e, bk.GetVal st path id = .ok data ∧
            (Unmarshal_Server impl data Server.zero).2 = some e) →
        ∃ e, listServers impl bk st path = (none, some e)) ∧
      ((∀ id ∈ ids, ∃ data, bk.GetVal st path id = .ok data ∧
          (Unmarshal_Server impl data Server.zero).2 = none) →
        ∃ l, listServers impl bk st path = (some l, none) ∧
          List.Forall₂ (fun id srv => ∃ data, bk.GetVal st path id = .ok data ∧
            srv = (Unmarshal_Server impl data Server.zero).1) ids l)) := by
  refine ⟨fun e he => by simp [listServers, he], fun ids hids => ⟨fun h => ?_, fun h => ?_⟩⟩
  · obtain ⟨e, he⟩ := fetchServers_error bk st path ids h
    exact ⟨e, by simp [listServers, hids, he]⟩
  · obtain ⟨l, hl, hf⟩ := fetchServers_ok bk st path ids h
    exact ⟨l, by simp [listServers, hids, hl], hf⟩

/-- Claim C6. `GetServers` and `GetAuthServers` are all-or-nothing: if the enumeration of
the keys fails, or the fetch of an enumerated key fails, or the value of an enumerated key
does not decode as a `Server`, the result is an error and the nil slice; if none of these
fails, the result is no error and one `Server` for every enumerated key, in the order of
the enumeration, each the decoding of the value fetched for its key. -/
theorem list_all_or_nothing (impl : JsonImpl) {σ : Type} (s : PresenceService σ) (st : σ) :
    ((∀ e, s.backend.GetKeys st serversPath = .error e → s.GetServers impl st = (none, some e)) ∧
     (∀ ids, s.backend.GetKeys st serversPath = .ok ids →
      ((∃ id ∈ ids, (∃ e, s.backend.GetVal st serversPath id = .error e) ∨
          ∃ data e, s.backend.GetVal st serversPath id = .ok data ∧
            (Unmarshal_Server impl data Server.zero).2 = some e) →
        ∃ e, s.GetServers impl st = (none, some e)) ∧
      ((∀ id ∈ ids, ∃ data, s.backend.GetVal st serversPath id = .ok data ∧
          (Unmarshal_Server impl data Server.zero).2 = none) →
        ∃ l, s.GetServers impl st = (some l, none) ∧
          List.Forall₂ (fun id srv => ∃ data, s.backend.GetVal st serversPath id = .ok data ∧
            srv = (Unmarshal_Server impl data Server.zero).1) ids l))) ∧
    ((∀ e, s.backend.GetKeys st authServersPath = .error e →
        s.GetAuthServers impl st = (none, some e)) ∧
     (∀ ids, s.backend.GetKeys st authServersPath = .ok ids →
      ((∃ id ∈ ids, (∃ e, s.backend.GetVal st authServersPath id = .error e) ∨
          ∃ data e, s.backend.GetVal st authServersPath id = .ok data ∧
            (Unmarshal_Server impl data Server.zero).2 = some e) →
        ∃ e, s.GetAuthServers impl st = (none, some e)) ∧
      ((∀ id ∈ ids, ∃ data, s.backend.GetVal st authServersPath id = .ok data ∧
          (Unmarshal_Server impl data Server.zero).2 = none) →
        ∃ l, s.GetAuthServers impl st = (some l, none) ∧
          List.Forall₂ (fun id srv => ∃ data,
            s.backend.GetVal st authServersPath id = .ok data ∧
            srv = (Unmarshal_Server impl data Server.zero).1) ids l))) :=
  ⟨listServers_all_or_nothing s.backend st serversPath,
   listServers_all_or_nothing s.backend st authServersPath⟩

/-- Claim C6 at a backend whose fetch of the first key fails, and at the in-memory backend
after one write. -/
theorem list_all_or_nothing_witness :
    (∃ e, PresenceService.GetServers .v2 ⟨vanishedBackend⟩ () = (none, some e)) ∧
    (∃ l, memService.GetServers .legacy (memService.UpsertServer [] node1 0).1
        = (some l, none) ∧
      List.Forall₂ (fun id srv => ∃ data,
        memBackend.GetVal (memService.UpsertServer [] node1 0).1 serversPath id = .ok data ∧
        srv = (Unmarshal_Server .legacy data Server.zero).1) [ascii "node1"] l) :=
  ⟨((list_all_or_nothing .v2 ⟨vanishedBackend⟩ ()).1.2 [[97], [98]] rfl).1
      ⟨[97], by simp, Or.inl ⟨.notFound, rfl⟩⟩,
   ((list_all_or_nothing .legacy memService (memService.UpsertServer [] node1 0).1).1.2
      [ascii "node1"] (by decide)).2 (by
        intro id hid
        simp only [List.mem_singleton] at hid
        subst hid
        exact ⟨(Marshal_Server node1).getD [], by decide, by decide⟩)⟩

theorem listServers_notFound {impl : JsonImpl} {σ : Type} (bk : Backend σ) (st : σ)
    (path : List Bytes)
    (pre post : List Bytes) (id : Bytes)
    (hk : bk.GetKeys st path = .ok (pre ++ id :: post))
    (hpre : ∀ k ∈ pre, ∃ data, bk.GetVal st path k = .ok data ∧
      (Unmarshal_Server impl data Server.zero).2 = none)
    (hid : bk.GetVal st path id = .error .notFound) :
    listServers impl bk st path = (none, some .notFound) := by
  have : fetchServers impl bk st path (pre ++ id :: post) = .error .notFound := by
    clear hk
    induction pre with
    | nil => simp [fetchServers, hid]
    | cons a t ih =>
      obtain ⟨data, hd, hu⟩ := hpre a (by simp)
      have := ih (fun k hk => hpre k (by simp [hk]))
      rw [List.cons_append, fetchServers, hd]
      simp only
      rcases hu' : Unmarshal_Server impl data Server.zero with ⟨srv, e⟩
      rw [hu'] at hu
      simp only at hu
      subst hu
      simp only [this]
  simp [listServers, hk, this]

/-- Claim C7, the counterexample. The backend lists `a` and `b`; the fetch of `a` fails
with `NotFound`, the value of `b` decodes. `GetServers` and `GetAuthServers` return the
error `NotFound` and the nil slice, not the server of the remaining key, with either
implementation of `encoding/json`. -/
theorem list_vanished_key_counterexample :
    vanishedBackend.GetKeys () serversPath = .ok [[97], [98]] ∧
    vanishedBackend.GetVal () serversPath [97] = .error .notFound ∧
    (∃ data, vanishedBackend.GetVal () serversPath [98] = .ok data ∧
      Unmarshal_Server .legacy data Server.zero = (Server.zero, none) ∧
      Unmarshal_Server .v2 data Server.zero = (Server.zero, none)) ∧
    PresenceService.GetServers .legacy ⟨vanishedBackend⟩ () = (none, some .notFound) ∧
    PresenceService.GetAuthServers .legacy ⟨vanishedBackend⟩ () = (none, some .notFound) ∧
    PresenceService.GetServers .v2 ⟨vanishedBackend⟩ () = (none, some .notFound) ∧
    PresenceService.GetAuthServers .v2 ⟨vanishedBackend⟩ () = (none, some .notFound) := by
  refine ⟨rfl, rfl, ⟨[123, 125], rfl, by decide, by decide⟩, by decide, by decide,
    by decide, by decide⟩

/-- Claim C7, as amended. A key that has vanished is an error like any other failed
fetch: if the fetch of an enumerated key fails with `NotFound`, and the keys enumerated
before it were fetched and decoded, `GetServers` (and likewise `GetAuthServers`) returns
the error `NotFound` and the nil slice. -/
theorem list_vanished_key_is_error (impl : JsonImpl) {σ : Type} (s : PresenceService σ)
    (st : σ)
    (pre post : List Bytes) (id : Bytes) :
    (s.backend.GetKeys st serversPath = .ok (pre ++ id :: post) →
      (∀ k ∈ pre, ∃ data, s.backend.GetVal st serversPath k = .ok data ∧
        (Unmarshal_Server impl data Server.zero).2 = none) →
      s.backend.GetVal st serversPath id = .error .notFound →
      s.GetServers impl st = (none, some .notFound)) ∧
    (s.backend.GetKeys st authServersPath = .ok (pre ++ id :: post) →
      (∀ k ∈ pre, ∃ data, s.backend.GetVal st authServersPath k = .ok data ∧
        (Unmarshal_Server impl data Server.zero).2 = none) →
      s.backend.GetVal st authServersPath id = .error .notFound →
      s.GetAuthServers impl st = (none, some .notFound)) :=
  ⟨listServers_notFound s.backend st serversPath pre post id,
   listServers_notFound s.backend st authServersPath pre post id⟩

/-- Claim C7 as amended, at the backend of the counterexample. -/
theorem list_vanished_key_is_error_witness :
    PresenceService.GetServers .legacy ⟨vanishedBackend⟩ () = (none, some .notFound) ∧
    PresenceService.GetAuthServers .v2 ⟨vanishedBackend⟩ () = (none, some .notFound) :=
  ⟨(list_vanished_key_is_error .legacy ⟨vanishedBackend⟩ () [] [[98]] [97]).1 rfl
      (by simp) rfl,
   (list_vanished_key_is_error .v2 ⟨vanishedBackend⟩ () [] [[98]] [97]).2 rfl
      (by simp) rfl⟩

theorem memUpsert_filter (path path' : List Bytes) (key val : Bytes) (ttl : Int)
    (h : path ≠ path') (st : List MemEntry) :
    (memUpsert path key val ttl st).filter (fun e => e.path = path')
      = st.filter (fun e => e.path = path') := by
  induction st with
  | nil => simp [memUpsert, h]
  | cons e t ih =>
    rw [memUpsert]
    split
    · rename_i he
      have : e.path ≠ path' := by rw [he.1]; exact h
      simp [List.filter_cons, h, this]
    · simp [List.filter_cons, ih]

theorem memUpsert_find (path path' : List Bytes) (key key' val : Bytes) (ttl : Int)
    (h : path ≠ path') (st : List MemEntry) :
    (memUpsert path key val ttl st).find? (fun e => e.path = path' ∧ e.key = key')
      = st.find? (fun e => e.path = path' ∧ e.key = key') := by
  induction st with
  | nil => simp [memUpsert, h]
  | cons e t ih =>
    rw [memUpsert]
    split
    · rename_i he
      have : e.path ≠ path' := by rw [he.1]; exact h
      simp [List.find?_cons, h, this]
    · simp only [List.find?_cons, ih]

/-- A write of the in-memory backend under one path does not change what is listed under
another. -/
theorem listServers_memUpsert {impl : JsonImpl} (path path' : List Bytes) (key val : Bytes)
    (ttl : Int)
    (h : path ≠ path') (st : List MemEntry) :
    listServers impl memBackend (memUpsert path key val ttl st) path'
      = listServers impl memBackend st path' := by
  have hf : ∀ ids, fetchServers impl memBackend (memUpsert path key val ttl st) path' ids
      = fetchServers impl memBackend st path' ids := by
    intro ids
    induction ids with
    | nil => rfl
    | cons a t ih =>
      simp only [fetchServers, memBackend, memUpsert_find path path' key a val ttl h st]
      simp only [memBackend] at ih
      rw [ih]
  simp only [listServers]
  simp only [memBackend] at hf ⊢
  rw [memUpsert_filter path path' key val ttl h st]
  simp only [hf]

theorem upsertServer_mem (st : List MemEntry) (path : List Bytes) (s : Server) (ttl : Int) :
    (upsertServer memBackend st path s ttl).1 = st ∨
    ∃ data, (upsertServer memBackend st path s ttl).1 = memUpsert path s.ID data ttl st := by
  unfold upsertServer
  cases Marshal_Server s with
  | none => exact Or.inl rfl
  | some data => exact Or.inr ⟨data, rfl⟩

/-- Claim C3. The two namespaces are independent: over the in-memory backend, in every
state and for every server and time to live, `GetAuthServers` returns the same before and
after `UpsertServer`, and `GetServers` returns the same before and after
`UpsertAuthServer`. -/
theorem namespaces_independent (impl : JsonImpl) (st : List MemEntry) (s : Server) (ttl : Int) :
    memService.GetAuthServers impl (memService.UpsertServer st s ttl).1
      = memService.GetAuthServers impl st ∧
    memService.GetServers impl (memService.UpsertAuthServer st s ttl).1
      = memService.GetServers impl st := by
  constructor
  · rcases upsertServer_mem st serversPath s ttl with h | ⟨data, h⟩
    · simp only [PresenceService.UpsertServer, memService, h]
    · simp only [PresenceService.UpsertServer, PresenceService.GetAuthServers, memService, h]
      exact listServers_memUpsert _ _ _ _ _ (by decide) st
  · rcases upsertServer_mem st authServersPath s ttl with h | ⟨data, h⟩
    · simp only [PresenceService.UpsertAuthServer, memService, h]
    · simp only [PresenceService.UpsertAuthServer, PresenceService.GetServers, memService, h]
      exact listServers_memUpsert _ _ _ _ _ (by decide) st

/-! ## The duration codec -/

theorem fmtIntLoop_digits (fuel v : Nat) (buf : Bytes) :
    ∃ ds, (∀ c ∈ ds, isDigit c = true) ∧ fmtIntLoop fuel v buf = ds ++ buf := by
  induction fuel generalizing v buf with
  | zero => exact ⟨[], by simp, rfl⟩
  | succ n ih =>
    rw [fmtIntLoop]
    split
    · obtain ⟨ds, hds, h⟩ := ih (v / 10) ((v % 10 + 48) :: buf)
      refine ⟨ds ++ [v % 10 + 48], ?_, by rw [h]; simp⟩
      intro c hc
      rcases List.mem_append.1 hc with h1 | h1
      · exact hds c h1
      · simp only [List.mem_singleton] at h1
        subst h1
        simp only [isDigit, Bool.and_eq_true, decide_eq_true_eq]
        omega
    · exact ⟨[], by simp, rfl⟩

theorem fmtInt_digits (buf : Bytes) (v : Nat) :
    ∃ d ds, isDigit d = true ∧ (∀ c ∈ ds, isDigit c = true) ∧ fmtInt buf v = d :: (ds ++ buf) := by
  unfold fmtInt
  split
  · exact ⟨48, [], by decide, by simp, rfl⟩
  · rename_i h
    have hv : 0 < v := Nat.pos_of_ne_zero h
    obtain ⟨ds, hds, hd⟩ := fmtIntLoop_digits 20 v buf
    cases ds with
    | nil =>
      have hl := fmtIntLoop_length_pos 19 v buf hv
      rw [hd] at hl
      simp at hl
    | cons d t =>
      exact ⟨d, t, hds d (by simp), fun c hc => hds c (by simp [hc]), by rw [hd]; rfl⟩

theorem allDigits_leadingIntLoop (p : Bytes) (hp : ∀ c ∈ p, isDigit c = true) (x : Nat) :
    leadingIntLoop p x = none ∨ ∃ v, leadingIntLoop p x = some (v, []) := by
  induction p generalizing x with
  | nil => exact Or.inr ⟨x, rfl⟩
  | cons c t ih =>
    have hc := hp c (by simp)
    simp only [isDigit, Bool.and_eq_true, decide_eq_true_eq] at hc
    rw [leadingIntLoop, if_neg (by omega)]
    split
    · exact Or.inl rfl
    · simp only
      split
      · exact Or.inl rfl
      · exact ih (fun c hc => hp c (by simp [hc])) _

/-- `ParseDuration` rejects a number without unit, unless it is `0`. -/
theorem parseDuration_digits (p : Bytes) (hne : p ≠ []) (hp : ∀ c ∈ p, isDigit c = true)
    (h0 : p ≠ [48]) : ∃ e, ParseDuration p = .error e := by
  obtain ⟨c, t, rfl⟩ := List.exists_cons_of_ne_nil hne
  have hc := hp c (by simp)
  have hc' : isDigitOrDot c = true := by
    simp only [isDigit, Bool.and_eq_true, decide_eq_true_eq] at hc
    simp only [isDigitOrDot, Bool.or_eq_true, beq_iff_eq, Bool.and_eq_true, decide_eq_true_eq]
    omega
  have h45 : c ≠ 45 := by intro h; subst h; simp [isDigit] at hc
  have h43 : c ≠ 43 := by intro h; subst h; simp [isDigit] at hc
  have hm : consumeSign (c :: t) = (false, c :: t) := by
    unfold consumeSign
    split
    · rename_i h; simp at h; exact absurd h.1 h45
    · rename_i h; simp at h; exact absurd h.1 h43
    · rfl
  have hterm : ∃ e, parseDurationTerm (c :: t) = .error e := by
    rw [parseDurationTerm]
    simp only [hc', Bool.not_true, Bool.false_eq_true, if_false]
    rcases allDigits_leadingIntLoop (c :: t) hp 0 with h | ⟨v, h⟩
    · simp only [leadingInt, h]; exact ⟨_, rfl⟩
    · simp only [leadingInt, h]
      exact ⟨.missingUnit, by simp [consumeFraction, consumeUnit, List.span_eq_take_drop]⟩
  obtain ⟨e, he⟩ := hterm
  unfold ParseDuration
  simp only [hm, h0, if_false, List.cons_ne_nil, List.length_cons, parseDurationLoop, he]
  exact ⟨e, rfl⟩

/-! ## Strings: well-formed UTF-8 survives quoting and unquoting -/

/-- What `decodeRune` returns on a well-formed encoding of more than one byte. -/
theorem decodeRune_multibyte (b : Nat) (r : Bytes) (c size : Nat) (hb : 0x80 ≤ b)
    (h : decodeRune (b :: r) = (c, size)) (hv : ¬(c = RuneError ∧ size = 1)) :
    ∃ t rest, r = t ++ rest ∧ size = t.length + 1 ∧ encodeRune c = b :: t ∧
      (∀ x ∈ t, 0x80 ≤ x ∧ x ≤ 0xBF) ∧ 0xC2 ≤ b ∧ b ≤ 0xF4 ∧ 0x80 ≤ c ∧ c ≤ 0x10FFFF ∧
      ¬(0xD800 ≤ c ∧ c < 0xE000) ∧
      (∀ tail, decodeRune (b :: (t ++ tail)) = (c, size)) ∧
      ((c = 0x2028 ∨ c = 0x2029) ↔ (b = 0xE2 ∧ ∃ y, t = [0x80, y] ∧ (y = 0xA8 ∨ y = 0xA9))) := by
  rw [decodeRune, if_neg (by omega)] at h
  split at h
  · simp only [Prod.mk.injEq] at h; exact absurd ⟨h.1.symm, h.2.symm⟩ hv
  rename_i hr1
  split at h
  · -- two bytes
    rename_i h2
    cases r with
    | nil => simp only [decodeRune2, Prod.mk.injEq] at h; exact absurd ⟨h.1.symm, h.2.symm⟩ hv
    | cons b1 r' =>
      simp only [decodeRune2] at h
      split at h
      · rename_i hc1
        simp only [isCont, Bool.and_eq_true, decide_eq_true_eq] at hc1
        simp only [Prod.mk.injEq] at h
        obtain ⟨rfl, rfl⟩ := h
        refine ⟨[b1], r', rfl, rfl, ?_, ?_, by omega, by omega, by omega, by omega, by omega, ?_, ?_⟩
        · simp only [encodeRune]
          rw [if_neg (by omega), if_pos (by omega)]
          congr 1
          · omega
          · congr 1; omega
        · intro x hx; simp only [List.mem_singleton] at hx; subst hx; omega
        · intro tail
          simp only [decodeRune, decodeRune2, decodeRune3, decodeRune4, List.cons_append, List.nil_append, isCont]
          rw [if_neg (by omega), if_neg hr1, if_pos h2]
          simp [hc1]
        · constructor
          · intro hc; omega
          · rintro ⟨rfl, _⟩; omega
      · simp only [Prod.mk.injEq] at h; exact absurd ⟨h.1.symm, h.2.symm⟩ hv
  rename_i h2
  split at h
  · -- three bytes
    rename_i h3
    match r, h with
    | [], h => simp only [decodeRune3, Prod.mk.injEq] at h; exact absurd ⟨h.1.symm, h.2.symm⟩ hv
    | [_], h => simp only [decodeRune3, Prod.mk.injEq] at h; exact absurd ⟨h.1.symm, h.2.symm⟩ hv
    | b1 :: b2 :: r', h =>
      simp only [decodeRune3] at h
      by_cases hb1 : (b1 < if b = 224 then 160 else 128) ∨ (if b = 237 then 159 else 191) < b1
      · rw [if_pos hb1] at h
        simp only [Prod.mk.injEq] at h; exact absurd ⟨h.1.symm, h.2.symm⟩ hv
      rw [if_neg hb1] at h
      by_cases hb2 : (!isCont b2) = true
      · rw [if_pos hb2] at h
        simp only [Prod.mk.injEq] at h; exact absurd ⟨h.1.symm, h.2.symm⟩ hv
      rw [if_neg hb2] at h
      replace hb2 : 0x80 ≤ b2 ∧ b2 ≤ 0xBF := by simpa [isCont] using hb2
      clear hv
      simp only [Prod.mk.injEq] at h
      obtain ⟨rfl, rfl⟩ := h
      have hlo : (if b = 0xE0 then 0xA0 else 0x80) ≤ b1 := by omega
      have hhi : b1 ≤ (if b = 0xED then 0x9F else 0xBF) := by omega
      have hb1r : 0x80 ≤ b1 ∧ b1 ≤ 0xBF := by
        constructor
        · split at hlo <;> omega
        · split at hhi <;> omega
      have hc0 : 0x800 ≤ b % 16 * 4096 + b1 % 64 * 64 + b2 % 64 := by
        split at hlo <;> omega
      have hc1 : ¬(0xD800 ≤ b % 16 * 4096 + b1 % 64 * 64 + b2 % 64 ∧
          b % 16 * 4096 + b1 % 64 * 64 + b2 % 64 < 0xE000) := by
        split at hhi <;> omega
      refine ⟨[b1, b2], r', rfl, rfl, ?_, ?_, by omega, by omega, by omega, by omega, hc1,
        ?_, ?_⟩
      · simp only [encodeRune]
        rw [if_neg (by omega), if_neg (by omega), if_neg (by omega), if_pos (by omega)]
        congr 1
        · omega
        · congr 1
          · omega
          · congr 1; omega
      · intro x hx
        simp only [List.mem_cons, List.mem_singleton, List.not_mem_nil, or_false] at hx
        rcases hx with rfl | rfl <;> omega
      · intro tail
        simp only [decodeRune, decodeRune2, decodeRune3, decodeRune4, List.cons_append, List.nil_append, isCont]
        rw [if_neg (by omega), if_neg hr1, if_neg h2, if_pos h3, if_neg hb1]
        have : (decide (128 ≤ b2) && decide (b2 ≤ 191)) = true := by
          simp; omega
        simp [this]
      · constructor
        · intro hc
          refine ⟨by omega, b2, ?_, by omega⟩
          congr 1; omega
        · rintro ⟨rfl, y, hy, hy'⟩
          simp only [List.cons.injEq, and_true] at hy
          obtain ⟨rfl, rfl⟩ := hy
          rcases hy' with rfl | rfl
          · left; rfl
          · right; rfl
  · -- four bytes
    rename_i h3
    match r, h with
    | [], h => simp only [decodeRune4, Prod.mk.injEq] at h; exact absurd ⟨h.1.symm, h.2.symm⟩ hv
    | [_], h => simp only [decodeRune4, Prod.mk.injEq] at h; exact absurd ⟨h.1.symm, h.2.symm⟩ hv
    | [_, _], h => simp only [decodeRune4, Prod.mk.injEq] at h; exact absurd ⟨h.1.symm, h.2.symm⟩ hv
    | b1 :: b2 :: b3 :: r', h =>
      simp only [decodeRune4] at h
      by_cases hb1 : (b1 < if b = 240 then 144 else 128) ∨ (if b = 244 then 143 else 191) < b1
      · rw [if_pos hb1] at h
        simp only [Prod.mk.injEq] at h; exact absurd ⟨h.1.symm, h.2.symm⟩ hv
      rw [if_neg hb1] at h
      by_cases hb2 : (!isCont b2) = true
      · rw [if_pos hb2] at h
        simp only [Prod.mk.injEq] at h; exact absurd ⟨h.1.symm, h.2.symm⟩ hv
      rw [if_neg hb2] at h
      by_cases hb3 : (!isCont b3) = true
      · rw [if_pos hb3] at h
        simp only [Prod.mk.injEq] at h; exact absurd ⟨h.1.symm, h.2.symm⟩ hv
      rw [if_neg hb3] at h
      replace hb2 : 0x80 ≤ b2 ∧ b2 ≤ 0xBF := by simpa [isCont] using hb2
      replace hb3 : 0x80 ≤ b3 ∧ b3 ≤ 0xBF := by simpa [isCont] using hb3
      clear hv
      simp only [Prod.mk.injEq] at h
      obtain ⟨rfl, rfl⟩ := h
      have hlo : (if b = 0xF0 then 0x90 else 0x80) ≤ b1 := by omega
      have hhi : b1 ≤ (if b = 0xF4 then 0x8F else 0xBF) := by omega
      have hb1r : 0x80 ≤ b1 ∧ b1 ≤ 0xBF := by
        constructor
        · split at hlo <;> omega
        · split at hhi <;> omega
      have hc0 : 0x10000 ≤ b % 8 * 262144 + b1 % 64 * 4096 + b2 % 64 * 64 + b3 % 64 := by
        split at hlo <;> omega
      have hc1 : b % 8 * 262144 + b1 % 64 * 4096 + b2 % 64 * 64 + b3 % 64 ≤ 0x10FFFF := by
        split at hhi <;> omega
      refine ⟨[b1, b2, b3], r', rfl, rfl, ?_, ?_, by omega, by omega, by omega, hc1, by omega,
        ?_, ?_⟩
      · simp only [encodeRune]
        rw [if_neg (by omega), if_neg (by omega), if_neg (by omega), if_neg (by omega)]
        congr 1
        · omega
        · congr 1
          · omega
          · congr 1
            · omega
            · congr 1; omega
      · intro x hx
        simp only [List.mem_cons, List.mem_singleton, List.not_mem_nil, or_false] at hx
        rcases hx with rfl | rfl | rfl <;> omega
      · intro tail
        simp only [decodeRune, decodeRune2, decodeRune3, decodeRune4, List.cons_append, List.nil_append, isCont]
        rw [if_neg (by omega), if_neg hr1, if_neg h2, if_neg h3, if_neg hb1]
        have e2 : (decide (128 ≤ b2) && decide (b2 ≤ 191)) = true := by simp; omega
        have e3 : (decide (128 ≤ b3) && decide (b3 ≤ 191)) = true := by simp; omega
        simp [e2, e3]
      · constructor
        · intro hc; omega
        · rintro ⟨rfl, _⟩; omega

theorem encodeRune_length (c : Nat) (h : 0x80 ≤ c) : 2 ≤ (encodeRune c).length := by
  unfold encodeRune
  rw [if_neg (by omega)]
  split
  · simp
  · split
    · simp
    · split <;> simp

theorem encodeRune_E2 (c : Nat) (t : Bytes) (h : encodeRune c = 0xE2 :: t) : t.length = 2 := by
  unfold encodeRune at h
  split at h
  · simp only [List.cons.injEq] at h; rw [← h.2]; omega
  · split at h
    · simp only [List.cons.injEq] at h; omega
    · split at h
      · simp at h
      · split at h
        · simp only [List.cons.injEq] at h; rw [← h.2]; rfl
        · simp only [List.cons.injEq] at h; omega

/-- Induction over a well-formed UTF-8 string, rune by rune. -/
theorem utf8_induction (P : Nat → Bytes → Prop)
    (hnil : ∀ fuel, P fuel [])
    (hascii : ∀ fuel b r, b < 0x80 → P fuel r → P (fuel + 1) (b :: r))
    (hmulti : ∀ fuel b t rest c, 0x80 ≤ b → 1 ≤ t.length → encodeRune c = b :: t →
      (∀ x ∈ t, 0x80 ≤ x ∧ x ≤ 0xBF) → 0xC2 ≤ b → b ≤ 0xF4 → 0x80 ≤ c →
      ¬(0xD800 ≤ c ∧ c < 0xE000) →
      (∀ tail, decodeRune (b :: (t ++ tail)) = (c, t.length + 1)) →
      ((c = 0x2028 ∨ c = 0x2029) ↔ (b = 0xE2 ∧ ∃ y, t = [0x80, y] ∧ (y = 0xA8 ∨ y = 0xA9))) →
      P fuel rest → P (fuel + 1) (b :: (t ++ rest))) :
    ∀ fuel s, validUTF8Loop fuel s = true → P fuel s := by
  intro fuel
  induction fuel with
  | zero =>
    intro s h
    cases s with
    | nil => exact hnil 0
    | cons b r => simp [validUTF8Loop] at h
  | succ n ih =>
    intro s h
    cases s with
    | nil => exact hnil _
    | cons b r =>
      rw [validUTF8Loop] at h
      rcases hd : decodeRune (b :: r) with ⟨c, size⟩
      rw [hd] at h
      simp only at h
      by_cases hbad : c = RuneError ∧ size = 1
      · rw [if_pos hbad] at h; exact absurd h (by simp)
      · rw [if_neg hbad] at h
        by_cases hb : b < 0x80
        · rw [decodeRune, if_pos hb] at hd
          simp only [Prod.mk.injEq] at hd
          obtain ⟨rfl, rfl⟩ := hd
          exact hascii n b r hb (ih r (by simpa using h))
        · obtain ⟨t, rest, rfl, hsize, henc, hcont, hb1, hb2, hc1, _, hc3, hdec, h2028⟩ :=
            decodeRune_multibyte b r c size (by omega) hd hbad
          subst hsize
          have hl := encodeRune_length c hc1
          rw [henc] at hl
          simp only [List.length_cons] at hl
          have hdrop : (t ++ rest).drop (t.length + 1 - 1) = rest := by simp
          rw [hdrop] at h
          exact hmulti n b t rest c (by omega) (by omega) henc hcont hb1 hb2 hc1 hc3 hdec
            h2028 (ih rest h)

theorem appendStringLoop_ascii (fuel b : Nat) (r : Bytes) (hb : b < 0x80) :
    appendStringLoop (fuel + 1) (b :: r)
      = (if htmlSafeSet b then [b] else escapeByte b) ++ appendStringLoop fuel r := by
  rw [appendStringLoop, if_pos hb]

theorem appendStringLoop_multi (fuel b : Nat) (t rest : Bytes) (c : Nat) (hb : 0x80 ≤ b)
    (ht : 1 ≤ t.length) (hdec : decodeRune (b :: (t ++ rest)) = (c, t.length + 1)) :
    appendStringLoop (fuel + 1) (b :: (t ++ rest))
      = (if c = 0x2028 ∨ c = 0x2029 then [92, 117, 50, 48, 50, hexDigit (c % 16)] else b :: t)
        ++ appendStringLoop fuel rest := by
  rw [appendStringLoop, if_neg (by omega), hdec]
  simp only
  rw [if_neg (by omega)]
  have h1 : (t ++ rest).drop (t.length + 1 - 1) = rest := by simp
  have h2 : (b :: (t ++ rest)).take (t.length + 1) = b :: t := by simp
  rw [h1, h2]
  split <;> rfl

theorem isHex_hexDigit (n : Nat) (h : n < 16) : isHex (hexDigit n) = true := by
  unfold hexDigit isHex
  split <;> simp <;> omega

theorem hexVal_hexDigit (n : Nat) (h : n < 16) : hexVal (hexDigit n) = some n := by
  unfold hexDigit hexVal
  split
  · rw [if_pos (by omega)]; congr 1; omega
  · rw [if_neg (by omega), if_pos (by omega)]; congr 1; omega

theorem scanString_cons (c : Nat) (r : Bytes) :
    scanString (c :: r) =
      if c = 34 then some r
      else if c = 92 then
        match r with
        | [] => none
        | e :: r1 =>
          if e = 98 ∨ e = 102 ∨ e = 110 ∨ e = 114 ∨ e = 116 ∨ e = 92 ∨ e = 47 ∨ e = 34 then
            scanString r1
          else if e = 117 then
            match r1 with
            | h1 :: h2 :: h3 :: h4 :: r2 =>
              if isHex h1 && isHex h2 && isHex h3 && isHex h4 then scanString r2 else none
            | _ => none
          else none
      else if c < 32 then none
      else scanString r := by
  rw [scanString.eq_def]
  rfl

theorem scanString_esc (e : Nat) (r : Bytes) (h : e = 98 ∨ e = 102 ∨ e = 110 ∨ e = 114 ∨ e = 116 ∨ e = 92 ∨ e = 47 ∨ e = 34) :
    scanString (92 :: e :: r) = scanString r := by
  rw [scanString_cons]
  simp [h]
theorem scanString_u (h1 h2 h3 h4 : Nat) (r : Bytes) (h : (isHex h1 && isHex h2 && isHex h3 && isHex h4) = true) :
    scanString (92 :: 117 :: h1 :: h2 :: h3 :: h4 :: r) = scanString r := by
  rw [scanString_cons]
  simp [h]
theorem scanString_quote (r : Bytes) : scanString (34 :: r) = some r := by
  rw [scanString_cons, if_pos rfl]

theorem scanString_plain (c : Nat) (r : Bytes) (h1 : c ≠ 34) (h2 : c ≠ 92) (h3 : 32 ≤ c) :
    scanString (c :: r) = scanString r := by
  rw [scanString_cons, if_neg h1, if_neg h2, if_neg (by omega)]

theorem scanString_high (t tail : Bytes) (h : ∀ x ∈ t, 0x80 ≤ x) :
    scanString (t ++ tail) = scanString tail := by
  induction t with
  | nil => rfl
  | cons a t ih =>
    have ha := h a (by simp)
    rw [List.cons_append, scanString_plain _ _ (by omega) (by omega) (by omega)]
    exact ih (fun x hx => h x (by simp [hx]))

theorem scanString_escapeByte (b : Nat) (tail : Bytes) (hb : b < 0x80) :
    scanString (escapeByte b ++ tail) = scanString tail := by
  unfold escapeByte
  split
  · rename_i h
    exact scanString_esc b tail (by omega)
  · repeat' split
    all_goals first
      | exact scanString_esc _ tail (by omega)
      | exact scanString_u _ _ _ _ tail (by
          rw [isHex_hexDigit (b / 16) (by omega), isHex_hexDigit (b % 16) (by omega)]; rfl)

/-- The scanner reads the body of a string literal that `appendString` wrote up to its
closing quote. -/
theorem scanString_appendStringLoop (fuel : Nat) (s : Bytes) (h : validUTF8Loop fuel s = true) :
    ∀ tail, scanString (appendStringLoop fuel s ++ 34 :: tail) = some tail := by
  refine utf8_induction (fun fuel s => ∀ tail,
    scanString (appendStringLoop fuel s ++ 34 :: tail) = some tail) ?_ ?_ ?_ fuel s h
  · intro fuel tail
    cases fuel <;> simp [appendStringLoop, scanString_quote]
  · intro fuel b r hb ih tail
    rw [appendStringLoop_ascii fuel b r hb, List.append_assoc]
    split
    · rename_i hs
      simp only [htmlSafeSet, Bool.and_eq_true, decide_eq_true_eq, bne_iff_ne, ne_eq] at hs
      rw [List.cons_append, List.nil_append, scanString_plain _ _ (by omega) (by omega) (by omega)]
      exact ih tail
    · rw [scanString_escapeByte b _ hb]
      exact ih tail
  · intro fuel b t rest c hb ht henc hcont hb1 hb2 hc1 hc3 hdec h2028 ih tail
    rw [appendStringLoop_multi fuel b t rest c hb ht (hdec rest), List.append_assoc]
    split
    · simp only [List.cons_append, List.nil_append]
      rw [scanString_u _ _ _ _ _ (by
        rw [isHex_hexDigit (c % 16) (Nat.mod_lt _ (by norm_num))]; rfl)]
      exact ih tail
    · rw [scanString_high (b :: t) _ (by
        intro x hx
        rcases List.mem_cons.1 hx with rfl | hx
        · exact hb
        · exact (hcont x hx).1)]
      exact ih tail

theorem unquoteLoop_succ (fuel c : Nat) (r : Bytes) (out : Bytes) (k : Nat)
    (h : unquoteStep c r = some (out, k)) :
    unquoteLoop (fuel + 1) (c :: r) = (unquoteLoop fuel (r.drop k)).map (out ++ ·) := by
  rw [unquoteLoop, h]

theorem unquoteStep_plain (c : Nat) (r : Bytes) (h1 : c ≠ 34) (h2 : c ≠ 92) (h3 : 32 ≤ c)
    (h4 : c < 0x80) : unquoteStep c r = some ([c], 0) := by
  unfold unquoteStep
  rw [if_neg h2, if_neg (by omega), if_pos h4]

theorem unquoteStep_multi (c : Nat) (r : Bytes) (rr size : Nat) (h : 0x80 ≤ c)
    (hd : decodeRune (c :: r) = (rr, size)) :
    unquoteStep c r = some (encodeRune rr, size - 1) := by
  unfold unquoteStep
  rw [if_neg (by omega), if_neg (by omega), if_neg (by omega), hd]

theorem unquoteStep_u (h1 h2 h3 h4 : Nat) (r : Bytes) (rr : Nat)
    (hg : getu4 (92 :: 117 :: h1 :: h2 :: h3 :: h4 :: r) = some rr)
    (hs : ¬(0xD800 ≤ rr ∧ rr < 0xE000)) :
    unquoteStep 92 (117 :: h1 :: h2 :: h3 :: h4 :: r) = some (encodeRune rr, 5) := by
  unfold unquoteStep
  simp [hg, hs]

theorem unquoteLoop_plain (fuel c : Nat) (r : Bytes) (h1 : c ≠ 34) (h2 : c ≠ 92) (h3 : 32 ≤ c)
    (h4 : c < 0x80) : unquoteLoop (fuel + 1) (c :: r) = (unquoteLoop fuel r).map (c :: ·) := by
  rw [unquoteLoop_succ _ _ _ _ _ (unquoteStep_plain c r h1 h2 h3 h4)]
  rfl

theorem unquoteLoop_multi (fuel c : Nat) (r : Bytes) (rr size : Nat) (h : 0x80 ≤ c)
    (hd : decodeRune (c :: r) = (rr, size)) :
    unquoteLoop (fuel + 1) (c :: r)
      = (unquoteLoop fuel (r.drop (size - 1))).map (encodeRune rr ++ ·) := by
  rw [unquoteLoop_succ _ _ _ _ _ (unquoteStep_multi c r rr size h hd)]

theorem unquoteLoop_u (fuel h1 h2 h3 h4 : Nat) (r : Bytes) (rr : Nat)
    (hg : getu4 (92 :: 117 :: h1 :: h2 :: h3 :: h4 :: r) = some rr)
    (hs : ¬(0xD800 ≤ rr ∧ rr < 0xE000)) :
    unquoteLoop (fuel + 1) (92 :: 117 :: h1 :: h2 :: h3 :: h4 :: r)
      = (unquoteLoop fuel r).map (encodeRune rr ++ ·) := by
  rw [unquoteLoop_succ _ _ _ _ _ (unquoteStep_u h1 h2 h3 h4 r rr hg hs)]
  rfl

theorem unquoteLoop_esc (fuel e x : Nat) (r : Bytes)
    (h : unquoteStep 92 (e :: r) = some ([x], 1)) :
    unquoteLoop (fuel + 1) (92 :: e :: r) = (unquoteLoop fuel r).map (x :: ·) := by
  rw [unquoteLoop_succ _ _ _ _ _ h]
  rfl

theorem getu4_hex (a b c d : Nat) (r : Bytes) (ha : a < 16) (hb : b < 16) (hc : c < 16)
    (hd : d < 16) :
    getu4 (92 :: 117 :: hexDigit a :: hexDigit b :: hexDigit c :: hexDigit d :: r)
      = some (a * 4096 + b * 256 + c * 16 + d) := by
  simp only [getu4, hexVal_hexDigit _ ha, hexVal_hexDigit _ hb, hexVal_hexDigit _ hc,
    hexVal_hexDigit _ hd]

theorem unquoteLoop_escapeByte (fuel b : Nat) (tail : Bytes) (hb : b < 0x80)
    (hs : htmlSafeSet b = false) :
    unquoteLoop (fuel + 1) (escapeByte b ++ tail) = (unquoteLoop fuel tail).map (b :: ·) := by
  unfold escapeByte
  split
  · rename_i h
    exact unquoteLoop_esc fuel b b tail (by
      unfold unquoteStep
      simp only [if_true]
      rw [if_pos (by omega)])
  · repeat' split
    all_goals first
      | (rename_i h
         subst h
         exact unquoteLoop_esc fuel _ _ tail (by simp [unquoteStep]))
      | skip
    have e0 : (48 : Nat) = hexDigit 0 := rfl
    have hg := getu4_hex 0 0 (b / 16) (b % 16) tail (by omega) (by omega) (by omega) (by omega)
    simp only [List.cons_append, List.nil_append]
    rw [e0, unquoteLoop_u _ _ _ _ _ _ _ hg (by omega)]
    have : 0 * 4096 + 0 * 256 + b / 16 * 16 + b % 16 = b := by omega
    rw [this]
    have : encodeRune b = [b] := by unfold encodeRune; rw [if_pos (by omega)]
    rw [this]
    rfl

/-- Unquoting reads back the body of a string literal that `appendString` wrote. -/
theorem unquoteLoop_appendStringLoop (fuel : Nat) (s : Bytes)
    (h : validUTF8Loop fuel s = true) :
    ∀ n, (appendStringLoop fuel s).length ≤ n →
      unquoteLoop n (appendStringLoop fuel s) = some s := by
  refine utf8_induction (fun fuel s => ∀ n, (appendStringLoop fuel s).length ≤ n →
    unquoteLoop n (appendStringLoop fuel s) = some s) ?_ ?_ ?_ fuel s h
  · intro fuel n _
    have : appendStringLoop fuel [] = [] := by cases fuel <;> rfl
    rw [this]
    cases n <;> rfl
  · intro fuel b r hb ih n hn
    rw [appendStringLoop_ascii fuel b r hb] at hn ⊢
    by_cases hs : htmlSafeSet b = true
    · rw [if_pos hs] at hn ⊢
      simp only [List.cons_append, List.nil_append, List.length_cons] at hn ⊢
      obtain ⟨n, rfl⟩ : ∃ k, n = k + 1 := ⟨n - 1, by omega⟩
      simp only [htmlSafeSet, Bool.and_eq_true, decide_eq_true_eq, bne_iff_ne, ne_eq] at hs
      rw [unquoteLoop_plain _ _ _ (by omega) (by omega) (by omega) hb, ih n (by omega)]
      rfl
    · rw [if_neg hs] at hn ⊢
      have hlen : 1 ≤ (escapeByte b).length := by
        unfold escapeByte
        repeat' split
        all_goals simp
      rw [List.length_append] at hn
      obtain ⟨n, rfl⟩ : ∃ k, n = k + 1 := ⟨n - 1, by omega⟩
      rw [unquoteLoop_escapeByte _ _ _ hb (by simpa using hs), ih n (by omega)]
      rfl
  · intro fuel b t rest c hb ht henc hcont hb1 hb2 hc1 hc3 hdec h2028 ih n hn
    rw [appendStringLoop_multi fuel b t rest c hb ht (hdec rest)] at hn ⊢
    by_cases h28 : c = 0x2028 ∨ c = 0x2029
    · rw [if_pos h28] at hn ⊢
      simp only [List.cons_append, List.nil_append, List.length_cons] at hn ⊢
      obtain ⟨n, rfl⟩ : ∃ k, n = k + 1 := ⟨n - 1, by omega⟩
      have e2 : (50 : Nat) = hexDigit 2 := rfl
      have e0 : (48 : Nat) = hexDigit 0 := rfl
      have hg := getu4_hex 2 0 2 (c % 16) (appendStringLoop fuel rest) (by omega) (by omega)
        (by omega) (by omega)
      have hv : 2 * 4096 + 0 * 256 + 2 * 16 + c % 16 = c := by omega
      rw [hv] at hg
      rw [e2, e0, unquoteLoop_u _ _ _ _ _ _ _ hg hc3, ih n (by omega), henc]
      rfl
    · rw [if_neg h28] at hn ⊢
      simp only [List.cons_append, List.length_cons, List.length_append] at hn ⊢
      obtain ⟨n, rfl⟩ : ∃ k, n = k + 1 := ⟨n - 1, by omega⟩
      rw [unquoteLoop_multi _ _ _ _ _ hb (hdec _)]
      have : (t ++ appendStringLoop fuel rest).drop (t.length + 1 - 1)
          = appendStringLoop fuel rest := by simp
      rw [this, ih n (by omega), henc]
      rfl

/-- `unquoteBytes` reads back the string literal that `appendString` wrote for a
well-formed UTF-8 string. -/
theorem unquoteBytes_appendString (s : Bytes) (h : validUTF8 s = true) :
    unquoteBytes (appendString s) = some s := by
  unfold unquoteBytes appendString
  simp only [List.getLast?_append, List.getLast?_singleton, Option.or_some, if_true,
    List.dropLast_concat, List.length_append, List.length_singleton]
  exact unquoteLoop_appendStringLoop s.length s h _ (by omega)

theorem escapeHTMLLoop_zero (c : Nat) (r : Bytes) :
    escapeHTMLLoop 0 (c :: r) =
      if c = 60 ∨ c = 62 ∨ c = 38 then
        [92, 117, 48, 48, hexDigit (c / 16), hexDigit (c % 16)] ++ escapeHTMLLoop 0 r
      else
        match r with
        | b1 :: b2 :: _ =>
          if c = 0xE2 ∧ b1 = 0x80 ∧ (b2 = 0xA8 ∨ b2 = 0xA9) then
            [92, 117, 50, 48, 50, hexDigit (b2 % 16)] ++ escapeHTMLLoop 2 r
          else c :: escapeHTMLLoop 0 r
        | _ => c :: escapeHTMLLoop 0 r := by
  rw [escapeHTMLLoop.eq_def]
  rfl

theorem escapeHTMLLoop_plain (c : Nat) (r : Bytes) (h1 : c ≠ 60) (h2 : c ≠ 62) (h3 : c ≠ 38)
    (h4 : c ≠ 0xE2) : escapeHTMLLoop 0 (c :: r) = c :: escapeHTMLLoop 0 r := by
  rw [escapeHTMLLoop_zero, if_neg (by omega)]
  split
  · rw [if_neg (by omega)]
  · rfl

theorem escapeHTMLLoop_E2 (b1 b2 : Nat) (r : Bytes)
    (h : ¬(b1 = 0x80 ∧ (b2 = 0xA8 ∨ b2 = 0xA9))) :
    escapeHTMLLoop 0 (0xE2 :: b1 :: b2 :: r) = 0xE2 :: escapeHTMLLoop 0 (b1 :: b2 :: r) := by
  rw [escapeHTMLLoop_zero, if_neg (by omega)]
  simp only
  rw [if_neg (by omega)]

theorem escapeHTMLLoop_plainList (t tail : Bytes) (h : ∀ x ∈ t, plainByte x = true) :
    escapeHTMLLoop 0 (t ++ tail) = t ++ escapeHTMLLoop 0 tail := by
  induction t with
  | nil => rfl
  | cons a t ih =>
    have ha := h a (by simp)
    simp only [plainByte, Bool.and_eq_true, bne_iff_ne, ne_eq] at ha
    rw [List.cons_append, escapeHTMLLoop_plain a _ (by omega) (by omega) (by omega) (by omega),
      ih (fun x hx => h x (by simp [hx]))]
    rfl

theorem plainByte_hexDigit (n : Nat) (h : n < 16) : plainByte (hexDigit n) = true := by
  unfold hexDigit plainByte
  split <;> simp <;> omega

theorem plain_escapeByte (b : Nat) (hb : b < 0x80) : ∀ x ∈ escapeByte b, plainByte x = true := by
  unfold escapeByte
  have h1 := plainByte_hexDigit (b / 16) (by omega)
  have h2 := plainByte_hexDigit (b % 16) (by omega)
  repeat' split
  all_goals
    intro x hx
    simp only [List.mem_cons, List.mem_singleton, List.not_mem_nil, or_false] at hx
    rcases hx with rfl | rfl | rfl | rfl | rfl | rfl <;>
      first | rfl | assumption | (simp only [plainByte, Bool.and_eq_true, bne_iff_ne, ne_eq]; omega)

/-- The escapes of `appendCompact` leave the body of a string literal that `appendString`
wrote as it is. -/
theorem escapeHTMLLoop_appendStringLoop (fuel : Nat) (s : Bytes)
    (h : validUTF8Loop fuel s = true) :
    ∀ tail, escapeHTMLLoop 0 (appendStringLoop fuel s ++ tail)
      = appendStringLoop fuel s ++ escapeHTMLLoop 0 tail := by
  refine utf8_induction (fun fuel s => ∀ tail,
    escapeHTMLLoop 0 (appendStringLoop fuel s ++ tail)
      = appendStringLoop fuel s ++ escapeHTMLLoop 0 tail) ?_ ?_ ?_ fuel s h
  · intro fuel tail
    have : appendStringLoop fuel [] = [] := by cases fuel <;> rfl
    rw [this]; rfl
  · intro fuel b r hb ih tail
    rw [appendStringLoop_ascii fuel b r hb, List.append_assoc, List.append_assoc]
    have hp : ∀ x ∈ (if htmlSafeSet b = true then [b] else escapeByte b), plainByte x = true := by
      split
      · rename_i hs
        simp only [htmlSafeSet, Bool.and_eq_true, decide_eq_true_eq, bne_iff_ne, ne_eq] at hs
        intro x hx
        simp only [List.mem_singleton] at hx
        subst hx
        simp only [plainByte, Bool.and_eq_true, bne_iff_ne, ne_eq]
        omega
      · exact plain_escapeByte b hb
    rw [escapeHTMLLoop_plainList _ _ hp, ih tail]
  · intro fuel b t rest c hb ht henc hcont hb1 hb2 hc1 hc3 hdec h2028 ih tail
    rw [appendStringLoop_multi fuel b t rest c hb ht (hdec rest), List.append_assoc,
      List.append_assoc]
    by_cases h28 : c = 0x2028 ∨ c = 0x2029
    · rw [if_pos h28]
      have hp : ∀ x ∈ [92, 117, 50, 48, 50, hexDigit (c % 16)], plainByte x = true := by
        have h1 := plainByte_hexDigit (c % 16) (by omega)
        intro x hx
        simp only [List.mem_cons, List.mem_singleton, List.not_mem_nil, or_false] at hx
        rcases hx with rfl | rfl | rfl | rfl | rfl | rfl <;> first | rfl | assumption
      rw [escapeHTMLLoop_plainList _ _ hp, ih tail]
    · rw [if_neg h28]
      have hpt : ∀ x ∈ t, plainByte x = true := by
        intro x hx
        have := hcont x hx
        simp only [plainByte, Bool.and_eq_true, bne_iff_ne, ne_eq]
        omega
      by_cases hE2 : b = 0xE2
      · subst hE2
        have hl := encodeRune_E2 c t henc
        match t, hl, hpt, h2028 with
        | [b1, b2], _, hpt, h2028 =>
          have hne : ¬(b1 = 0x80 ∧ (b2 = 0xA8 ∨ b2 = 0xA9)) := by
            rintro ⟨rfl, hy⟩
            exact h28 (h2028.2 ⟨rfl, b2, rfl, hy⟩)
          simp only [List.cons_append, List.nil_append]
          rw [escapeHTMLLoop_E2 b1 b2 _ hne]
          have := escapeHTMLLoop_plainList [b1, b2] (appendStringLoop fuel rest ++ tail) hpt
          simp only [List.cons_append, List.nil_append] at this
          rw [this, ih tail]
      · have hp : ∀ x ∈ b :: t, plainByte x = true := by
          intro x hx
          rcases List.mem_cons.1 hx with rfl | hx
          · simp only [plainByte, Bool.and_eq_true, bne_iff_ne, ne_eq]; omega
          · exact hpt x hx
        rw [escapeHTMLLoop_plainList _ _ hp, ih tail]

/-- The escapes of `appendCompact` leave the string literal that `appendString` wrote for
a well-formed UTF-8 string as it is. -/
theorem escapeHTML_appendString (s : Bytes) (h : validUTF8 s = true) :
    escapeHTML (appendString s) = appendString s := by
  unfold escapeHTML appendString
  rw [escapeHTMLLoop_plain 34 _ (by omega) (by omega) (by omega) (by omega),
    escapeHTMLLoop_appendStringLoop s.length s h]
  rfl

/-! ## The scanner reads what `Marshal` writes -/

theorem skipSpace_cons (c : Nat) (r : Bytes) (h : isSpace c = false) :
    skipSpace (c :: r) = c :: r := by
  simp [skipSpace, List.dropWhile, h]

theorem consumed_append (a b : Bytes) : consumed (a ++ b) b = a := by
  simp [consumed]

theorem parseValue_string (fuel d : Nat) (r rest : Bytes) (h : scanString r = some rest) :
    parseValue (fuel + 1) d (34 :: r) = some (.literal (consumed (34 :: r) rest), rest) := by
  rw [parseValue]
  simp [skipSpace, List.dropWhile, isSpace, h]

theorem parseValue_null (fuel d : Nat) (rest : Bytes) :
    parseValue (fuel + 1) d (110 :: 117 :: 108 :: 108 :: rest)
      = some (.literal [110, 117, 108, 108], rest) := by
  rw [parseValue]
  simp [skipSpace, List.dropWhile, isSpace, isDigit, scanKeyword]

theorem parseValue_object (fuel d c : Nat) (r : Bytes) (hd : d + 1 ≤ maxNestingDepth)
    (hc : isSpace c = false) (hc' : c ≠ 125) :
    parseValue (fuel + 1) d (123 :: c :: r) =
      match parseMembers fuel (d + 1) (c :: r) with
      | none => none
      | some (ms, rest) => some (.object (consumed (123 :: c :: r) rest) ms, rest) := by
  rw [parseValue]
  simp only [skipSpace_cons 123 _ rfl, skipSpace_cons c r hc, if_true, Nat.not_lt.2 hd,
    if_false, hc']

theorem parseValue_emptyObject (fuel d : Nat) (r : Bytes) (hd : d + 1 ≤ maxNestingDepth) :
    parseValue (fuel + 1) d (123 :: 125 :: r) = some (.object [123, 125] [], r) := by
  rw [parseValue]
  have hc : consumed (123 :: 125 :: r) r = [123, 125] := consumed_append [123, 125] r
  simp [skipSpace, List.dropWhile, isSpace, Nat.not_lt.2 hd, hc]

theorem parseValue_array (fuel d c : Nat) (r : Bytes) (hd : d + 1 ≤ maxNestingDepth)
    (hc : isSpace c = false) (hc' : c ≠ 93) :
    parseValue (fuel + 1) d (91 :: c :: r) =
      match parseElements fuel (d + 1) (c :: r) with
      | none => none
      | some (es, rest) => some (.array (consumed (91 :: c :: r) rest) es, rest) := by
  rw [parseValue]
  simp only [skipSpace_cons 91 _ rfl, skipSpace_cons c r hc, if_true, Nat.not_lt.2 hd,
    if_false, hc', show (91 : Nat) ≠ 123 by decide]

theorem parseValue_emptyArray (fuel d : Nat) (r : Bytes) (hd : d + 1 ≤ maxNestingDepth) :
    parseValue (fuel + 1) d (91 :: 93 :: r) = some (.array [91, 93] [], r) := by
  rw [parseValue]
  have hc : consumed (91 :: 93 :: r) r = [91, 93] := consumed_append [91, 93] r
  simp [skipSpace, List.dropWhile, isSpace, Nat.not_lt.2 hd, hc]

theorem parseMembers_step (fuel d : Nat) (r r1 r2 : Bytes) (v : JValue) (r3 : Bytes)
    (hk : scanString r = some (58 :: r2)) (hr1 : r1 = 58 :: r2)
    (hv : parseValue fuel d r2 = some (v, r3)) :
    parseMembers (fuel + 1) d (34 :: r) =
      match skipSpace r3 with
      | [] => none
      | c' :: r4 =>
        if c' = 125 then some ([(consumed (34 :: r) r1, v)], r4)
        else if c' = 44 then
          match parseMembers fuel d r4 with
          | none => none
          | some (ms, rest) => some ((consumed (34 :: r) r1, v) :: ms, rest)
        else none := by
  subst hr1
  rw [parseMembers]
  rw [skipSpace_cons 34 _ rfl]
  simp only [ne_eq, not_true_eq_false, if_false, hk, skipSpace_cons 58 _ rfl, hv]
  try rfl

theorem parseElements_step (fuel d : Nat) (s : Bytes) (v : JValue) (r1 : Bytes)
    (hv : parseValue fuel d s = some (v, r1)) :
    parseElements (fuel + 1) d s =
      match skipSpace r1 with
      | [] => none
      | c :: r2 =>
        if c = 93 then some ([v], r2)
        else if c = 44 then
          match parseElements fuel d r2 with
          | none => none
          | some (es, rest) => some (v :: es, rest)
        else none := by
  rw [parseElements]
  simp only [hv]
  try rfl

theorem appendString_eq (s : Bytes) :
    appendString s = 34 :: (appendStringLoop s.length s ++ [34]) := rfl

theorem parsesTo_string (d : Nat) (s : Bytes) (h : validUTF8 s = true) :
    ParsesTo d (appendString s) (strTree s) := by
  intro f rest hf
  obtain ⟨f, rfl⟩ : ∃ k, f = k + 1 := ⟨f - 1, by omega⟩
  have hs := scanString_appendStringLoop s.length s h rest
  have e : appendString s ++ rest = 34 :: (appendStringLoop s.length s ++ 34 :: rest) := by
    simp [appendString]
  rw [e, parseValue_string f d _ rest hs, ← e, consumed_append]
  rfl

theorem parsesTo_null (d : Nat) : ParsesTo d [110, 117, 108, 108] (.literal [110, 117, 108, 108]) := by
  intro f rest hf
  obtain ⟨f, rfl⟩ : ∃ k, f = k + 1 := ⟨f - 1, by omega⟩
  exact parseValue_null f d rest

theorem appendString_length (s : Bytes) : 2 ≤ (appendString s).length := by
  simp [appendString]

theorem elementsParse_single (d : Nat) (text : Bytes) (v : JValue) (h : ParsesTo d text v) :
    ElementsParse d text [v] := by
  intro f rest hf
  obtain ⟨f, rfl⟩ : ∃ k, f = k + 1 := ⟨f - 1, by omega⟩
  rw [parseElements_step f d _ v (93 :: rest) (h f (93 :: rest) (by omega)),
    skipSpace_cons 93 _ rfl]
  rfl

theorem elementsParse_cons (d : Nat) (text more : Bytes) (v : JValue) (es : List JValue)
    (h : ParsesTo d text v) (hm : ElementsParse d more es) (ht : 1 ≤ text.length) :
    ElementsParse d (text ++ 44 :: more) (v :: es) := by
  intro f rest hf
  obtain ⟨f, rfl⟩ : ∃ k, f = k + 1 := ⟨f - 1, by omega⟩
  simp only [List.length_append, List.length_cons] at hf
  have e : text ++ 44 :: more ++ 93 :: rest = text ++ (44 :: (more ++ 93 :: rest)) := by simp
  rw [e, parseElements_step f d _ v _ (h f _ (by omega)), skipSpace_cons 44 _ rfl]
  simp only [show (44 : Nat) ≠ 93 by decide, if_false, if_true, hm f rest (by omega)]

theorem elementsParse_strings (d : Nat) (xs : List Bytes) (hne : xs ≠ [])
    (h : ∀ x ∈ xs, validUTF8 x = true) :
    ElementsParse d (encodeElems xs) (xs.map strTree) := by
  induction xs with
  | nil => exact absurd rfl hne
  | cons x t ih =>
    cases t with
    | nil => exact elementsParse_single d _ _ (parsesTo_string d x (h x (by simp)))
    | cons y t' =>
      have := ih (by simp) (fun z hz => h z (by simp [hz]))
      exact elementsParse_cons d _ _ _ _ (parsesTo_string d x (h x (by simp))) this
        (by have := appendString_length x; omega)

theorem parsesTo_array (d : Nat) (text : Bytes) (es : List JValue) (c : Nat) (t : Bytes)
    (ht : text = c :: t) (hc : isSpace c = false) (hc' : c ≠ 93)
    (hd : d + 1 ≤ maxNestingDepth) (h : ElementsParse (d + 1) text es) :
    ParsesTo d (91 :: (text ++ [93])) (.array (91 :: (text ++ [93])) es) := by
  intro f rest hf
  obtain ⟨f, rfl⟩ : ∃ k, f = k + 1 := ⟨f - 1, by omega⟩
  simp only [List.length_cons, List.length_append, List.length_nil] at hf
  have e : 91 :: (text ++ [93]) ++ rest = 91 :: c :: (t ++ 93 :: rest) := by simp [ht]
  have e' : c :: (t ++ 93 :: rest) = text ++ 93 :: rest := by simp [ht]
  rw [e, parseValue_array f d c _ hd hc hc', e', h f rest (by omega)]
  simp only
  rw [← e', ← e, consumed_append]

theorem encodeElems_head (x : Bytes) (t : List Bytes) :
    ∃ r, encodeElems (x :: t) = 34 :: r := by
  cases t with
  | nil => exact ⟨_, rfl⟩
  | cons y t' => exact ⟨_, rfl⟩

theorem parsesTo_stringSlice (d : Nat) (o : Option (List Bytes)) (hd : d + 1 ≤ maxNestingDepth)
    (h : ∀ xs, o = some xs → ∀ x ∈ xs, validUTF8 x = true) :
    ParsesTo d (encodeStringSlice o) (sliceTree o) := by
  cases o with
  | none => exact parsesTo_null d
  | some xs =>
    cases xs with
    | nil =>
      intro f rest hf
      obtain ⟨f, rfl⟩ : ∃ k, f = k + 1 := ⟨f - 1, by omega⟩
      exact parseValue_emptyArray f d rest hd
    | cons x t =>
      obtain ⟨r, hr⟩ := encodeElems_head x t
      exact parsesTo_array d _ _ 34 r hr rfl (by decide) hd
        (elementsParse_strings (d + 1) (x :: t) (by simp) (h _ rfl))

theorem membersParse_single (d : Nat) (k text : Bytes) (v : JValue) (hk : validUTF8 k = true)
    (h : ParsesTo d text v) :
    MembersParse d (appendString k ++ 58 :: text) [(appendString k, v)] := by
  intro f rest hf
  obtain ⟨f, rfl⟩ : ∃ k, f = k + 1 := ⟨f - 1, by omega⟩
  simp only [List.length_append, List.length_cons] at hf
  have hs := scanString_appendStringLoop k.length k hk (58 :: (text ++ 125 :: rest))
  have e : appendString k ++ 58 :: text ++ 125 :: rest
      = 34 :: (appendStringLoop k.length k ++ 34 :: 58 :: (text ++ 125 :: rest)) := by
    simp [appendString]
  have e2 : 34 :: (appendStringLoop k.length k ++ 34 :: 58 :: (text ++ 125 :: rest))
      = appendString k ++ 58 :: (text ++ 125 :: rest) := by simp [appendString]
  rw [e, parseMembers_step f d _ _ _ v _ hs rfl (h f _ (by omega)), skipSpace_cons 125 _ rfl,
    e2, consumed_append]
  rfl

theorem membersParse_cons (d : Nat) (k text more : Bytes) (v : JValue)
    (ms : List (Bytes × JValue)) (hk : validUTF8 k = true) (h : ParsesTo d text v)
    (hm : MembersParse d more ms) :
    MembersParse d (appendString k ++ 58 :: text ++ 44 :: more) ((appendString k, v) :: ms) := by
  intro f rest hf
  obtain ⟨f, rfl⟩ : ∃ k, f = k + 1 := ⟨f - 1, by omega⟩
  simp only [List.length_append, List.length_cons] at hf
  have hs := scanString_appendStringLoop k.length k hk
    (58 :: (text ++ 44 :: (more ++ 125 :: rest)))
  have e : appendString k ++ 58 :: text ++ 44 :: more ++ 125 :: rest
      = 34 :: (appendStringLoop k.length k ++ 34 :: 58 :: (text ++ 44 :: (more ++ 125 :: rest))) := by
    simp [appendString]
  have e2 : 34 :: (appendStringLoop k.length k ++ 34 :: 58 :: (text ++ 44 :: (more ++ 125 :: rest)))
      = appendString k ++ 58 :: (text ++ 44 :: (more ++ 125 :: rest)) := by simp [appendString]
  rw [e, parseMembers_step f d _ _ _ v _ hs rfl (h f _ (by omega)), skipSpace_cons 44 _ rfl,
    e2, consumed_append]
  simp only [show (44 : Nat) ≠ 125 by decide, if_false, if_true, hm f rest (by omega)]

theorem parsesTo_object (d : Nat) (text : Bytes) (ms : List (Bytes × JValue)) (t : Bytes)
    (ht : text = 34 :: t) (hd : d + 1 ≤ maxNestingDepth) (h : MembersParse (d + 1) text ms) :
    ParsesTo d (123 :: (text ++ [125])) (.object (123 :: (text ++ [125])) ms) := by
  intro f rest hf
  obtain ⟨f, rfl⟩ : ∃ k, f = k + 1 := ⟨f - 1, by omega⟩
  simp only [List.length_cons, List.length_append, List.length_nil] at hf
  have e : 123 :: (text ++ [125]) ++ rest = 123 :: 34 :: (t ++ 125 :: rest) := by simp [ht]
  have e' : 34 :: (t ++ 125 :: rest) = text ++ 125 :: rest := by simp [ht]
  rw [e, parseValue_object f d 34 _ hd rfl (by decide), e', h f rest (by omega)]
  simp only
  rw [← e', ← e, consumed_append]

/-! ## Maps -/

theorem bytesLt_irrefl (a : Bytes) : bytesLt a a = false := by
  induction a with
  | nil => rfl
  | cons x t ih => simp [bytesLt, ih]

theorem bytesLt_asymm (a b : Bytes) (h : bytesLt a b = true) : bytesLt b a = false := by
  induction a generalizing b with
  | nil => cases b <;> simp [bytesLt] at h ⊢
  | cons x t ih =>
    cases b with
    | nil => simp [bytesLt] at h
    | cons y u =>
      simp only [bytesLt, Bool.or_eq_true, decide_eq_true_eq, Bool.and_eq_true, beq_iff_eq] at h
      simp only [bytesLt, Bool.or_eq_false_iff, decide_eq_false_iff_not, Bool.and_eq_false_iff,
        beq_eq_false_iff_ne]
      rcases h with h | ⟨rfl, h⟩
      · exact ⟨by omega, Or.inl (by omega)⟩
      · exact ⟨by omega, Or.inr (ih u h)⟩

theorem sortEntries_sorted {α : Type} (m : GoMap α) (h : GoMap.sorted m = true) :
    sortEntries m = m := by
  unfold sortEntries
  apply List.Sorted.insertionSort_eq
  induction m with
  | nil => exact List.Pairwise.nil
  | cons a t ih =>
    simp only [GoMap.sorted, Bool.and_eq_true, List.all_eq_true] at h
    refine List.Pairwise.cons ?_ (ih h.2)
    intro b hb
    simp [bytesLt_asymm _ _ (h.1 b hb)]

theorem GoMap.insert_last {α : Type} (k : Bytes) (v : α) (m : GoMap α)
    (h : ∀ e ∈ m, bytesLt e.1 k = true) : GoMap.insert k v m = m ++ [(k, v)] := by
  induction m with
  | nil => rfl
  | cons e t ih =>
    obtain ⟨k', v'⟩ := e
    have hlt : bytesLt k' k = true := h (k', v') (by simp)
    have hne : k ≠ k' := by
      intro he; subst he; rw [bytesLt_irrefl] at hlt; exact absurd hlt (by simp)
    rw [GoMap.insert, if_neg hne, bytesLt_asymm _ _ hlt]
    simp only [Bool.false_eq_true, if_false, List.cons_append]
    rw [ih (fun e he => h e (by simp [he]))]

theorem sorted_append_cons {α : Type} (m1 : GoMap α) (e : Bytes × α) (m2 : GoMap α)
    (h : GoMap.sorted (m1 ++ e :: m2) = true) :
    (∀ x ∈ m1, bytesLt x.1 e.1 = true) ∧ GoMap.sorted ((m1 ++ [e]) ++ m2) = true := by
  constructor
  · induction m1 with
    | nil => intro x hx; simp at hx
    | cons a t ih =>
      simp only [List.cons_append, GoMap.sorted, Bool.and_eq_true, List.all_eq_true] at h
      intro x hx
      rcases List.mem_cons.1 hx with rfl | hx
      · exact h.1 e (by simp)
      · exact ih h.2 x hx
  · simpa using h

/-! ## The decoders read back what the encoders wrote -/

theorem decodeString_strTree (s old : Bytes) (h : validUTF8 s = true) :
    decodeString (strTree s) old = (s, none) := by
  have hu := unquoteBytes_appendString s h
  simp only [strTree, decodeString]
  rw [appendString_eq] at hu ⊢
  simp only [hu, show (34 : Nat) ≠ 110 by decide, if_false, if_true]

theorem decodeElems_strings (xs : List Bytes) (h : ∀ x ∈ xs, validUTF8 x = true) :
    decodeElems (xs.map strTree) [] [] = (xs, [], none) := by
  induction xs with
  | nil => rfl
  | cons x t ih =>
    simp only [List.map_cons, decodeElems, decodeString_strTree x [] (h x (by simp)),
      ih (fun z hz => h z (by simp [hz])), saveError]

theorem decodeStringSlice_sliceTree (o : Option (List Bytes))
    (h : ∀ xs, o = some xs → ∀ x ∈ xs, validUTF8 x = true) :
    decodeStringSlice (sliceTree o) ⟨none, []⟩ = (⟨o, []⟩, none) := by
  cases o with
  | none => simp [sliceTree, decodeStringSlice]
  | some xs =>
    cases xs with
    | nil => simp [sliceTree, decodeStringSlice]
    | cons x t =>
      have := decodeElems_strings (x :: t) (h _ rfl)
      simp only [List.map_cons] at this
      simp only [sliceTree, decodeStringSlice, List.map_cons, Option.getD_none, this]

theorem membersParse_stringEntries (d : Nat) (m : List (Bytes × Bytes)) (hne : m ≠ [])
    (h : validEntries m = true) :
    MembersParse d (encodeStringEntries m) (stringMembers m) := by
  induction m with
  | nil => exact absurd rfl hne
  | cons e t ih =>
    obtain ⟨k, v⟩ := e
    simp only [validEntries, List.all_cons, Bool.and_eq_true] at h
    cases t with
    | nil =>
      exact membersParse_single d k _ _ h.1.1 (parsesTo_string d v h.1.2)
    | cons e' t' =>
      have := ih (by simp) h.2
      have hc := membersParse_cons d k _ _ _ _ h.1.1 (parsesTo_string d v h.1.2) this
      simpa [encodeStringEntries, stringMembers] using hc

theorem encodeStringEntries_head (e : Bytes × Bytes) (t : List (Bytes × Bytes)) :
    ∃ r, encodeStringEntries (e :: t) = 34 :: r := by
  obtain ⟨k, v⟩ := e
  cases t with
  | nil => exact ⟨_, rfl⟩
  | cons y t' => exact ⟨_, rfl⟩

theorem parsesTo_stringMap (d : Nat) (o : Option (GoMap Bytes)) (hd : d + 1 ≤ maxNestingDepth)
    (hs : ∀ m, o = some m → GoMap.sorted m = true ∧ validEntries m = true) :
    ParsesTo d (encodeStringMap o) (stringMapTree o) := by
  cases o with
  | none => exact parsesTo_null d
  | some m =>
    obtain ⟨hsort, hval⟩ := hs m rfl
    simp only [encodeStringMap, sortEntries_sorted m hsort]
    cases m with
    | nil =>
      intro f rest hf
      obtain ⟨f, rfl⟩ : ∃ k, f = k + 1 := ⟨f - 1, by omega⟩
      exact parseValue_emptyObject f d rest hd
    | cons e t =>
      obtain ⟨r, hr⟩ := encodeStringEntries_head e t
      exact parsesTo_object d _ _ r hr hd (membersParse_stringEntries (d + 1) _ (by simp) hval)

theorem decodeStringMembers_entries (m2 : List (Bytes × Bytes)) :
    ∀ m1 : GoMap Bytes, GoMap.sorted (m1 ++ m2) = true → validEntries m2 = true →
      decodeStringMembers (stringMembers m2) m1 = (m1 ++ m2, none) := by
  induction m2 with
  | nil => intro m1 _ _; simp [stringMembers, decodeStringMembers]
  | cons e t ih =>
    intro m1 hs hv
    obtain ⟨k, v⟩ := e
    simp only [validEntries, List.all_cons, Bool.and_eq_true] at hv
    obtain ⟨hlt, hs'⟩ := sorted_append_cons m1 (k, v) t hs
    have := ih (m1 ++ [(k, v)]) hs' hv.2
    have hstep : decodeStringMembers (stringMembers ((k, v) :: t)) m1
        = match decodeStringMembers (stringMembers t) (GoMap.insert k v m1) with
          | (m', e') => (m', saveError none e') := by
      simp only [stringMembers, List.map_cons, decodeStringMembers,
        unquoteBytes_appendString k hv.1.1, decodeString_strTree v [] hv.1.2]
    rw [hstep, GoMap.insert_last k v m1 hlt, this]
    simp [saveError]

theorem decodeStringMap_tree (o : Option (GoMap Bytes))
    (hs : ∀ m, o = some m → GoMap.sorted m = true ∧ validEntries m = true) :
    decodeStringMap (stringMapTree o) none = (o, none) := by
  cases o with
  | none => simp [stringMapTree, decodeStringMap]
  | some m =>
    obtain ⟨hsort, hval⟩ := hs m rfl
    cases m with
    | nil => simp [stringMapTree, decodeStringMap, decodeStringMembers]
    | cons e t =>
      have := decodeStringMembers_entries (e :: t) [] (by simpa using hsort) hval
      simp only [stringMapTree, decodeStringMap, Option.getD_none, this, List.nil_append]

/-! ## The text of a duration is well-formed UTF-8 -/

theorem AsciiPre.refl (s : Bytes) : AsciiPre s s := ⟨[], by simp, rfl⟩

theorem AsciiPre.trans {a b c : Bytes} (h1 : AsciiPre a b) (h2 : AsciiPre b c) : AsciiPre a c := by
  obtain ⟨p1, hp1, rfl⟩ := h1
  obtain ⟨p2, hp2, rfl⟩ := h2
  refine ⟨p1 ++ p2, ?_, by simp⟩
  intro x hx
  rcases List.mem_append.1 hx with h | h
  · exact hp1 x h
  · exact hp2 x h

theorem AsciiPre.cons (c : Nat) (s : Bytes) (hc : c < 0x80) : AsciiPre (c :: s) s :=
  ⟨[c], by simpa using hc, rfl⟩

theorem validUTF8Loop_ascii (a : Bytes) (t : Bytes) (n : Nat) (h : ∀ x ∈ a, x < 0x80) :
    validUTF8Loop (a.length + n) (a ++ t) = validUTF8Loop n t := by
  induction a with
  | nil => simp
  | cons x a' ih =>
    have hx := h x (by simp)
    have e : (x :: a').length + n = (a'.length + n) + 1 := by simp; omega
    rw [e, List.cons_append, validUTF8Loop, decodeRune, if_pos hx]
    simp only
    rw [if_neg (by simp only [RuneError]; omega)]
    simpa using ih (fun y hy => h y (by simp [hy]))

theorem validUTF8_of_asciiPre (s t : Bytes) (h : AsciiPre s t) (ht : validUTF8 t = true) :
    validUTF8 s = true := by
  obtain ⟨pre, hp, rfl⟩ := h
  unfold validUTF8 at ht ⊢
  rw [List.length_append, validUTF8Loop_ascii pre t t.length hp]
  exact ht

theorem fmtInt_asciiPre (buf : Bytes) (v : Nat) : AsciiPre (fmtInt buf v) buf := by
  obtain ⟨d, ds, hd, hds, h⟩ := fmtInt_digits buf v
  refine ⟨d :: ds, ?_, by rw [h]; rfl⟩
  intro x hx
  have : isDigit x = true := by
    rcases List.mem_cons.1 hx with rfl | hx
    · exact hd
    · exact hds x hx
  simp only [isDigit, Bool.and_eq_true, decide_eq_true_eq] at this
  omega

theorem fmtFracLoop_asciiPre (n : Nat) : ∀ (buf : Bytes) (v : Nat) (p : Bool),
    AsciiPre (fmtFracLoop n buf v p).1 buf := by
  induction n with
  | zero => intro buf v p; exact AsciiPre.refl _
  | succ n ih =>
    intro buf v p
    simp only [fmtFracLoop]
    refine AsciiPre.trans (ih _ _ _) ?_
    split
    · exact AsciiPre.cons _ _ (by omega)
    · exact AsciiPre.refl _

theorem fmtFrac_asciiPre (buf : Bytes) (v prec : Nat) : AsciiPre (fmtFrac buf v prec).1 buf := by
  unfold fmtFrac
  have := fmtFracLoop_asciiPre prec buf v false
  rcases hres : fmtFracLoop prec buf v false with ⟨b, v', pr⟩
  rw [hres] at this
  simp only
  split
  · exact AsciiPre.trans (AsciiPre.cons _ _ (by omega)) this
  · exact this

theorem formatSeconds_asciiPre (u : Nat) : AsciiPre (formatSeconds u) [115] := by
  unfold formatSeconds
  have h1 := fmtFrac_asciiPre [115] u 9
  rcases hfr : fmtFrac [115] u 9 with ⟨buf, u'⟩
  rw [hfr] at h1
  simp only at h1 ⊢
  have hB := AsciiPre.trans (fmtInt_asciiPre buf (u' % 60)) h1
  split
  · have hM := AsciiPre.trans (fmtInt_asciiPre (109 :: fmtInt buf (u' % 60)) (u' / 60 % 60))
      (AsciiPre.trans (AsciiPre.cons 109 _ (by omega)) hB)
    split
    · exact AsciiPre.trans (fmtInt_asciiPre _ _) (AsciiPre.trans (AsciiPre.cons 104 _ (by omega)) hM)
    · exact hM
  · exact hB

theorem formatSubSecond_valid (u : Nat) : validUTF8 (formatSubSecond u) = true := by
  have key : ∀ (ub : Bytes) (prec : Nat), validUTF8 ub = true →
      validUTF8 (fmtInt (fmtFrac ub u prec).1 (fmtFrac ub u prec).2) = true := by
    intro ub prec hub
    exact validUTF8_of_asciiPre _ _
      (AsciiPre.trans (fmtInt_asciiPre _ _) (fmtFrac_asciiPre ub u prec)) hub
  unfold formatSubSecond
  split
  · exact key [110, 115] 0 (by decide)
  · split
    · exact key [194, 181, 115] 3 (by decide)
    · exact key [109, 115] 6 (by decide)

/-- The text of `Duration.String` is well-formed UTF-8. -/
theorem validUTF8_durationString (d : Int) : validUTF8 (Duration.String d) = true := by
  have hs : ∀ u, validUTF8 (formatSeconds u) = true := fun u =>
    validUTF8_of_asciiPre _ _ (formatSeconds_asciiPre u) (by decide)
  have hneg : ∀ s, validUTF8 s = true → validUTF8 (45 :: s) = true := fun s h =>
    validUTF8_of_asciiPre _ _ (AsciiPre.cons 45 _ (by omega)) h
  unfold Duration.String
  simp only
  generalize (if d < 0 then (2 ^ 64 - toUint64 d) % 2 ^ 64 else toUint64 d) = u
  by_cases h1 : u < Second
  · rw [if_pos h1]
    by_cases h2 : u = 0
    · rw [if_pos h2]; decide
    · rw [if_neg h2]
      by_cases h3 : d < 0
      · rw [if_pos h3]; exact hneg _ (formatSubSecond_valid _)
      · rw [if_neg h3]; exact formatSubSecond_valid _
  · rw [if_neg h1]
    by_cases h3 : d < 0
    · rw [if_pos h3]; exact hneg _ (hs _)
    · rw [if_neg h3]; exact hs _

/-! ## The command label -/

theorem marshalJSON_eq (l : CommandLabel) : l.MarshalJSON = 123 :: (labelText l ++ [125]) := by
  have e1 : ascii "\x7b\"period\":" = 123 :: (appendString (ascii "period") ++ [58]) := by decide
  have e2 : ascii ",\"command\":" = 44 :: (appendString (ascii "command") ++ [58]) := by decide
  have e3 : ascii ",\"result\":" = 44 :: (appendString (ascii "result") ++ [58]) := by decide
  simp only [CommandLabel.MarshalJSON, Marshal_commandLabel, labelText, e1, e2, e3]
  simp

theorem CommandLabel.valid_command (l : CommandLabel) (h : l.valid = true) :
    ∀ xs, l.Command = some xs → ∀ x ∈ xs, validUTF8 x = true := by
  intro xs hxs x hx
  simp only [CommandLabel.valid, Bool.and_eq_true, hxs, List.all_eq_true] at h
  exact h.2 x hx

theorem parsesTo_label (d : Nat) (l : CommandLabel) (h : l.valid = true)
    (hd : d + 2 ≤ maxNestingDepth) : ParsesTo d l.MarshalJSON (labelTree l) := by
  have hv := h
  simp only [CommandLabel.valid, Bool.and_eq_true, decide_eq_true_eq] at hv
  have hm : MembersParse (d + 1) (labelText l) (labelMembers l) :=
    membersParse_cons (d + 1) _ _ _ _ _ (by decide)
      (parsesTo_string (d + 1) _ (validUTF8_durationString l.Period))
      (membersParse_cons (d + 1) _ _ _ _ _ (by decide)
        (parsesTo_stringSlice (d + 1) l.Command (by omega) (l.valid_command h))
        (membersParse_single (d + 1) _ _ _ (by decide) (parsesTo_string (d + 1) _ hv.1.2)))
  have := parsesTo_object d (labelText l) (labelMembers l) _ rfl (by omega) hm
  rw [labelTree, marshalJSON_eq]
  exact this

theorem parseJSON_of_parsesTo (text : Bytes) (v : JValue) (h : ParsesTo 0 text v) :
    parseJSON text = some v := by
  have := h (2 * text.length + 2) [] (by omega)
  rw [List.append_nil] at this
  simp [parseJSON, this, skipSpace]

theorem decodeLabel_labelTree (l : CommandLabel) (h : l.valid = true) :
    decodeLabel (labelTree l) commandLabel.zero
      = (⟨Duration.String l.Period, ⟨l.Command, []⟩, l.Result⟩, none) := by
  have hv := h
  simp only [CommandLabel.valid, Bool.and_eq_true, decide_eq_true_eq] at hv
  have k1 : unquoteBytes (appendString (ascii "period")) = some (ascii "period") := by decide
  have k2 : unquoteBytes (appendString (ascii "command")) = some (ascii "command") := by decide
  have k3 : unquoteBytes (appendString (ascii "result")) = some (ascii "result") := by decide
  have f1 : findField commandLabelFields (ascii "period") = some 0 := by decide
  have f2 : findField commandLabelFields (ascii "command") = some 1 := by decide
  have f3 : findField commandLabelFields (ascii "result") = some 2 := by decide
  simp only [labelTree, decodeLabel, labelMembers, decodeLabelMembers, k1, k2, k3, f1, f2, f3,
    commandLabel.zero, decodeString_strTree _ _ (validUTF8_durationString l.Period),
    decodeString_strTree _ _ hv.1.2, decodeStringSlice_sliceTree l.Command (l.valid_command h),
    saveError]

/-- `UnmarshalJSON` reads back what `MarshalJSON` wrote. -/
theorem unmarshalJSON_marshalJSON (l0 l : CommandLabel) (h : l.valid = true) :
    CommandLabel.UnmarshalJSON l0 l.MarshalJSON = (l, none) := by
  have hp := parseJSON_of_parsesTo _ _ (parsesTo_label 0 l h (by decide))
  have hv := h
  simp only [CommandLabel.valid, Bool.and_eq_true, decide_eq_true_eq] at hv
  simp only [CommandLabel.UnmarshalJSON, Unmarshal_commandLabel, hp, decodeLabel_labelTree l h,
    parseDuration_string l.Period hv.1.1.1 hv.1.1.2]

theorem compactElems_strings (xs : List Bytes) (h : ∀ x ∈ xs, validUTF8 x = true) :
    compactElems (xs.map strTree) = encodeElems xs := by
  induction xs with
  | nil => rfl
  | cons x t ih =>
    have hx := escapeHTML_appendString x (h x (by simp))
    have := ih (fun z hz => h z (by simp [hz]))
    cases t with
    | nil => simp [compactElems, compactValue, strTree, encodeElems, hx]
    | cons y t' =>
      simp only [List.map_cons] at this ⊢
      simp only [compactElems, compactValue, strTree, encodeElems, hx]
      simp only [strTree] at this
      rw [this]

theorem compactValue_sliceTree (o : Option (List Bytes))
    (h : ∀ xs, o = some xs → ∀ x ∈ xs, validUTF8 x = true) :
    compactValue (sliceTree o) = encodeStringSlice o := by
  cases o with
  | none => decide
  | some xs =>
    cases xs with
    | nil => simp [sliceTree, compactValue, compactElems, encodeStringSlice, encodeElems]
    | cons x t =>
      have := compactElems_strings (x :: t) (h _ rfl)
      simp only [List.map_cons] at this
      simp only [sliceTree, compactValue, encodeStringSlice, List.map_cons, this]

/-- `appendCompact` leaves what `MarshalJSON` wrote as it is. -/
theorem compact_marshalJSON (l : CommandLabel) (h : l.valid = true) :
    compact l.MarshalJSON = some l.MarshalJSON := by
  have hp := parseJSON_of_parsesTo _ _ (parsesTo_label 0 l h (by decide))
  have hv := h
  simp only [CommandLabel.valid, Bool.and_eq_true, decide_eq_true_eq] at hv
  have k1 : escapeHTML (appendString (ascii "period")) = appendString (ascii "period") := by
    decide
  have k2 : escapeHTML (appendString (ascii "command")) = appendString (ascii "command") := by
    decide
  have k3 : escapeHTML (appendString (ascii "result")) = appendString (ascii "result") := by
    decide
  simp only [compact, hp, Option.map_some', labelTree, compactValue, labelMembers,
    compactMembers, strTree, k1, k2, k3,
    escapeHTML_appendString _ (validUTF8_durationString l.Period),
    escapeHTML_appendString _ hv.1.2]
  have := compactValue_sliceTree l.Command (l.valid_command h)
  rw [this, marshalJSON_eq, labelText]

/-! ## The server record -/

theorem encodeCmdEntries_valid (m : List (Bytes × CommandLabel)) (h : validCmdEntries m = true) :
    encodeCmdEntries m = some (cmdEntriesText m) := by
  induction m with
  | nil => rfl
  | cons e t ih =>
    obtain ⟨k, v⟩ := e
    simp only [validCmdEntries, List.all_cons, Bool.and_eq_true] at h
    have hc := compact_marshalJSON v h.1.2
    have := ih h.2
    cases t with
    | nil => simp [encodeCmdEntries, cmdEntriesText, hc]
    | cons e' t' => simp only [encodeCmdEntries, cmdEntriesText, hc, this]

theorem encodeCmdMap_valid (o : Option (GoMap CommandLabel))
    (hs : ∀ m, o = some m → GoMap.sorted m = true ∧ validCmdEntries m = true) :
    encodeCmdMap o = some (cmdMapText o) := by
  cases o with
  | none => rfl
  | some m =>
    obtain ⟨hsort, hval⟩ := hs m rfl
    simp [encodeCmdMap, cmdMapText, sortEntries_sorted m hsort, encodeCmdEntries_valid m hval]

theorem membersParse_cmdEntries (d : Nat) (m : List (Bytes × CommandLabel)) (hne : m ≠ [])
    (h : validCmdEntries m = true) (hd : d + 2 ≤ maxNestingDepth) :
    MembersParse d (cmdEntriesText m) (cmdMembers m) := by
  induction m with
  | nil => exact absurd rfl hne
  | cons e t ih =>
    obtain ⟨k, v⟩ := e
    simp only [validCmdEntries, List.all_cons, Bool.and_eq_true] at h
    cases t with
    | nil =>
      exact membersParse_single d k _ _ h.1.1 (parsesTo_label d v h.1.2 hd)
    | cons e' t' =>
      have := ih (by simp) h.2
      have hc := membersParse_cons d k _ _ _ _ h.1.1 (parsesTo_label d v h.1.2 hd) this
      simpa [cmdEntriesText, cmdMembers] using hc

theorem cmdEntriesText_head (e : Bytes × CommandLabel) (t : List (Bytes × CommandLabel)) :
    ∃ r, cmdEntriesText (e :: t) = 34 :: r := by
  obtain ⟨k, v⟩ := e
  cases t with
  | nil => exact ⟨_, rfl⟩
  | cons y t' => exact ⟨_, rfl⟩

theorem parsesTo_cmdMap (d : Nat) (o : Option (GoMap CommandLabel))
    (hd : d + 3 ≤ maxNestingDepth)
    (hs : ∀ m, o = some m → GoMap.sorted m = true ∧ validCmdEntries m = true) :
    ParsesTo d (cmdMapText o) (cmdMapTree o) := by
  cases o with
  | none => exact parsesTo_null d
  | some m =>
    obtain ⟨hsort, hval⟩ := hs m rfl
    cases m with
    | nil =>
      intro f rest hf
      obtain ⟨f, rfl⟩ : ∃ k, f = k + 1 := ⟨f - 1, by omega⟩
      exact parseValue_emptyObject f d rest (by omega)
    | cons e t =>
      obtain ⟨r, hr⟩ := cmdEntriesText_head e t
      exact parsesTo_object d _ _ r hr (by omega)
        (membersParse_cmdEntries (d + 1) _ (by simp) hval (by omega))

theorem labelTree_raw (l : CommandLabel) : (labelTree l).raw = l.MarshalJSON := rfl

theorem decodeCmdMembers_entries {impl : JsonImpl} (m2 : List (Bytes × CommandLabel)) :
    ∀ m1 : GoMap CommandLabel, GoMap.sorted (m1 ++ m2) = true → validCmdEntries m2 = true →
      decodeCmdMembers impl (cmdMembers m2) m1 = (m1 ++ m2, none) := by
  induction m2 with
  | nil => intro m1 _ _; simp [cmdMembers, decodeCmdMembers]
  | cons e t ih =>
    intro m1 hs hv
    obtain ⟨k, v⟩ := e
    simp only [validCmdEntries, List.all_cons, Bool.and_eq_true] at hv
    obtain ⟨hlt, hs'⟩ := sorted_append_cons m1 (k, v) t hs
    have := ih (m1 ++ [(k, v)]) hs' hv.2
    have hstep : decodeCmdMembers impl (cmdMembers ((k, v) :: t)) m1
        = decodeCmdMembers impl (cmdMembers t) (GoMap.insert k v m1) := by
      simp only [cmdMembers, List.map_cons, decodeCmdMembers,
        unquoteBytes_appendString k hv.1.1, labelTree_raw,
        unmarshalJSON_marshalJSON CommandLabel.zero v hv.1.2]
    rw [hstep, GoMap.insert_last k v m1 hlt, this]
    simp

theorem decodeCmdMap_tree {impl : JsonImpl} (o : Option (GoMap CommandLabel))
    (hs : ∀ m, o = some m → GoMap.sorted m = true ∧ validCmdEntries m = true) :
    decodeCmdMap impl (cmdMapTree o) none = (o, none, none) := by
  cases o with
  | none => simp [cmdMapTree, decodeCmdMap]
  | some m =>
    obtain ⟨hsort, hval⟩ := hs m rfl
    cases m with
    | nil => cases impl <;> simp [cmdMapTree, decodeCmdMap, decodeCmdMembers]
    | cons e t =>
      have := @decodeCmdMembers_entries impl (e :: t) [] (by simpa using hsort) hval
      cases impl <;>
        simp only [cmdMapTree, decodeCmdMap, Option.getD_none, this, List.nil_append]

theorem Server.valid_labels (s : Server) (h : s.valid = true) :
    ∀ m, s.Labels = some m → GoMap.sorted m = true ∧ validEntries m = true := by
  intro m hm
  simp only [Server.valid, Bool.and_eq_true, hm] at h
  exact h.1.2

theorem Server.valid_cmdLabels (s : Server) (h : s.valid = true) :
    ∀ m, s.CmdLabels = some m → GoMap.sorted m = true ∧ validCmdEntries m = true := by
  intro m hm
  simp only [Server.valid, Bool.and_eq_true, hm] at h
  exact h.2

theorem marshal_server_eq (s : Server) (h : s.valid = true) :
    Marshal_Server s = some (123 :: (serverText s ++ [125])) := by
  have e1 : ascii "\x7b\"id\":" = 123 :: (appendString (ascii "id") ++ [58]) := by decide
  have e2 : ascii ",\"addr\":" = 44 :: (appendString (ascii "addr") ++ [58]) := by decide
  have e3 : ascii ",\"hostname\":" = 44 :: (appendString (ascii "hostname") ++ [58]) := by
    decide
  have e4 : ascii ",\"labels\":" = 44 :: (appendString (ascii "labels") ++ [58]) := by decide
  have e5 : ascii ",\"cmd_labels\":" = 44 :: (appendString (ascii "cmd_labels") ++ [58]) := by
    decide
  simp only [Marshal_Server, encodeCmdMap_valid s.CmdLabels (s.valid_cmdLabels h),
    Option.map_some', serverText, e1, e2, e3, e4, e5]
  simp

theorem parsesTo_server (s : Server) (h : s.valid = true) :
    ParsesTo 0 (123 :: (serverText s ++ [125]))
      (.object (123 :: (serverText s ++ [125])) (serverMembers s)) := by
  have hv := h
  simp only [Server.valid, Bool.and_eq_true] at hv
  have hm : MembersParse 1 (serverText s) (serverMembers s) :=
    membersParse_cons 1 _ _ _ _ _ (by decide) (parsesTo_string 1 _ hv.1.1.1.1)
      (membersParse_cons 1 _ _ _ _ _ (by decide) (parsesTo_string 1 _ hv.1.1.1.2)
        (membersParse_cons 1 _ _ _ _ _ (by decide) (parsesTo_string 1 _ hv.1.1.2)
          (membersParse_cons 1 _ _ _ _ _ (by decide)
            (parsesTo_stringMap 1 s.Labels (by decide) (s.valid_labels h))
            (membersParse_single 1 _ _ _ (by decide)
              (parsesTo_cmdMap 1 s.CmdLabels (by decide) (s.valid_cmdLabels h))))))
  exact parsesTo_object 0 (serverText s) (serverMembers s) _ rfl (by decide) hm

theorem decodeServerMembers_serverMembers {impl : JsonImpl} (s : Server) (h : s.valid = true) :
    decodeServerMembers impl (serverMembers s) Server.zero = (s, none, none) := by
  have hv := h
  simp only [Server.valid, Bool.and_eq_true] at hv
  have k1 : unquoteBytes (appendString (ascii "id")) = some (ascii "id") := by decide
  have k2 : unquoteBytes (appendString (ascii "addr")) = some (ascii "addr") := by decide
  have k3 : unquoteBytes (appendString (ascii "hostname")) = some (ascii "hostname") := by
    decide
  have k4 : unquoteBytes (appendString (ascii "labels")) = some (ascii "labels") := by decide
  have k5 : unquoteBytes (appendString (ascii "cmd_labels")) = some (ascii "cmd_labels") := by
    decide
  have f1 : findField serverFields (ascii "id") = some 0 := by decide
  have f2 : findField serverFields (ascii "addr") = some 1 := by decide
  have f3 : findField serverFields (ascii "hostname") = some 2 := by decide
  have f4 : findField serverFields (ascii "labels") = some 3 := by decide
  have f5 : findField serverFields (ascii "cmd_labels") = some 4 := by decide
  simp only [serverMembers, decodeServerMembers, k1, k2, k3, k4, k5, f1, f2, f3, f4, f5,
    Server.zero, decodeString_strTree _ _ hv.1.1.1.1, decodeString_strTree _ _ hv.1.1.1.2,
    decodeString_strTree _ _ hv.1.1.2, decodeStringMap_tree s.Labels (s.valid_labels h),
    decodeCmdMap_tree s.CmdLabels (s.valid_cmdLabels h), saveError]

/-- `json.Unmarshal` into a zero `Server` reads back what `json.Marshal` wrote for a valid
`Server`. -/
theorem unmarshal_marshal_server {impl : JsonImpl} (s : Server) (h : s.valid = true) :
    ∃ data, Marshal_Server s = some data ∧ Unmarshal_Server impl data Server.zero = (s, none) := by
  refine ⟨_, marshal_server_eq s h, ?_⟩
  have hp := parseJSON_of_parsesTo _ _ (parsesTo_server s h)
  simp only [Unmarshal_Server, hp, decodeServer, decodeServerMembers_serverMembers s h,
    saveError]

/-! ## The claims on the serialized record -/

/-- Claim C4. Serialization round trip: for every valid `Server` (strings in well-formed
UTF-8, periods in the `int64` range), `json.Marshal` succeeds, and `json.Unmarshal` of its
bytes into a zero `Server` succeeds and yields the same `Server`, field for field, with
the `Period`, `Command` and `Result` of every command label. -/
theorem server_serialization_round_trip (impl : JsonImpl) (s : Server) (h : s.valid = true) :
    ∃ data, Marshal_Server s = some data ∧ Unmarshal_Server impl data Server.zero = (s, none) :=
  unmarshal_marshal_server s h

/-- Claim C4 at a server with a static label and a command label. -/
theorem server_serialization_round_trip_witness :
    sampleServer.valid = true ∧
    ∃ data, Marshal_Server sampleServer = some data ∧
      Unmarshal_Server .legacy data Server.zero = (sampleServer, none) :=
  ⟨by decide, server_serialization_round_trip .legacy sampleServer (by decide)⟩

/-- A string that is not well-formed UTF-8 is not read back: `json.Marshal` writes U+FFFD
for the byte `0xFF`. -/
theorem invalid_utf8_is_coerced :
    (Marshal_Server { Server.zero with ID := [0xFF] }).map
        (fun data => (Unmarshal_Server .legacy data Server.zero).1.ID)
      = some [0xEF, 0xBF, 0xBD] := by
  decide

/-- Claim C5. Duration codec round trip: for every `int64` count of nanoseconds `d`,
`time.ParseDuration` accepts the text of `d.String()`, which `MarshalJSON` writes as the
period, and returns exactly `d`. -/
theorem duration_codec_round_trip (d : Int) (hlo : -2 ^ 63 ≤ d) (hhi : d < 2 ^ 63) :
    ParseDuration (Duration.String d) = .ok d :=
  parseDuration_string d hlo hhi

/-- Claim C5 at the smallest `int64`, whose text is `-2562047h47m16.854775808s`. -/
theorem duration_codec_round_trip_witness :
    (-2 ^ 63 : Int) ≤ -9223372036854775808 ∧ (-9223372036854775808 : Int) < 2 ^ 63 ∧
    ParseDuration (Duration.String (-9223372036854775808)) = .ok (-9223372036854775808) :=
  ⟨by norm_num, by norm_num, duration_codec_round_trip _ (by norm_num) (by norm_num)⟩

/-- Claim C8, the counterexample. The period `"0"` is a number without unit, and
`UnmarshalJSON` accepts it: no error, and the receiver is assigned the period 0. -/
theorem unitless_period_counterexample :
    CommandLabel.UnmarshalJSON ⟨7, some [], [120]⟩ (ascii "\x7b\"period\":\"0\"\x7d")
      = (⟨0, none, []⟩, none) := by
  decide

/-- Claim C8, as amended. For every JSON text whose decoded period is a non-empty string
of decimal digits other than `"0"`, `UnmarshalJSON` returns an error and leaves the
receiver as it was. -/
theorem unitless_period_rejected (l : CommandLabel) (value : Bytes)
    (hne : (Unmarshal_commandLabel value commandLabel.zero).1.Period ≠ [])
    (hdigits : ∀ c ∈ (Unmarshal_commandLabel value commandLabel.zero).1.Period, isDigit c = true)
    (h0 : (Unmarshal_commandLabel value commandLabel.zero).1.Period ≠ [48]) :
    ∃ e, CommandLabel.UnmarshalJSON l value = (l, some e) := by
  unfold CommandLabel.UnmarshalJSON
  rcases hu : Unmarshal_commandLabel value commandLabel.zero with ⟨label, _ | err⟩
  · rw [hu] at hne hdigits h0
    obtain ⟨e, he⟩ := parseDuration_digits label.Period hne hdigits h0
    simp only [he]
    exact ⟨_, rfl⟩
  · exact ⟨err, rfl⟩

/-- Claim C8 as amended, at the period `"5"`. -/
theorem unitless_period_rejected_witness :
    (Unmarshal_commandLabel (ascii "\x7b\"period\":\"5\"\x7d") commandLabel.zero).1.Period = [53] ∧
    ∃ e, CommandLabel.UnmarshalJSON ⟨7, some [], [120]⟩ (ascii "\x7b\"period\":\"5\"\x7d")
      = (⟨7, some [], [120]⟩, some e) :=
  ⟨by decide, unitless_period_rejected _ _ (by decide) (by decide) (by decide)⟩

theorem memUpsert_find_self (path : List Bytes) (key val : Bytes) (ttl : Int)
    (st : List MemEntry) :
    (memUpsert path key val ttl st).find? (fun e => e.path = path ∧ e.key = key)
      = some ⟨path, key, val, ttl⟩ := by
  induction st with
  | nil => simp [memUpsert]
  | cons e t ih =>
    rw [memUpsert]
    split
    · simp
    · rename_i h
      simp only [List.find?_cons, h, decide_False]
      exact ih

theorem memUpsert_filter_self (path : List Bytes) (key val : Bytes) (ttl : Int)
    (st : List MemEntry) (h : st.filter (fun e => e.path = path) = []) :
    (memUpsert path key val ttl st).filter (fun e => e.path = path)
      = [⟨path, key, val, ttl⟩] := by
  induction st with
  | nil => simp [memUpsert]
  | cons e t ih =>
    have he : e.path ≠ path := by
      intro hp
      simp [List.filter_cons, hp] at h
    have ht : t.filter (fun e => e.path = path) = [] := by
      simpa [List.filter_cons, he] using h
    rw [memUpsert, if_neg (fun hc => he hc.1)]
    simp only [List.filter_cons, he, decide_False, Bool.false_eq_true, if_false]
    exact ih ht

theorem memUpsert_memUpsert (path : List Bytes) (key val val' : Bytes) (ttl ttl' : Int)
    (st : List MemEntry) :
    memUpsert path key val' ttl' (memUpsert path key val ttl st)
      = memUpsert path key val' ttl' st := by
  induction st with
  | nil => simp [memUpsert]
  | cons e t ih =>
    by_cases h : e.path = path ∧ e.key = key
    · simp [memUpsert, h]
    · simp only [memUpsert, h, if_false, ih]

/-- A list after a write of the encoding of a valid server into an empty namespace of the
in-memory backend returns that server alone. -/
theorem listServers_after_upsert {impl : JsonImpl} (path : List Bytes) (st : List MemEntry)
    (s : Server)
    (data : Bytes) (ttl : Int) (hs : s.valid = true) (hd : Marshal_Server s = some data)
    (hst : st.filter (fun e => e.path = path) = []) :
    listServers impl memBackend (memUpsert path s.ID data ttl st) path = (some [s], none) := by
  obtain ⟨data', hd', hu⟩ := @unmarshal_marshal_server impl s hs
  rw [hd] at hd'
  simp only [Option.some.injEq] at hd'
  subst hd'
  simp only [listServers, memBackend, memUpsert_filter_self path s.ID data ttl st hst,
    List.map_cons, List.map_nil, fetchServers, memUpsert_find_self, hu]

theorem listServers_empty {impl : JsonImpl} (path : List Bytes) (st : List MemEntry)
    (hst : st.filter (fun e => e.path = path) = []) :
    listServers impl memBackend st path = (some [], none) := by
  simp only [listServers, memBackend, hst, List.map_nil, fetchServers]

theorem memKeys_empty (st : List MemEntry) (path : List Bytes)
    (h : memBackend.GetKeys st path = .ok []) : st.filter (fun e => e.path = path) = [] := by
  simp only [memBackend, Except.ok.injEq, List.map_eq_nil_iff] at h
  exact h

theorem upsertServer_mem_valid (st : List MemEntry) (path : List Bytes) (s : Server) (ttl : Int)
    (hs : s.valid = true) :
    ∃ data, Marshal_Server s = some data ∧
      upsertServer memBackend st path s ttl = (memUpsert path s.ID data ttl st, none) := by
  have hd := marshal_server_eq s hs
  exact ⟨_, hd, by simp [upsertServer, hd, memBackend]⟩

/-- One write into an empty namespace, then the lists of both namespaces. -/
theorem single_upsert_lists {impl : JsonImpl} (path other : List Bytes) (hne : path ≠ other)
    (st : List MemEntry) (s : Server) (ttl : Int) (hs : s.valid = true)
    (h1 : memBackend.GetKeys st path = .ok []) (h2 : memBackend.GetKeys st other = .ok []) :
    (upsertServer memBackend st path s ttl).2 = none ∧
    listServers impl memBackend (upsertServer memBackend st path s ttl).1 path = (some [s], none) ∧
    listServers impl memBackend (upsertServer memBackend st path s ttl).1 other = (some [], none) := by
  obtain ⟨data, hd, hu⟩ := upsertServer_mem_valid st path s ttl hs
  rw [hu]
  refine ⟨rfl, listServers_after_upsert path st s data ttl hs hd (memKeys_empty st path h1), ?_⟩
  simp only
  rw [listServers_memUpsert path other s.ID data ttl hne st]
  exact listServers_empty other st (memKeys_empty st other h2)

/-- Two writes under one ID into an empty namespace, then the list and the record. -/
theorem upsert_twice_path {impl : JsonImpl} (path : List Bytes) (st : List MemEntry)
    (s s' : Server)
    (t1 t2 : Int) (hs : s.valid = true) (hs' : s'.valid = true) (hid : s.ID = s'.ID)
    (h1 : memBackend.GetKeys st path = .ok []) :
    listServers impl memBackend
        (upsertServer memBackend (upsertServer memBackend st path s t1).1 path s' t2).1 path
      = (some [s'], none) ∧
    ((upsertServer memBackend (upsertServer memBackend st path s t1).1 path s' t2).1.filter
        (fun e => e.path = path)).map (fun e => (e.key, e.ttl)) = [(s'.ID, t2)] := by
  obtain ⟨data, hd, hu⟩ := upsertServer_mem_valid st path s t1 hs
  obtain ⟨data', hd', hu'⟩ := upsertServer_mem_valid (memUpsert path s.ID data t1 st) path s' t2 hs'
  rw [hu]
  simp only
  rw [hu', hid, memUpsert_memUpsert]
  simp only
  exact ⟨listServers_after_upsert path st s' data' t2 hs' hd' (memKeys_empty st path h1),
    by rw [memUpsert_filter_self path s'.ID data' t2 st (memKeys_empty st path h1)]; rfl⟩

/-- Claim C1. For every valid `Server` and every time to live, over the in-memory backend
in a state with no keys in either namespace: `UpsertServer` succeeds, after it
`GetServers` returns without error the one server, equal field for field, and
`GetAuthServers` returns without error an empty slice. -/
theorem upsert_then_list (impl : JsonImpl) (st : List MemEntry) (s : Server) (ttl : Int)
    (hs : s.valid = true)
    (h1 : memBackend.GetKeys st serversPath = .ok [])
    (h2 : memBackend.GetKeys st authServersPath = .ok []) :
    (memService.UpsertServer st s ttl).2 = none ∧
    memService.GetServers impl (memService.UpsertServer st s ttl).1 = (some [s], none) ∧
    memService.GetAuthServers impl (memService.UpsertServer st s ttl).1 = (some [], none) :=
  single_upsert_lists serversPath authServersPath (by decide) st s ttl hs h1 h2

/-- Claim C1 at the example of the specification: `node1` with the time to live 0 on the
empty backend. -/
theorem upsert_then_list_witness :
    node1.valid = true ∧
    memBackend.GetKeys [] serversPath = .ok [] ∧
    memBackend.GetKeys [] authServersPath = .ok [] ∧
    (memService.UpsertServer [] node1 0).2 = none ∧
    memService.GetServers .legacy (memService.UpsertServer [] node1 0).1
      = (some [node1], none) ∧
    memService.GetAuthServers .legacy (memService.UpsertServer [] node1 0).1
      = (some [], none) :=
  ⟨by decide, rfl, rfl, upsert_then_list .legacy [] node1 0 (by decide) rfl rfl⟩

/-- Claim C2. For valid servers `s` and `s'` with one ID and times to live `t1` and `t2`,
over the in-memory backend in a state with no keys in either namespace: after
`UpsertServer(s, t1)` and `UpsertServer(s', t2)`, `GetServers` returns `s'` alone, and the
namespace holds one record, under that ID and with the time to live `t2`. The same holds
of `UpsertAuthServer` and `GetAuthServers`. -/
theorem upsert_overwrites (impl : JsonImpl) (st : List MemEntry) (s s' : Server)
    (t1 t2 : Int) (hs : s.valid = true) (hs' : s'.valid = true) (hid : s.ID = s'.ID)
    (h1 : memBackend.GetKeys st serversPath = .ok [])
    (h2 : memBackend.GetKeys st authServersPath = .ok []) :
    (memService.GetServers impl
        (memService.UpsertServer (memService.UpsertServer st s t1).1 s' t2).1
      = (some [s'], none) ∧
     ((memService.UpsertServer (memService.UpsertServer st s t1).1 s' t2).1.filter
        (fun e => e.path = serversPath)).map (fun e => (e.key, e.ttl)) = [(s'.ID, t2)]) ∧
    (memService.GetAuthServers impl
        (memService.UpsertAuthServer (memService.UpsertAuthServer st s t1).1 s' t2).1
      = (some [s'], none) ∧
     ((memService.UpsertAuthServer (memService.UpsertAuthServer st s t1).1 s' t2).1.filter
        (fun e => e.path = authServersPath)).map (fun e => (e.key, e.ttl)) = [(s'.ID, t2)]) :=
  ⟨upsert_twice_path serversPath st s s' t1 t2 hs hs' hid h1,
   upsert_twice_path authServersPath st s s' t1 t2 hs hs' hid h2⟩

/-- Claim C2 at `node1`, registered for good and then again, at another address and
without labels, for five seconds. -/
theorem upsert_overwrites_witness :
    node1.valid = true ∧ node1Moved.valid = true ∧ node1.ID = node1Moved.ID ∧
    memService.GetServers .legacy
        (memService.UpsertServer (memService.UpsertServer [] node1 0).1 node1Moved
          5000000000).1
      = (some [node1Moved], none) ∧
    ((memService.UpsertServer (memService.UpsertServer [] node1 0).1 node1Moved
        5000000000).1.filter (fun e => e.path = serversPath)).map (fun e => (e.key, e.ttl))
      = [(node1Moved.ID, 5000000000)] :=
  ⟨by decide, by decide, rfl,
    (upsert_overwrites .legacy [] node1 node1Moved 0 5000000000 (by decide) (by decide) rfl
      rfl rfl).1⟩

end Presence
